import Mathlib

/-!
Tick-stepped real-time scheduling simulators (EDF / RM).

A shallow embedding of the C sources `main.c`, `RM_Scheduler.c`,
`selfattempt.c` and `RM_EE_Scheduler.c`, followed by theorems about the ready
queue, the priority policies, the tick loop, the frequency selector and the
energy meter.

Modelling conventions.

* The ready queue `RQ[0 .. RQ_sz)` (`readyJobs[0 .. readyJobCount)`) is a
  `List Job`: the list holds exactly the live prefix of the C array and its
  length is the counter.  Slots at or above the counter are never read by the
  sources, so they are not represented.
* `int` indices and `task_id` are `Int`; the unsigned quantities are `Nat`.
  The simulated clock ranges over `0 .. 100` and all task parameters are
  32-bit, so none of the 64-bit quantities (`abs_deadline`, `job_seq`, the
  counters) can reach `2^64`; they are plain naturals.  The one operation on
  which wrap-around matters, the unguarded 32-bit `remaining--`, is `decr32`,
  which wraps from 0 to `2^32 - 1`; the unsigned subtractions of the window
  computation in `RM_EE_Scheduler.c` are `sub64`, which wraps modulo `2^64`.
* `tasks[a]` is `taskAt tasks a`; an out-of-range read (outside the C
  semantics) yields the all-zero task.
* The `printf`/`fprintf` lines are observational only and are not modelled.
* A `for` loop whose body leaves its counter and bound alone is a `foldl` over
  the index range; the miss loop of `RM_Scheduler.c`, which edits both, is a
  recursion on an explicit iteration budget that returns the final counter, so
  that exit through the loop guard can be stated and proved.
-/

namespace Sched

/-! ## Data model -/

/-- Capacity `READY_QUEUE_SIZE` of the ready queue (`MAX_READY` in `main.c`). -/
def READY_QUEUE_SIZE : Nat := 128

/-- Largest value of a `uint32_t`, `2^32 - 1`. -/
def UINT32_MAX : Nat := 4294967295

/-- The statement `remaining--` on a `uint32_t` value `r <= UINT32_MAX`: one
less, wrapping from 0 to `2^32 - 1`.  On that range this is
`(r + 2^32 - 1) % 2^32` (see `decr32_eq_mod`). -/
def decr32 (r : Nat) : Nat :=
  if r = 0 then UINT32_MAX else r - 1

/-- The statement `if (cur.remaining > 0) cur.remaining--;` of `main.c`. -/
def decrGuarded (r : Nat) : Nat :=
  if r > 0 then r - 1 else r

/-- Horizon `SIMULATION_END` (`SIM_END` in `main.c`): ticks `0 .. 100` inclusive. -/
def SIMULATION_END : Nat := 100

/-- Struct `Task` of the fixed-speed engines; the `name` string only feeds the log. -/
structure Task where
  period : Nat
  wcet : Nat
  deadline : Nat
  phase : Nat
deriving DecidableEq, Repr

instance : Inhabited Task := ⟨⟨0, 0, 0, 0⟩⟩

/-- Struct `Job` of the fixed-speed engines. -/
structure Job where
  task_id : Int
  release_time : Nat
  abs_deadline : Nat
  remaining : Nat
  job_seq : Nat
deriving DecidableEq, Repr

/-- The zero-initialised job of `Job cur = {0}`. -/
instance : Inhabited Job := ⟨⟨0, 0, 0, 0, 0⟩⟩

/-- Table read `tasks[a]` for an `int` index. -/
def taskAt (tasks : List Task) (a : Int) : Task :=
  if 0 ≤ a then tasks.getD a.toNat default else default

/-- Queue read `RQ[i]` for an index below the counter. -/
def jobAt (rq : List Job) (i : Nat) : Job :=
  rq.getD i default

/-! ## Ready queue -/

/-- Function `rq_push`: append when below capacity, otherwise drop the job. -/
def rq_push (rq : List Job) (j : Job) : List Job :=
  if rq.length < READY_QUEUE_SIZE then rq ++ [j] else rq

/-- Function `rq_remove_idx`: `RQ[idx] = RQ[--RQ_sz]`, a no-op for an index out of range. -/
def rq_remove_idx (rq : List Job) (idx : Int) : List Job :=
  if idx < 0 ∨ idx ≥ (rq.length : Int) then rq
  else (rq.set idx.toNat (jobAt rq (rq.length - 1))).dropLast

/-! ## Selection helpers -/

/-- Body of the loop of `rq_earliest_deadline_idx`: the new value of `best`. -/
def edfStep (rq : List Job) (best i : Nat) : Nat :=
  if (jobAt rq i).abs_deadline < (jobAt rq best).abs_deadline then i else best

/-- Function `rq_earliest_deadline_idx`: first index of the least `abs_deadline`, `-1` when empty. -/
def rq_earliest_deadline_idx (rq : List Job) : Int :=
  if rq.length = 0 then -1
  else ((List.range' 1 (rq.length - 1)).foldl (edfStep rq) 0 : Nat)

/-- Body of the loop of `rq_highest_rm_idx`: the new value of `best`. -/
def rmStep (tasks : List Task) (rq : List Job) (best i : Nat) : Nat :=
  let a := (jobAt rq i).task_id
  let b := (jobAt rq best).task_id
  if (taskAt tasks a).period < (taskAt tasks b).period then i
  else if (taskAt tasks a).period = (taskAt tasks b).period then
    if (jobAt rq i).abs_deadline < (jobAt rq best).abs_deadline then i
    else if (jobAt rq i).abs_deadline = (jobAt rq best).abs_deadline ∧ a < b then i
    else best
  else best

/-- Function `rq_highest_rm_idx`, `-1` on an empty queue. -/
def rq_highest_rm_idx (tasks : List Task) (rq : List Job) : Int :=
  if rq.length = 0 then -1
  else ((List.range' 1 (rq.length - 1)).foldl (rmStep tasks rq) 0 : Nat)

/-- Function `higher_rm` of `main.c`. -/
def higher_rm (tasks : List Task) (a_task b_task : Int) : Bool :=
  if (taskAt tasks a_task).period < (taskAt tasks b_task).period then true
  else if (taskAt tasks a_task).period > (taskAt tasks b_task).period then false
  else decide (a_task < b_task)

/-- Enum `Policy` of `main.c`. -/
inductive Policy where
  | POLICY_EDF
  | POLICY_RM
deriving DecidableEq, Repr

/-- Function `pick_ready_idx` of `main.c`. -/
def pick_ready_idx (pol : Policy) (tasks : List Task) (rq : List Job) : Int :=
  if pol = Policy.POLICY_EDF then rq_earliest_deadline_idx rq
  else rq_highest_rm_idx tasks rq

/-- Function `preempt_needed` of `main.c`. -/
def preempt_needed (pol : Policy) (tasks : List Task) (rq : List Job) (cur : Job) : Bool :=
  if rq.length = 0 then false
  else if pol = Policy.POLICY_EDF then
    let best := rq_earliest_deadline_idx rq
    decide (best ≠ -1) && decide ((jobAt rq best.toNat).abs_deadline < cur.abs_deadline)
  else
    let best := rq_highest_rm_idx tasks rq
    decide (best ≠ -1) && higher_rm tasks (jobAt rq best.toNat).task_id cur.task_id

/-- The selection order of `rq_highest_rm_idx`, read off its comment: smaller
period first, then earlier absolute deadline, then smaller task id. -/
def rmBefore (tasks : List Task) (x y : Job) : Prop :=
  (taskAt tasks x.task_id).period < (taskAt tasks y.task_id).period ∨
  ((taskAt tasks x.task_id).period = (taskAt tasks y.task_id).period ∧
    (x.abs_deadline < y.abs_deadline ∨
      (x.abs_deadline = y.abs_deadline ∧ x.task_id < y.task_id)))

instance (tasks : List Task) (x y : Job) : Decidable (rmBefore tasks x y) := by
  unfold rmBefore; infer_instance

/-! ## Simulator state -/

/-- The global variables of a fixed-speed simulator (`RQ`/`readyJobs`,
`next_seq`, `cpu_busy`, `cur`/`currentJob` and the three counters). -/
structure Sim where
  readyJobs : List Job
  next_seq : List Nat
  cpu_busy : Bool
  currentJob : Job
  completed : Nat
  preemptions : Nat
  misses : Nat
deriving DecidableEq, Repr

/-- State at program start for a table of `n` tasks. -/
def Sim.init (n : Nat) : Sim :=
  { readyJobs := [], next_seq := List.replicate n 0, cpu_busy := false,
    currentJob := default, completed := 0, preemptions := 0, misses := 0 }

/-- Release test of step 1: `t >= ti->phase && ((t - ti->phase) % ti->period == 0)`. -/
def releaseDue (ti : Task) (t : Nat) : Prop :=
  t ≥ ti.phase ∧ (t - ti.phase) % ti.period = 0

instance (ti : Task) (t : Nat) : Decidable (releaseDue ti t) := by
  unfold releaseDue; infer_instance

/-- The job synthesised in step 1 for task `i` at tick `t` with sequence number `seq`. -/
def mkJob (tasks : List Task) (t i seq : Nat) : Job :=
  { task_id := (i : Int), release_time := t,
    abs_deadline := t + (taskAt tasks i).deadline,
    remaining := (taskAt tasks i).wcet, job_seq := seq }

/-- Body of the release loop for task index `i`. -/
def releaseBody (tasks : List Task) (t : Nat) (s : Sim) (i : Nat) : Sim :=
  if releaseDue (taskAt tasks i) t then
    { s with
      next_seq := s.next_seq.set i (s.next_seq.getD i 0 + 1)
      readyJobs := rq_push s.readyJobs (mkJob tasks t i (s.next_seq.getD i 0)) }
  else s

/-- Step 1, "Releases at time t" (the same loop in all three sources). -/
def step1 (tasks : List Task) (t : Nat) (s : Sim) : Sim :=
  (List.range tasks.length).foldl (releaseBody tasks t) s

/-- The lateness test of step 2: `t > j.abs_deadline && j.remaining > 0`. -/
def late (t : Nat) (j : Job) : Prop :=
  t > j.abs_deadline ∧ j.remaining > 0

instance (t : Nat) (j : Job) : Decidable (late t j) := by
  unfold late; infer_instance

/-! ## `RM_Scheduler.c` -/

namespace RM_Scheduler

/-- The ready-set loop of step 2.  The first argument bounds the number of
iterations; the result carries the final loop counter.  A late job is
swap-removed and the counter is stepped back (`i--` then `++i`). -/
def missLoop (t : Nat) : Nat → Nat → Sim → Nat × Sim
  | 0, i, s => (i, s)
  | fuel + 1, i, s =>
    if i < s.readyJobs.length then
      if late t (jobAt s.readyJobs i) then
        missLoop t fuel i
          { s with misses := s.misses + 1, readyJobs := rq_remove_idx s.readyJobs i }
      else missLoop t fuel (i + 1) s
    else (i, s)

/-- The running-job part of step 2: count the miss and free the processor. -/
def missCurrent (t : Nat) (s : Sim) : Sim :=
  if s.cpu_busy = true ∧ late t s.currentJob then
    { s with misses := s.misses + 1, cpu_busy := false }
  else s

/-- Step 2, "Check for deadline misses". -/
def step2 (t : Nat) (s : Sim) : Sim :=
  (missLoop t (missCurrent t s).readyJobs.length 0 (missCurrent t s)).2

/-- Step 3, "Select job to run (RM)". -/
def step3 (tasks : List Task) (s : Sim) : Sim :=
  if s.cpu_busy = false then
    let idx := rq_highest_rm_idx tasks s.readyJobs
    if idx ≠ -1 then
      { s with
        currentJob := jobAt s.readyJobs idx.toNat
        readyJobs := rq_remove_idx s.readyJobs idx
        cpu_busy := true }
    else s
  else
    let idx := rq_highest_rm_idx tasks s.readyJobs
    if idx ≠ -1 ∧
        (taskAt tasks (jobAt s.readyJobs idx.toNat).task_id).period
          < (taskAt tasks s.currentJob.task_id).period then
      { s with
        currentJob := jobAt (rq_push s.readyJobs s.currentJob) idx.toNat
        readyJobs := rq_remove_idx (rq_push s.readyJobs s.currentJob) idx
        preemptions := s.preemptions + 1 }
    else s

/-- Step 4, "Execute the running job": an unguarded 32-bit `remaining--`. -/
def step4 (s : Sim) : Sim :=
  if s.cpu_busy = true then
    if decr32 s.currentJob.remaining = 0 then
      { s with
        currentJob := { s.currentJob with remaining := decr32 s.currentJob.remaining }
        completed := s.completed + 1
        cpu_busy := false }
    else
      { s with currentJob := { s.currentJob with remaining := decr32 s.currentJob.remaining } }
  else s

/-- One iteration of the tick loop. -/
def tick (tasks : List Task) (t : Nat) (s : Sim) : Sim :=
  step4 (step3 tasks (step2 t (step1 tasks t s)))

/-- The state after ticks `0 .. n-1`; the program runs `n = 101` of them. -/
def run (tasks : List Task) : Nat → Sim
  | 0 => Sim.init tasks.length
  | n + 1 => tick tasks n (run tasks n)

end RM_Scheduler

/-! ## `selfattempt.c` (EDF) -/

namespace selfattempt

/-- Step 3, "Select job to run (EDF)". -/
def step3 (s : Sim) : Sim :=
  if s.cpu_busy = false then
    let idx := rq_earliest_deadline_idx s.readyJobs
    if idx ≠ -1 then
      { s with
        currentJob := jobAt s.readyJobs idx.toNat
        readyJobs := rq_remove_idx s.readyJobs idx
        cpu_busy := true }
    else s
  else
    let idx := rq_earliest_deadline_idx s.readyJobs
    if idx ≠ -1 ∧
        (jobAt s.readyJobs idx.toNat).abs_deadline < s.currentJob.abs_deadline then
      { s with
        currentJob := jobAt (rq_push s.readyJobs s.currentJob) idx.toNat
        readyJobs := rq_remove_idx (rq_push s.readyJobs s.currentJob) idx
        preemptions := s.preemptions + 1 }
    else s

/-- One iteration of the tick loop; steps 1, 2 and 4 are, line for line, those
of `RM_Scheduler.c`. -/
def tick (tasks : List Task) (t : Nat) (s : Sim) : Sim :=
  RM_Scheduler.step4 (step3 (RM_Scheduler.step2 t (step1 tasks t s)))

/-- The state after ticks `0 .. n-1`. -/
def run (tasks : List Task) : Nat → Sim
  | 0 => Sim.init tasks.length
  | n + 1 => tick tasks n (run tasks n)

end selfattempt

/-! ## `main.c` (policy-selectable) -/

namespace main_c

/-- Body of the ready-set loop of step 2: the miss is counted, nothing else. -/
def missBody (t : Nat) (s : Sim) (i : Nat) : Sim :=
  if late t (jobAt s.readyJobs i) then { s with misses := s.misses + 1 } else s

/-- The running-job part of step 2: the miss is counted, nothing else. -/
def missCurrent (t : Nat) (s : Sim) : Sim :=
  if s.cpu_busy = true ∧ late t s.currentJob then { s with misses := s.misses + 1 } else s

/-- Step 2, "Deadline miss checks". -/
def step2 (t : Nat) (s : Sim) : Sim :=
  (List.range (missCurrent t s).readyJobs.length).foldl (missBody t) (missCurrent t s)

/-- Step 3, "Start or preempt according to policy". -/
def step3 (pol : Policy) (tasks : List Task) (s : Sim) : Sim :=
  if s.cpu_busy = false then
    let idx := pick_ready_idx pol tasks s.readyJobs
    if idx ≠ -1 then
      { s with
        currentJob := jobAt s.readyJobs idx.toNat
        readyJobs := rq_remove_idx s.readyJobs idx
        cpu_busy := true }
    else s
  else
    if preempt_needed pol tasks s.readyJobs s.currentJob = true then
      let idx := pick_ready_idx pol tasks s.readyJobs
      { s with
        currentJob := jobAt (rq_push s.readyJobs s.currentJob) idx.toNat
        readyJobs := rq_remove_idx (rq_push s.readyJobs s.currentJob) idx
        preemptions := s.preemptions + 1 }
    else s

/-- Step 4, "Execute one tick": a guarded decrement. -/
def step4 (s : Sim) : Sim :=
  if s.cpu_busy = true then
    if decrGuarded s.currentJob.remaining = 0 then
      { s with
        currentJob := { s.currentJob with remaining := decrGuarded s.currentJob.remaining }
        completed := s.completed + 1
        cpu_busy := false }
    else
      { s with
        currentJob := { s.currentJob with remaining := decrGuarded s.currentJob.remaining } }
  else s

/-- One iteration of the tick loop. -/
def tick (pol : Policy) (tasks : List Task) (t : Nat) (s : Sim) : Sim :=
  step4 (step3 pol tasks (step2 t (step1 tasks t s)))

/-- The state after ticks `0 .. n-1`; the program runs `n = 101` of them. -/
def run (pol : Policy) (tasks : List Task) : Nat → Sim
  | 0 => Sim.init tasks.length
  | n + 1 => tick pol tasks n (run pol tasks n)

end main_c

/-! ## Specification-side notions -/

/-- The jobs that step 1 hands to `rq_push` at tick `t`, in task order: one for
each task index whose release test holds, numbered by that task's counter. -/
def releasedAt (tasks : List Task) (t : Nat) (next_seq : List Nat) : List Job :=
  ((List.range tasks.length).filter (fun i : Nat => decide (releaseDue (taskAt tasks (i : Int)) t))).map
    (fun i => mkJob tasks t i (next_seq.getD i 0))

/-- The live jobs of a state: the ready set, and the running job while `cpu_busy`. -/
def liveJobs (s : Sim) : List Job :=
  if s.cpu_busy = true then s.currentJob :: s.readyJobs else s.readyJobs

/-- Number of ticks `u < t` at which task `ti` is released. -/
def releaseCount (ti : Task) (t : Nat) : Nat :=
  (List.range t).countP (fun u => decide (releaseDue ti u))

/-- A job carries a task index of the table and the sequence number that its
release time determines: `release_time = phase + job_seq * period`. -/
def seqOK (tasks : List Task) (J : Job) : Prop :=
  0 ≤ J.task_id ∧ J.task_id < (tasks.length : Int) ∧
  J.release_time
    = (taskAt tasks J.task_id).phase + J.job_seq * (taskAt tasks J.task_id).period

/-! ## Concrete inputs used in the examples -/

/-- Two tasks of equal period: `{period 5, wcet 3, deadline 10, phase 0}` and
`{period 5, wcet 1, deadline 2, phase 1}`. -/
def exTasks : List Task := [⟨5, 3, 10, 0⟩, ⟨5, 1, 2, 1⟩]

/-- A ready set of three jobs over `exTasks`; the least deadline occurs twice. -/
def exQueue : List Job := [⟨0, 0, 10, 3, 0⟩, ⟨1, 1, 3, 1, 0⟩, ⟨0, 0, 3, 3, 1⟩]

/-- A busy state: task 0 runs with deadline 10 while a job of task 1 with
deadline 3 is ready.  It is the state of `main.c` (policy RM, table `exTasks`)
at tick 1 on entry to step 3. -/
def exBusy : Sim :=
  { readyJobs := [⟨1, 1, 3, 1, 0⟩], next_seq := [1, 1], cpu_busy := true,
    currentJob := ⟨0, 0, 10, 2, 0⟩, completed := 0, preemptions := 0, misses := 0 }

/-- An overloaded table, both tasks with relative deadline 1:
`{period 5, wcet 3, deadline 1, phase 0}` and `{period 5, wcet 1, deadline 1, phase 0}`. -/
def lateTasks : List Task := [⟨5, 3, 1, 0⟩, ⟨5, 1, 1, 0⟩]

/-- The effect of a preemption that found room in the ready set. -/
def preemptEffect (s s' : Sim) (idx : Int) : Prop :=
  ∃ i : Nat, idx = (i : Int) ∧ i < s.readyJobs.length ∧
    s'.currentJob = jobAt s.readyJobs i ∧
    s'.readyJobs = s.readyJobs.set i s.currentJob ∧
    s.currentJob ∈ s'.readyJobs ∧
    s'.readyJobs.length = s.readyJobs.length ∧
    ((s'.readyJobs : List Job) : Multiset Job)
      = s.currentJob ::ₘ (s.readyJobs : Multiset Job).erase (jobAt s.readyJobs i) ∧
    s'.preemptions = s.preemptions + 1 ∧
    s'.cpu_busy = true ∧ s'.next_seq = s.next_seq ∧
    s'.completed = s.completed ∧ s'.misses = s.misses

/-- Eight tasks for `main.c` under EDF: one urgent task first released at tick
21 and seven tasks of period 1, wcet 2 and relative deadline 1000, which fill
the ready set to its capacity within 20 ticks. -/
def fullTasks : List Task :=
  [⟨100, 1, 1, 21⟩, ⟨1, 2, 1000, 0⟩, ⟨1, 2, 1000, 0⟩, ⟨1, 2, 1000, 0⟩, ⟨1, 2, 1000, 0⟩,
   ⟨1, 2, 1000, 0⟩, ⟨1, 2, 1000, 0⟩, ⟨1, 2, 1000, 0⟩]

/-- The state of `main.c` (EDF, table `fullTasks`) at tick 21 on entry to step 3:
a job of task 4 is running and the ready set holds 128 jobs, the last of them
the job of the urgent task released in this tick. -/
def fullState : Sim :=
  main_c.step2 21 (step1 fullTasks 21 (main_c.run Policy.POLICY_EDF fullTasks 21))

/-- The effect of one tick of execution on a busy processor whose running job
has work left: `remaining` drops by one; on reaching zero the job completes
and the processor is freed, otherwise the job stays on the processor. -/
def executeEffect (s s' : Sim) : Prop :=
  s'.currentJob = { s.currentJob with remaining := s.currentJob.remaining - 1 } ∧
  s'.currentJob.remaining + 1 = s.currentJob.remaining ∧
  (s'.currentJob.remaining = 0 → s'.completed = s.completed + 1 ∧ s'.cpu_busy = false) ∧
  (s'.currentJob.remaining ≠ 0 → s'.completed = s.completed ∧ s'.cpu_busy = true) ∧
  s'.readyJobs = s.readyJobs ∧ s'.next_seq = s.next_seq ∧
  s'.preemptions = s.preemptions ∧ s'.misses = s.misses

/-- The two-task table of the RM scenario: A `{period 4, wcet 1, deadline 4, phase 0}`
and B `{period 6, wcet 3, deadline 6, phase 0}`. -/
def scenarioTasks : List Task := [⟨4, 1, 4, 0⟩, ⟨6, 3, 6, 0⟩]

/-- A table with a task of zero execution time: `{period 5, wcet 0, deadline 5, phase 0}`. -/
def zeroTasks : List Task := [⟨5, 0, 5, 0⟩]

/-- The identity of a job: its task and its per-task sequence number. -/
def jobId (J : Job) : Int × Nat := (J.task_id, J.job_seq)

/-- Identity discipline of a state: live jobs have pairwise distinct
identities, and each carries a task index of the table and a sequence number
below that task's counter. -/
def idInv (tasks : List Task) (s : Sim) : Prop :=
  ((liveJobs s).map jobId).Nodup ∧
  (∀ J ∈ liveJobs s, ∃ i : Nat, J.task_id = (i : Int) ∧ i < tasks.length ∧
    J.job_seq < s.next_seq.getD i 0) ∧
  s.next_seq.length = tasks.length

/-! ## `RM_EE_Scheduler.c` (RM with frequency scaling and energy accounting)

The `double` quantities (`remaining_work`, `window`, the energies) are exact
rationals: rounding is not modelled.  The two divisions of `select_frequency`,
whose divisor can be zero in a run, return an `FVal`, which adds the IEEE
results of a division by `+0.0` (infinities and NaN) to the rationals.  The
division `1.0 / wcet` of the execute step is the rational one, exact for a
non-zero WCET entry. -/

/-- Largest value of a `uint64_t`, `2^64 - 1`. -/
def UINT64_MAX : Nat := 18446744073709551615

/-- Subtraction `a - b` on `uint64_t`: wraps modulo `2^64` when `b > a`. -/
def sub64 (a b : Nat) : Nat :=
  if b ≤ a then a - b else UINT64_MAX - (b - a - 1)

/-- Result of a `double` division: a rational, an infinity or NaN. -/
inductive FVal where
  | fin (q : ℚ)
  | pinf
  | ninf
  | nan
deriving DecidableEq

/-- Division `a / b` of two finite doubles, a zero divisor being `+0.0`. -/
def fdiv (a b : ℚ) : FVal :=
  if b ≠ 0 then FVal.fin (a / b)
  else if 0 < a then FVal.pinf
  else if a < 0 then FVal.ninf
  else FVal.nan

/-- Comparison `x >= y` on doubles: false as soon as one side is NaN. -/
def fge : FVal → FVal → Bool
  | FVal.nan, _ => false
  | _, FVal.nan => false
  | FVal.pinf, _ => true
  | _, FVal.ninf => true
  | FVal.fin a, FVal.fin b => decide (b ≤ a)
  | FVal.fin _, FVal.pinf => false
  | FVal.ninf, FVal.fin _ => false
  | FVal.ninf, FVal.pinf => false

namespace RM_EE_Scheduler

/-- Struct `Task` of `RM_EE_Scheduler.c`; `wcet_0`, `wcet_1`, `wcet_2` are the
entries of `wcet[3]` (low, medium, high frequency). -/
structure Task where
  period : Nat
  wcet_0 : Nat
  wcet_1 : Nat
  wcet_2 : Nat
  deadline : Nat
  phase : Nat
deriving DecidableEq, Repr

instance : Inhabited Task := ⟨⟨0, 0, 0, 0, 0, 0⟩⟩

/-- Array read `wcet[f]` of a task. -/
def Task.wcet (τ : Task) (f : Int) : Nat :=
  if f = 0 then τ.wcet_0 else if f = 1 then τ.wcet_1 else τ.wcet_2

/-- Struct `Job` of `RM_EE_Scheduler.c`; `remaining_work` is in job units. -/
structure Job where
  task_id : Int
  release_time : Nat
  abs_deadline : Nat
  remaining_work : ℚ
  job_seq : Nat
deriving DecidableEq

instance : Inhabited Job := ⟨⟨0, 0, 0, 0, 0⟩⟩

/-- Table read `tasks[a]` for an `int` index. -/
def taskAt (tasks : List Task) (a : Int) : Task :=
  if 0 ≤ a then tasks.getD a.toNat default else default

/-- Queue read `readyJobs[i]` for an index below the counter. -/
def jobAt (rq : List Job) (i : Nat) : Job :=
  rq.getD i default

/-- Function `rq_push`: append when below capacity, otherwise drop the job. -/
def rq_push (rq : List Job) (j : Job) : List Job :=
  if rq.length < READY_QUEUE_SIZE then rq ++ [j] else rq

/-- Function `rq_remove_idx`: swap-remove, a no-op for an index out of range. -/
def rq_remove_idx (rq : List Job) (idx : Int) : List Job :=
  if idx < 0 ∨ idx ≥ (rq.length : Int) then rq
  else (rq.set idx.toNat (jobAt rq (rq.length - 1))).dropLast

/-- Body of the loop of `rq_highest_rm_idx`: the new value of `best`. -/
def rmStep (tasks : List Task) (rq : List Job) (best i : Nat) : Nat :=
  if (taskAt tasks (jobAt rq i).task_id).period
      < (taskAt tasks (jobAt rq best).task_id).period then i
  else if (taskAt tasks (jobAt rq i).task_id).period
      = (taskAt tasks (jobAt rq best).task_id).period then
    if (jobAt rq i).abs_deadline < (jobAt rq best).abs_deadline then i
    else if (jobAt rq i).abs_deadline = (jobAt rq best).abs_deadline ∧
        (jobAt rq i).task_id < (jobAt rq best).task_id then i
    else best
  else best

/-- Function `rq_highest_rm_idx`, `-1` on an empty queue. -/
def rq_highest_rm_idx (tasks : List Task) (rq : List Job) : Int :=
  if rq.length = 0 then -1
  else ((List.range' 1 (rq.length - 1)).foldl (rmStep tasks rq) 0 : Nat)

/-- The global variables of `RM_EE_Scheduler.c`. -/
structure Sim where
  readyJobs : List Job
  next_seq : List Nat
  cpu_busy : Bool
  currentJob : Job
  currentFrequency : Int
  completed : Nat
  preemptions : Nat
  misses : Nat
  energy_busy : ℚ
  energy_idle : ℚ
deriving DecidableEq

/-- State at program start for a table of `n` tasks. -/
def Sim.init (n : Nat) : Sim :=
  { readyJobs := [], next_seq := List.replicate n 0, cpu_busy := false,
    currentJob := default, currentFrequency := 2, completed := 0, preemptions := 0,
    misses := 0, energy_busy := 0, energy_idle := 0 }

/-- Array `power_levels` (low, medium, high frequency). -/
def power_levels : List ℚ := [1, 2, 3]

/-- Constant `power_idle`. -/
def power_idle : ℚ := 1 / 2

/-- The sum `work_max` of `select_frequency`: remaining work of every ready job
and of the running job, each times its task's WCET at the highest level. -/
def work_max (tasks : List Task) (rq : List Job) (cpu_busy : Bool) (currentJob : Job) : ℚ :=
  rq.foldl (fun acc J => acc + J.remaining_work * ((taskAt tasks J.task_id).wcet 2 : ℚ)) 0
    + (if cpu_busy = true then
        currentJob.remaining_work * ((taskAt tasks currentJob.task_id).wcet 2 : ℚ)
       else 0)

/-- The test of the selection loop at level `f`:
`1.0 / tasks[0].wcet[f] >= speed_fraction`. -/
def levelOk (tasks : List Task) (speed_fraction : FVal) (f : Int) : Bool :=
  fge (fdiv 1 ((taskAt tasks 0).wcet f : ℚ)) speed_fraction

/-- Function `select_frequency`: the first level of 0, 1, 2 that passes the
test, and 2 when none does. -/
def select_frequency (tasks : List Task) (rq : List Job) (cpu_busy : Bool)
    (currentJob : Job) (window : ℚ) : Int :=
  (([0, 1, 2] : List Int).find?
    (levelOk tasks (fdiv (work_max tasks rq cpu_busy currentJob) window))).getD 2

/-- The job synthesised in step 1, with one job unit of work. -/
def mkJob (tasks : List Task) (t i seq : Nat) : Job :=
  { task_id := (i : Int), release_time := t,
    abs_deadline := t + (taskAt tasks i).deadline,
    remaining_work := 1, job_seq := seq }

/-- Body of the release loop for task index `i`. -/
def releaseBody (tasks : List Task) (t : Nat) (s : Sim) (i : Nat) : Sim :=
  if t ≥ (taskAt tasks i).phase ∧ (t - (taskAt tasks i).phase) % (taskAt tasks i).period = 0 then
    { s with
      next_seq := s.next_seq.set i (s.next_seq.getD i 0 + 1)
      readyJobs := rq_push s.readyJobs (mkJob tasks t i (s.next_seq.getD i 0)) }
  else s

/-- Step 1, "Releases at time t". -/
def step1 (tasks : List Task) (t : Nat) (s : Sim) : Sim :=
  (List.range tasks.length).foldl (releaseBody tasks t) s

/-- The lateness test of step 2: `t > j.abs_deadline && j.remaining_work > 0`. -/
def late (t : Nat) (j : Job) : Prop :=
  t > j.abs_deadline ∧ j.remaining_work > 0

instance (t : Nat) (j : Job) : Decidable (late t j) := by
  unfold late; infer_instance

/-- The ready-set loop of step 2, with an iteration budget and the final counter. -/
def missLoop (t : Nat) : Nat → Nat → Sim → Nat × Sim
  | 0, i, s => (i, s)
  | fuel + 1, i, s =>
    if i < s.readyJobs.length then
      if late t (jobAt s.readyJobs i) then
        missLoop t fuel i
          { s with misses := s.misses + 1, readyJobs := rq_remove_idx s.readyJobs i }
      else missLoop t fuel (i + 1) s
    else (i, s)

/-- The running-job part of step 2. -/
def missCurrent (t : Nat) (s : Sim) : Sim :=
  if s.cpu_busy = true ∧ late t s.currentJob then
    { s with misses := s.misses + 1, cpu_busy := false }
  else s

/-- Step 2, "Check for deadline misses". -/
def step2 (t : Nat) (s : Sim) : Sim :=
  (missLoop t (missCurrent t s).readyJobs.length 0 (missCurrent t s)).2

/-- Step 3, "Select job to run (RM)": the source has the idle branch only. -/
def step3 (tasks : List Task) (s : Sim) : Sim :=
  if s.cpu_busy = false then
    if rq_highest_rm_idx tasks s.readyJobs ≠ -1 then
      { s with
        currentJob := jobAt s.readyJobs (rq_highest_rm_idx tasks s.readyJobs).toNat
        readyJobs := rq_remove_idx s.readyJobs (rq_highest_rm_idx tasks s.readyJobs)
        cpu_busy := true }
    else s
  else s

/-- Initial value of `window` in step 4: the horizon, replaced by the running
job's time to its deadline when the processor is busy (unsigned arithmetic). -/
def windowBase (t : Nat) (s : Sim) : Nat :=
  if s.cpu_busy = true then sub64 s.currentJob.abs_deadline t else sub64 SIMULATION_END t

/-- The variable `next_release` computed for a ready job in step 4. -/
def next_release (tasks : List Task) (t : Nat) (J : Job) : Nat :=
  (taskAt tasks J.task_id).phase
    + (sub64 t (taskAt tasks J.task_id).phase / (taskAt tasks J.task_id).period + 1)
      * (taskAt tasks J.task_id).period

/-- Body of the window loop: `if (next_release - t < window) window = next_release - t`. -/
def windowBody (tasks : List Task) (t : Nat) (w : ℚ) (J : Job) : ℚ :=
  if ((next_release tasks t J : ℚ) - (t : ℚ)) < w then (next_release tasks t J : ℚ) - (t : ℚ)
  else w

/-- The value of `window` handed to `select_frequency` in step 4. -/
def window (tasks : List Task) (t : Nat) (s : Sim) : ℚ :=
  s.readyJobs.foldl (windowBody tasks t) (windowBase t s : ℚ)

/-- Step 4, "Frequency selection". -/
def step4 (tasks : List Task) (t : Nat) (s : Sim) : Sim :=
  { s with
    currentFrequency :=
      select_frequency tasks s.readyJobs s.cpu_busy s.currentJob (window tasks t s) }

/-- Step 5, "Execute the running job", with the energy accounting. -/
def step5 (tasks : List Task) (s : Sim) : Sim :=
  if s.cpu_busy = true then
    if s.currentJob.remaining_work
        - 1 / ((taskAt tasks s.currentJob.task_id).wcet s.currentFrequency : ℚ) ≤ 0 then
      { s with
        currentJob :=
          { s.currentJob with
            remaining_work := s.currentJob.remaining_work
              - 1 / ((taskAt tasks s.currentJob.task_id).wcet s.currentFrequency : ℚ) }
        energy_busy := s.energy_busy + power_levels.getD s.currentFrequency.toNat 0
        completed := s.completed + 1
        cpu_busy := false }
    else
      { s with
        currentJob :=
          { s.currentJob with
            remaining_work := s.currentJob.remaining_work
              - 1 / ((taskAt tasks s.currentJob.task_id).wcet s.currentFrequency : ℚ) }
        energy_busy := s.energy_busy + power_levels.getD s.currentFrequency.toNat 0 }
  else { s with energy_idle := s.energy_idle + power_idle }

/-- The state on entry to the execute step of tick `t`. -/
def beforeExecute (tasks : List Task) (t : Nat) (s : Sim) : Sim :=
  step4 tasks t (step3 tasks (step2 t (step1 tasks t s)))

/-- One iteration of the tick loop. -/
def tick (tasks : List Task) (t : Nat) (s : Sim) : Sim :=
  step5 tasks (beforeExecute tasks t s)

/-- The state after ticks `0 .. n-1`; the program runs `n = 101` of them. -/
def run (tasks : List Task) : Nat → Sim
  | 0 => Sim.init tasks.length
  | n + 1 => tick tasks n (run tasks n)

/-- The built-in task table of `RM_EE_Scheduler.c`. -/
def tasks : List Task :=
  [⟨10, 1, 2, 3, 10, 0⟩, ⟨15, 2, 3, 4, 15, 0⟩, ⟨20, 3, 4, 5, 20, 0⟩]

end RM_EE_Scheduler

/-- Whether the processor is busy on entry to the execute step of tick `k` of
the run of `RM_EE_Scheduler.c` on `tasks`. -/
def busyAt (tasks : List RM_EE_Scheduler.Task) (k : Nat) : Bool :=
  (RM_EE_Scheduler.beforeExecute tasks k (RM_EE_Scheduler.run tasks k)).cpu_busy

/-- The frequency level chosen in tick `k` of the run on `tasks`. -/
def levelAt (tasks : List RM_EE_Scheduler.Task) (k : Nat) : Int :=
  (RM_EE_Scheduler.beforeExecute tasks k (RM_EE_Scheduler.run tasks k)).currentFrequency

/-- A DVFS table in which the task of shorter period arrives one tick after the
other: `{period 20, wcet {5, 5, 5}, deadline 20, phase 0}` and
`{period 10, wcet {1, 1, 1}, deadline 10, phase 1}`. -/
def lateArrivalTasksEE : List RM_EE_Scheduler.Task :=
  [⟨20, 5, 5, 5, 20, 0⟩, ⟨10, 1, 1, 1, 10, 1⟩]

/-- The fixed-speed counterpart of `lateArrivalTasksEE`. -/
def lateArrivalTasks : List Task := [⟨20, 5, 20, 0⟩, ⟨10, 1, 10, 1⟩]

/-- The state of `RM_EE_Scheduler.c` on `lateArrivalTasksEE` at tick 1 on entry to step 3. -/
def lateArrivalState : RM_EE_Scheduler.Sim :=
  RM_EE_Scheduler.step2 1
    (RM_EE_Scheduler.step1 lateArrivalTasksEE 1 (RM_EE_Scheduler.run lateArrivalTasksEE 1))

/-- The built-in task table of `RM_Scheduler.c`. -/
def RM_Scheduler.tasks : List Task := [⟨10, 2, 10, 0⟩, ⟨15, 3, 15, 0⟩, ⟨20, 4, 20, 0⟩]

/-- Work discipline of a state: every live job carries a task index of the
table and between one tick and its task's `wcet` of remaining work. -/
def remInv (tasks : List Task) (s : Sim) : Prop :=
  ∀ J ∈ liveJobs s, ∃ i : Nat, J.task_id = (i : Int) ∧ i < tasks.length ∧
    1 ≤ J.remaining ∧ J.remaining ≤ (taskAt tasks (i : Int)).wcet

/-- The state of `RM_Scheduler.c` on entry to the execute step of tick `n`. -/
def RM_Scheduler.beforeExecute (tasks : List Task) (n : Nat) : Sim :=
  RM_Scheduler.step3 tasks (RM_Scheduler.step2 n (step1 tasks n (RM_Scheduler.run tasks n)))

/-- A table with a task of zero execution time behind a task of higher RM
priority: A `{period 5, wcet 3, deadline 10, phase 0}` and
B `{period 10, wcet 0, deadline 1, phase 0}`. -/
def stalledZeroTasks : List Task := [⟨5, 3, 10, 0⟩, ⟨10, 0, 1, 0⟩]

/-! # Theorems -/

/-! ## Generic loop lemma -/

/-- Invariant rule for a counting `for` loop that folds over `s, s+1, ..`. -/
theorem foldl_range'_invariant {β : Type} (P : Nat → β → Prop) (f : β → Nat → β)
    (hstep : ∀ k b, P k b → P (k + 1) (f b k)) :
    ∀ (n s : Nat) (b : β), P s b → P (s + n) ((List.range' s n).foldl f b) := by
  intro n
  induction n with
  | zero => intro s b h; simpa using h
  | succ n ih =>
    intro s b h
    have h2 := ih (s + 1) (f b s) (hstep s b h)
    simpa [List.range'_succ, Nat.add_assoc, Nat.add_comm 1 n] using h2

/-! ## Selection: lemmas -/

theorem jobAt_mem {rq : List Job} {i : Nat} (h : i < rq.length) : jobAt rq i ∈ rq := by
  unfold jobAt
  rw [List.getD_eq_getElem _ _ h]
  exact List.getElem_mem h

theorem rmStep_eq (tasks : List Task) (rq : List Job) (best i : Nat) :
    rmStep tasks rq best i
      = if rmBefore tasks (jobAt rq i) (jobAt rq best) then i else best := by
  unfold rmStep rmBefore
  simp only []
  split_ifs <;> first | rfl | (exfalso; omega)

theorem rmBefore_irrefl (tasks : List Task) (x : Job) : ¬ rmBefore tasks x x := by
  unfold rmBefore; omega

theorem rmBefore_trans (tasks : List Task) {x y z : Job}
    (h1 : rmBefore tasks x y) (h2 : rmBefore tasks y z) : rmBefore tasks x z := by
  unfold rmBefore at *; omega

/-- After the selection loop, `best` is in range and no job precedes it. -/
theorem rm_loop_min (tasks : List Task) (rq : List Job) (n : Nat) :
    (List.range' 1 n).foldl (rmStep tasks rq) 0 < 1 + n ∧
    ∀ j, j < 1 + n →
      ¬ rmBefore tasks (jobAt rq j)
          (jobAt rq ((List.range' 1 n).foldl (rmStep tasks rq) 0)) := by
  refine foldl_range'_invariant
    (fun k b => b < k ∧ ∀ j, j < k → ¬ rmBefore tasks (jobAt rq j) (jobAt rq b))
    (rmStep tasks rq) ?_ n 1 0 ⟨by omega, ?_⟩
  · intro k b ⟨hb, hmin⟩
    rw [rmStep_eq]
    by_cases hk : rmBefore tasks (jobAt rq k) (jobAt rq b)
    · rw [if_pos hk]
      refine ⟨by omega, fun j hj hjk => ?_⟩
      rcases Nat.lt_succ_iff_lt_or_eq.mp hj with hlt | heq
      · exact hmin j hlt (rmBefore_trans tasks hjk hk)
      · subst heq; exact rmBefore_irrefl tasks _ hjk
    · rw [if_neg hk]
      refine ⟨by omega, fun j hj hjb => ?_⟩
      rcases Nat.lt_succ_iff_lt_or_eq.mp hj with hlt | heq
      · exact hmin j hlt hjb
      · subst heq; exact hk hjb
  · intro j hj
    have : j = 0 := by omega
    subst this
    exact rmBefore_irrefl tasks _

/-- After the EDF selection loop, `best` is the first index of a least deadline. -/
theorem edf_loop_min (rq : List Job) (n : Nat) :
    (List.range' 1 n).foldl (edfStep rq) 0 < 1 + n ∧
    (∀ j, j < 1 + n →
      (jobAt rq ((List.range' 1 n).foldl (edfStep rq) 0)).abs_deadline
        ≤ (jobAt rq j).abs_deadline) ∧
    (∀ j, j < (List.range' 1 n).foldl (edfStep rq) 0 →
      (jobAt rq ((List.range' 1 n).foldl (edfStep rq) 0)).abs_deadline
        < (jobAt rq j).abs_deadline) := by
  refine foldl_range'_invariant
    (fun k b => b < k ∧
      (∀ j, j < k → (jobAt rq b).abs_deadline ≤ (jobAt rq j).abs_deadline) ∧
      (∀ j, j < b → (jobAt rq b).abs_deadline < (jobAt rq j).abs_deadline))
    (edfStep rq) ?_ n 1 0 ⟨by omega, ?_, ?_⟩
  · intro k b ⟨hb, hmin, hfirst⟩
    unfold edfStep
    by_cases hk : (jobAt rq k).abs_deadline < (jobAt rq b).abs_deadline
    · rw [if_pos hk]
      refine ⟨by omega, fun j hj => ?_, fun j hj => ?_⟩
      · rcases Nat.lt_succ_iff_lt_or_eq.mp hj with hlt | heq
        · have := hmin j hlt; omega
        · subst heq; exact le_refl _
      · have := hmin j hj; omega
    · rw [if_neg hk]
      refine ⟨by omega, fun j hj => ?_, hfirst⟩
      rcases Nat.lt_succ_iff_lt_or_eq.mp hj with hlt | heq
      · exact hmin j hlt
      · subst heq; omega
  · intro j hj
    have : j = 0 := by omega
    subst this
    exact le_refl _
  · intro j hj
    omega

theorem mem_iff_jobAt {rq : List Job} {J : Job} :
    J ∈ rq ↔ ∃ i, i < rq.length ∧ jobAt rq i = J := by
  constructor
  · intro h
    obtain ⟨i, hi, rfl⟩ := List.getElem_of_mem h
    exact ⟨i, hi, by unfold jobAt; rw [List.getD_eq_getElem _ _ hi]⟩
  · rintro ⟨i, hi, rfl⟩
    exact jobAt_mem hi

theorem rq_highest_rm_idx_eq (tasks : List Task) (rq : List Job) (h : rq ≠ []) :
    rq_highest_rm_idx tasks rq
      = (((List.range' 1 (rq.length - 1)).foldl (rmStep tasks rq) 0 : Nat) : Int) := by
  unfold rq_highest_rm_idx
  rw [if_neg]
  simpa using h

theorem rq_earliest_deadline_idx_eq (rq : List Job) (h : rq ≠ []) :
    rq_earliest_deadline_idx rq
      = (((List.range' 1 (rq.length - 1)).foldl (edfStep rq) 0 : Nat) : Int) := by
  unfold rq_earliest_deadline_idx
  rw [if_neg]
  simpa using h

theorem length_pos_of_ne_nil {rq : List Job} (h : rq ≠ []) : 0 < rq.length :=
  List.length_pos.mpr h

/-- On a non-empty queue the EDF selection returns the first index of a least deadline. -/
theorem edf_idx_of_ne_nil (rq : List Job) (h : rq ≠ []) :
    ∃ best : Nat, rq_earliest_deadline_idx rq = (best : Int) ∧ best < rq.length ∧
      (∀ J ∈ rq, (jobAt rq best).abs_deadline ≤ J.abs_deadline) ∧
      (∀ j, j < best → (jobAt rq best).abs_deadline < (jobAt rq j).abs_deadline) := by
  have hpos := length_pos_of_ne_nil h
  obtain ⟨hlt, hmin, hfirst⟩ := edf_loop_min rq (rq.length - 1)
  refine ⟨_, rq_earliest_deadline_idx_eq rq h, by omega, fun J hJ => ?_, hfirst⟩
  obtain ⟨j, hj, rfl⟩ := mem_iff_jobAt.mp hJ
  exact hmin j (by omega)

/-- On a non-empty queue the RM selection returns an index whose job no ready job precedes. -/
theorem rm_idx_of_ne_nil (tasks : List Task) (rq : List Job) (h : rq ≠ []) :
    ∃ best : Nat, rq_highest_rm_idx tasks rq = (best : Int) ∧ best < rq.length ∧
      ∀ J ∈ rq, ¬ rmBefore tasks J (jobAt rq best) := by
  have hpos := length_pos_of_ne_nil h
  obtain ⟨hlt, hmin⟩ := rm_loop_min tasks rq (rq.length - 1)
  refine ⟨_, rq_highest_rm_idx_eq tasks rq h, by omega, fun J hJ => ?_⟩
  obtain ⟨j, hj, rfl⟩ := mem_iff_jobAt.mp hJ
  exact hmin j (by omega)

/-! ## C1, C2: the selection helpers -/

/-- C1. On a non-empty ready set `rq_highest_rm_idx` returns an index `best`
below the counter whose job is least for the lexicographic order (task period,
`abs_deadline`, `task_id`): no ready job has a smaller period, none of equal
period has an earlier deadline, and none of equal period and deadline has a
smaller task id.  In particular the period of the selected job is at most the
period of every ready job, whatever the deadlines. -/
theorem rq_highest_rm_idx_lex_min (tasks : List Task) (rq : List Job) (h : rq ≠ []) :
    ∃ best : Nat, rq_highest_rm_idx tasks rq = (best : Int) ∧ best < rq.length ∧
      ∀ J ∈ rq,
        (taskAt tasks (jobAt rq best).task_id).period ≤ (taskAt tasks J.task_id).period ∧
        ((taskAt tasks J.task_id).period = (taskAt tasks (jobAt rq best).task_id).period →
          (jobAt rq best).abs_deadline ≤ J.abs_deadline) ∧
        ((taskAt tasks J.task_id).period = (taskAt tasks (jobAt rq best).task_id).period →
          J.abs_deadline = (jobAt rq best).abs_deadline →
          (jobAt rq best).task_id ≤ J.task_id) := by
  obtain ⟨best, hbest, hlt, hmin⟩ := rm_idx_of_ne_nil tasks rq h
  refine ⟨best, hbest, hlt, fun J hJ => ?_⟩
  have hnot := hmin J hJ
  unfold rmBefore at hnot
  refine ⟨?_, ?_, ?_⟩
  · omega
  · intro he; omega
  · intro he hd; omega

/-- Witness for C1: a three-job ready set over two tasks of equal period. -/
theorem rq_highest_rm_idx_lex_min_witness :
    exQueue ≠ [] ∧
    ∃ best : Nat, rq_highest_rm_idx exTasks exQueue = (best : Int) ∧ best < exQueue.length ∧
      ∀ J ∈ exQueue,
        (taskAt exTasks (jobAt exQueue best).task_id).period
          ≤ (taskAt exTasks J.task_id).period ∧
        ((taskAt exTasks J.task_id).period
            = (taskAt exTasks (jobAt exQueue best).task_id).period →
          (jobAt exQueue best).abs_deadline ≤ J.abs_deadline) ∧
        ((taskAt exTasks J.task_id).period
            = (taskAt exTasks (jobAt exQueue best).task_id).period →
          J.abs_deadline = (jobAt exQueue best).abs_deadline →
          (jobAt exQueue best).task_id ≤ J.task_id) :=
  ⟨by decide, rq_highest_rm_idx_lex_min exTasks exQueue (by decide)⟩

/-- C2. The function `rq_earliest_deadline_idx` returns `-1` exactly on the
empty ready set; otherwise it returns an index `best` below the counter such
that no ready job has an earlier `abs_deadline` and every job at a smaller
index has a strictly later one (ties go to the lowest array position). -/
theorem rq_earliest_deadline_idx_first_min (rq : List Job) :
    (rq_earliest_deadline_idx rq = -1 ↔ rq = []) ∧
    (rq ≠ [] →
      ∃ best : Nat, rq_earliest_deadline_idx rq = (best : Int) ∧ best < rq.length ∧
        (∀ J ∈ rq, (jobAt rq best).abs_deadline ≤ J.abs_deadline) ∧
        (∀ j, j < best → (jobAt rq best).abs_deadline < (jobAt rq j).abs_deadline)) := by
  refine ⟨⟨fun h => ?_, fun h => ?_⟩, edf_idx_of_ne_nil rq⟩
  · by_contra hne
    rw [rq_earliest_deadline_idx_eq rq hne] at h
    omega
  · subst h; rfl

/-- Witness for C2: the non-empty case on a queue whose least deadline occurs twice. -/
theorem rq_earliest_deadline_idx_first_min_witness :
    exQueue ≠ [] ∧
    ∃ best : Nat, rq_earliest_deadline_idx exQueue = (best : Int) ∧ best < exQueue.length ∧
      (∀ J ∈ exQueue, (jobAt exQueue best).abs_deadline ≤ J.abs_deadline) ∧
      (∀ j, j < best → (jobAt exQueue best).abs_deadline < (jobAt exQueue j).abs_deadline) :=
  ⟨by decide, (rq_earliest_deadline_idx_first_min exQueue).2 (by decide)⟩

/-! ## C3, C4: preemption tests -/

/-- Characterisation of `preempt_needed` under `POLICY_EDF`. -/
theorem preempt_needed_edf_iff (tasks : List Task) (rq : List Job) (cur : Job) :
    preempt_needed Policy.POLICY_EDF tasks rq cur = true ↔
      ∃ J ∈ rq, J.abs_deadline < cur.abs_deadline := by
  unfold preempt_needed
  by_cases h : rq = []
  · subst h; simp
  · have hlen : ¬ rq.length = 0 := by simpa using h
    obtain ⟨best, hbest, hlt, hmin, _⟩ := edf_idx_of_ne_nil rq h
    rw [if_neg hlen, if_pos rfl]
    simp only [Bool.and_eq_true, decide_eq_true_eq, hbest, Int.toNat_ofNat]
    constructor
    · rintro ⟨_, h2⟩; exact ⟨_, jobAt_mem hlt, h2⟩
    · rintro ⟨J, hJ, h2⟩
      exact ⟨by omega, lt_of_le_of_lt (hmin J hJ) h2⟩

/-- The busy branch of step 3 in `selfattempt.c` fires exactly when some
ready job has an earlier deadline than the running job. -/
theorem edf_guard_iff (rq : List Job) (cur : Job) :
    (rq_earliest_deadline_idx rq ≠ -1 ∧
      (jobAt rq (rq_earliest_deadline_idx rq).toNat).abs_deadline < cur.abs_deadline) ↔
      ∃ J ∈ rq, J.abs_deadline < cur.abs_deadline := by
  by_cases h : rq = []
  · subst h
    simp [rq_earliest_deadline_idx]
  · obtain ⟨best, hbest, hlt, hmin, _⟩ := edf_idx_of_ne_nil rq h
    simp only [hbest, Int.toNat_ofNat]
    constructor
    · rintro ⟨_, h2⟩; exact ⟨_, jobAt_mem hlt, h2⟩
    · rintro ⟨J, hJ, h2⟩
      exact ⟨by omega, lt_of_le_of_lt (hmin J hJ) h2⟩

/-- Under `POLICY_EDF`, step 3 of `main.c` is step 3 of `selfattempt.c`. -/
theorem main_step3_edf_eq (tasks : List Task) (s : Sim) :
    main_c.step3 Policy.POLICY_EDF tasks s = selfattempt.step3 s := by
  unfold main_c.step3 selfattempt.step3
  by_cases hb : s.cpu_busy = false
  · simp [hb, pick_ready_idx]
  · rw [if_neg hb, if_neg hb]
    by_cases hg : ∃ J ∈ s.readyJobs, J.abs_deadline < s.currentJob.abs_deadline
    · rw [if_pos ((preempt_needed_edf_iff tasks _ _).mpr hg),
        if_pos ((edf_guard_iff _ _).mpr hg)]
      simp [pick_ready_idx]
    · rw [if_neg (fun h => hg ((preempt_needed_edf_iff tasks _ _).mp h)),
        if_neg (fun h => hg ((edf_guard_iff _ _).mp h))]

theorem jobAt_rq_push {rq : List Job} {i : Nat} (j : Job) (h : i < rq.length) :
    jobAt (rq_push rq j) i = jobAt rq i := by
  unfold rq_push jobAt
  split_ifs
  · rw [List.getD_eq_getElem _ _ (by simp; omega), List.getD_eq_getElem _ _ h,
      List.getElem_append_left h]
  · rfl

/-- Effect of step 3 of `selfattempt.c` on a busy processor. -/
theorem selfattempt_step3_busy (s : Sim) (hbusy : s.cpu_busy = true) :
    ((∃ J ∈ s.readyJobs, J.abs_deadline < s.currentJob.abs_deadline) →
      (selfattempt.step3 s).preemptions = s.preemptions + 1 ∧
      (selfattempt.step3 s).currentJob ∈ s.readyJobs ∧
      (selfattempt.step3 s).currentJob.abs_deadline < s.currentJob.abs_deadline) ∧
    ((∀ J ∈ s.readyJobs, s.currentJob.abs_deadline ≤ J.abs_deadline) →
      selfattempt.step3 s = s) := by
  have hb : ¬ s.cpu_busy = false := by simp [hbusy]
  constructor
  · intro hg
    have hguard := (edf_guard_iff _ _).mpr hg
    have hne : s.readyJobs ≠ [] := by
      obtain ⟨J, hJ, _⟩ := hg
      exact List.ne_nil_of_mem hJ
    obtain ⟨best, hbest, hlt, _, _⟩ := edf_idx_of_ne_nil s.readyJobs hne
    unfold selfattempt.step3
    rw [if_neg hb]
    simp only [if_pos hguard]
    rw [hbest] at hguard ⊢
    simp only [Int.toNat_ofNat] at hguard ⊢
    rw [jobAt_rq_push _ hlt]
    exact ⟨trivial, jobAt_mem hlt, hguard.2⟩
  · intro hall
    have hng : ¬ ∃ J ∈ s.readyJobs, J.abs_deadline < s.currentJob.abs_deadline := by
      rintro ⟨J, hJ, h⟩
      have := hall J hJ
      omega
    unfold selfattempt.step3
    rw [if_neg hb]
    simp only [if_neg (fun h => hng ((edf_guard_iff _ _).mp h))]

/-- C4. EDF preemption, in `main.c` under `POLICY_EDF` and in step 3 of
`selfattempt.c`, on a busy processor: the test `preempt_needed` is true, and
the preemption counter is incremented, exactly when some ready job has a
strictly earlier `abs_deadline` than the running job; in that case the new
running job is a ready job with a strictly earlier deadline.  When every ready
job has a deadline at or after the running job's (ties included), step 3
leaves the whole state, running job and preemption counter included, unchanged. -/
theorem edf_preempt_iff_earlier_deadline (tasks : List Task) (s : Sim)
    (hbusy : s.cpu_busy = true) :
    (preempt_needed Policy.POLICY_EDF tasks s.readyJobs s.currentJob = true ↔
      ∃ J ∈ s.readyJobs, J.abs_deadline < s.currentJob.abs_deadline) ∧
    ((main_c.step3 Policy.POLICY_EDF tasks s).preemptions = s.preemptions + 1 ↔
      ∃ J ∈ s.readyJobs, J.abs_deadline < s.currentJob.abs_deadline) ∧
    ((selfattempt.step3 s).preemptions = s.preemptions + 1 ↔
      ∃ J ∈ s.readyJobs, J.abs_deadline < s.currentJob.abs_deadline) ∧
    ((∃ J ∈ s.readyJobs, J.abs_deadline < s.currentJob.abs_deadline) →
      (main_c.step3 Policy.POLICY_EDF tasks s).currentJob ∈ s.readyJobs ∧
      (main_c.step3 Policy.POLICY_EDF tasks s).currentJob.abs_deadline
        < s.currentJob.abs_deadline ∧
      (selfattempt.step3 s).currentJob ∈ s.readyJobs ∧
      (selfattempt.step3 s).currentJob.abs_deadline < s.currentJob.abs_deadline) ∧
    ((∀ J ∈ s.readyJobs, s.currentJob.abs_deadline ≤ J.abs_deadline) →
      main_c.step3 Policy.POLICY_EDF tasks s = s ∧ selfattempt.step3 s = s) := by
  obtain ⟨hyes, hno⟩ := selfattempt_step3_busy s hbusy
  have hiff : (selfattempt.step3 s).preemptions = s.preemptions + 1 ↔
      ∃ J ∈ s.readyJobs, J.abs_deadline < s.currentJob.abs_deadline := by
    constructor
    · intro h
      by_contra hn
      have hall : ∀ J ∈ s.readyJobs, s.currentJob.abs_deadline ≤ J.abs_deadline := by
        intro J hJ
        by_contra hlt
        exact hn ⟨J, hJ, by omega⟩
      rw [hno hall] at h
      omega
    · intro h; exact (hyes h).1
  rw [main_step3_edf_eq]
  refine ⟨preempt_needed_edf_iff tasks _ _, hiff, hiff, fun h => ?_, fun h => ?_⟩
  · exact ⟨(hyes h).2.1, (hyes h).2.2, (hyes h).2.1, (hyes h).2.2⟩
  · exact ⟨hno h, hno h⟩

/-- Witness for C4: the busy state `exBusy`, where the ready job has the earlier deadline. -/
theorem edf_preempt_iff_earlier_deadline_witness :
    exBusy.cpu_busy = true ∧
    (selfattempt.step3 exBusy).preemptions = exBusy.preemptions + 1 ∧
    (main_c.step3 Policy.POLICY_EDF exTasks exBusy).preemptions = exBusy.preemptions + 1 :=
  have h := edf_preempt_iff_earlier_deadline exTasks exBusy (by decide)
  ⟨by decide, h.2.2.1.mpr (by decide), h.2.1.mpr (by decide)⟩

/-! ## Ready queue: lemmas -/

theorem rq_remove_idx_last (A : List Job) (x : Job) :
    rq_remove_idx (A ++ [x]) (A.length : Int) = A := by
  unfold rq_remove_idx jobAt
  simp

theorem rq_remove_idx_middle (A B : List Job) (x l : Job) :
    rq_remove_idx (A ++ x :: (B ++ [l])) (A.length : Int) = A ++ l :: B := by
  have hre : A ++ x :: (B ++ [l]) = (A ++ x :: B) ++ [l] := by simp
  have hlast : jobAt (A ++ x :: (B ++ [l])) ((A ++ x :: (B ++ [l])).length - 1) = l := by
    unfold jobAt
    rw [hre, List.getD_eq_getElem?_getD, List.length_append, List.length_singleton,
      Nat.add_sub_cancel, List.getElem?_append_right (le_refl _)]
    simp
  unfold rq_remove_idx
  rw [hlast, if_neg (by simp; omega), Int.toNat_ofNat, hre, List.set_append,
    if_pos (by simp), List.dropLast_concat, List.set_append, if_neg (by simp)]
  simp

/-- Swap-remove keeps the prefix before `i` and permutes the suffix after it. -/
theorem rq_remove_idx_split (rq : List Job) (i : Nat) (h : i < rq.length) :
    ∃ L, rq_remove_idx rq (i : Int) = rq.take i ++ L ∧ L.Perm (rq.drop (i + 1)) := by
  have hsplit : rq = rq.take i ++ jobAt rq i :: rq.drop (i + 1) := by
    unfold jobAt
    rw [List.getD_eq_getElem _ _ h, List.getElem_cons_drop, List.take_append_drop]
  have hlen : (rq.take i).length = i := by
    rw [List.length_take]; omega
  rcases List.eq_nil_or_concat (rq.drop (i + 1)) with hB | ⟨B, l, hB⟩
  · refine ⟨[], ?_, by rw [hB]⟩
    have h1 := rq_remove_idx_last (rq.take i) (jobAt rq i)
    rw [hB] at hsplit
    rw [← hsplit, hlen] at h1
    simpa using h1
  · refine ⟨l :: B, ?_, ?_⟩
    · have h1 := rq_remove_idx_middle (rq.take i) B (jobAt rq i) l
      rw [hB] at hsplit
      rw [List.concat_eq_append] at hsplit
      rw [← hsplit, hlen] at h1
      exact h1
    · rw [hB, List.concat_eq_append]
      exact (List.perm_append_singleton l B).symm

theorem rq_push_foldl (js rq : List Job) (h : rq.length ≤ READY_QUEUE_SIZE) :
    js.foldl rq_push rq = rq ++ js.take (READY_QUEUE_SIZE - rq.length) := by
  induction js generalizing rq with
  | nil => simp
  | cons j js ih =>
    rw [List.foldl_cons]
    by_cases hlt : rq.length < READY_QUEUE_SIZE
    · have hp : rq_push rq j = rq ++ [j] := by unfold rq_push; rw [if_pos hlt]
      rw [hp, ih _ (by rw [List.length_append, List.length_singleton]; omega)]
      have he : READY_QUEUE_SIZE - rq.length = (READY_QUEUE_SIZE - (rq ++ [j]).length) + 1 := by
        rw [List.length_append, List.length_singleton]; omega
      rw [he, List.take_succ_cons]
      simp
    · have hp : rq_push rq j = rq := by unfold rq_push; rw [if_neg hlt]
      rw [hp, ih _ h]
      have he : READY_QUEUE_SIZE - rq.length = 0 := by omega
      rw [he]
      simp

/-! ## C5: misses in `main.c` -/

/-- C5 fails on `main.c`. With the table `lateTasks` (either policy) only two
jobs are ever released in ticks 0..3.  At tick 2 both are late: step 2 counts
two misses but leaves the running job on the processor and the ready job in
the ready set.  The running job then executes and completes in that same tick;
at tick 3 the ready job is counted as missed a second time, is started, executes
and completes.  The run ends with 2 completions and 3 misses for 2 jobs.  The
sibling `RM_Scheduler.c` evicts both jobs at tick 2: 0 completions, 2 misses. -/
theorem main_c_missed_job_still_completes :
    (∀ pol : Policy,
      (main_c.run pol lateTasks 2).cpu_busy = true ∧
      (main_c.run pol lateTasks 2).currentJob = ⟨0, 0, 1, 1, 0⟩ ∧
      (main_c.run pol lateTasks 2).readyJobs = [⟨1, 0, 1, 1, 0⟩] ∧
      (main_c.run pol lateTasks 2).misses = 0 ∧
      (main_c.step2 2 (step1 lateTasks 2 (main_c.run pol lateTasks 2))).misses = 2 ∧
      (main_c.step2 2 (step1 lateTasks 2 (main_c.run pol lateTasks 2))).cpu_busy = true ∧
      (main_c.step2 2 (step1 lateTasks 2 (main_c.run pol lateTasks 2))).readyJobs
        = [⟨1, 0, 1, 1, 0⟩] ∧
      (main_c.run pol lateTasks 3).completed = 1 ∧
      (main_c.run pol lateTasks 4).completed = 2 ∧
      (main_c.run pol lateTasks 4).misses = 3 ∧
      (main_c.run pol lateTasks 4).next_seq = [1, 1]) ∧
    (RM_Scheduler.run lateTasks 4).completed = 0 ∧
    (RM_Scheduler.run lateTasks 4).misses = 2 := by
  refine ⟨fun pol => ?_, by decide, by decide⟩
  cases pol <;> decide

/-! ## C7, C8: `rq_push` and `rq_remove_idx` -/

/-- C7. Below capacity (`count < 128`) `rq_push` appends the job as the new
last element, so the count grows by one and the earlier elements are
untouched; at capacity (`count = 128`) the ready set is returned unchanged and
the job is discarded.  Hence pushing any list of jobs into the empty ready set
retains exactly its first `min k 128` elements. -/
theorem rq_push_spec (rq : List Job) (j : Job) :
    (rq.length < 128 →
      rq_push rq j = rq ++ [j] ∧ (rq_push rq j).length = rq.length + 1) ∧
    (rq.length = 128 → rq_push rq j = rq) ∧
    (∀ js : List Job,
      js.foldl rq_push [] = js.take 128 ∧
      (js.foldl rq_push []).length = min js.length 128) := by
  refine ⟨fun h => ?_, fun h => ?_, fun js => ?_⟩
  · have hp : rq_push rq j = rq ++ [j] := by
      unfold rq_push READY_QUEUE_SIZE; rw [if_pos h]
    rw [hp]; simp
  · unfold rq_push READY_QUEUE_SIZE; rw [if_neg (by omega)]
  · have hf := rq_push_foldl js [] (by simp)
    have he : READY_QUEUE_SIZE = 128 := rfl
    simp only [List.length_nil, Nat.sub_zero, List.nil_append, he] at hf
    rw [hf, List.length_take]
    exact ⟨rfl, Nat.min_comm _ _⟩

/-- Witness for C7: pushing onto the three-job ready set `exQueue`. -/
theorem rq_push_spec_witness :
    exQueue.length < 128 ∧
    rq_push exQueue ⟨1, 6, 8, 1, 1⟩ = exQueue ++ [⟨1, 6, 8, 1, 1⟩] ∧
    (rq_push exQueue ⟨1, 6, 8, 1, 1⟩).length = exQueue.length + 1 :=
  ⟨by decide, (rq_push_spec exQueue ⟨1, 6, 8, 1, 1⟩).1 (by decide)⟩

/-- C8. For an index `0 <= idx < n`, `rq_remove_idx` yields a ready set of
size `n - 1` whose multiset of jobs is the original one with the job at `idx`
taken out; every position `k < n - 1` keeps its job, except position `idx`,
which now holds the former last job.  For `idx < 0` or `idx >= n` the ready
set is unchanged. -/
theorem rq_remove_idx_spec (rq : List Job) (idx : Int) :
    ((0 ≤ idx ∧ idx < (rq.length : Int)) →
      (rq_remove_idx rq idx).length = rq.length - 1 ∧
      ((rq_remove_idx rq idx : List Job) : Multiset Job)
        = (rq : Multiset Job).erase (jobAt rq idx.toNat) ∧
      (∀ k, k < rq.length - 1 →
        jobAt (rq_remove_idx rq idx) k
          = if k = idx.toNat then jobAt rq (rq.length - 1) else jobAt rq k)) ∧
    ((idx < 0 ∨ idx ≥ (rq.length : Int)) → rq_remove_idx rq idx = rq) := by
  refine ⟨fun ⟨h0, hn⟩ => ?_, fun h => ?_⟩
  · obtain ⟨i, rfl⟩ := Int.eq_ofNat_of_zero_le h0
    have hi : i < rq.length := by exact_mod_cast hn
    rw [Int.toNat_ofNat]
    have hdef : rq_remove_idx rq (i : Int)
        = (rq.set i (jobAt rq (rq.length - 1))).dropLast := by
      unfold rq_remove_idx
      rw [if_neg (by omega), Int.toNat_ofNat]
    refine ⟨?_, ?_, ?_⟩
    · rw [hdef]; simp
    · obtain ⟨L, hL, hperm⟩ := rq_remove_idx_split rq i hi
      rw [hL, Multiset.coe_erase, Multiset.coe_eq_coe]
      have hsplit : rq = rq.take i ++ jobAt rq i :: rq.drop (i + 1) := by
        unfold jobAt
        rw [List.getD_eq_getElem _ _ hi, List.getElem_cons_drop, List.take_append_drop]
      have h1 : (rq.erase (jobAt rq i)).Perm (rq.take i ++ rq.drop (i + 1)) := by
        have h2 : rq.Perm (jobAt rq i :: (rq.take i ++ rq.drop (i + 1))) := by
          conv_lhs => rw [hsplit]
          exact List.perm_middle
        have h3 := h2.erase (jobAt rq i)
        rwa [List.erase_cons_head] at h3
      exact ((List.Perm.append_left _ hperm)).trans h1.symm
    · intro k hk
      rw [hdef]
      unfold jobAt
      rw [List.getD_eq_getElem _ _ (by simp; omega), List.getElem_dropLast,
        List.getElem_set]
      by_cases hki : k = i
      · subst hki; simp
      · rw [if_neg (fun h => hki h.symm), if_neg hki]
        exact (List.getD_eq_getElem _ _ (by omega)).symm
  · unfold rq_remove_idx
    rw [if_pos h]

/-- Witness for C8: removing index 0 of the three-job ready set `exQueue`. -/
theorem rq_remove_idx_spec_witness :
    ((0 : Int) ≤ 0 ∧ (0 : Int) < (exQueue.length : Int)) ∧
    (rq_remove_idx exQueue 0).length = exQueue.length - 1 ∧
    ((rq_remove_idx exQueue 0 : List Job) : Multiset Job)
      = (exQueue : Multiset Job).erase (jobAt exQueue (0 : Int).toNat) :=
  have h := (rq_remove_idx_spec exQueue 0).1 (by decide)
  ⟨by decide, h.1, h.2.1⟩

/-! ## C6: the miss loop of `RM_Scheduler.c` -/

/-- Invariant of the miss loop of step 2, started at counter `i` with a budget
that covers the jobs still to be scanned. -/
theorem missLoop_inv (t : Nat) :
    ∀ (fuel i : Nat) (s : Sim), s.readyJobs.length - i ≤ fuel →
      (RM_Scheduler.missLoop t fuel i s).2.readyJobs.length ≤ (RM_Scheduler.missLoop t fuel i s).1 ∧
      (RM_Scheduler.missLoop t fuel i s).2.readyJobs.Perm
        (s.readyJobs.take i ++ (s.readyJobs.drop i).filter (fun J => decide (¬ late t J))) ∧
      (RM_Scheduler.missLoop t fuel i s).2.misses
        = s.misses + (s.readyJobs.drop i).countP (fun J => decide (late t J)) ∧
      (RM_Scheduler.missLoop t fuel i s).2.next_seq = s.next_seq ∧
      (RM_Scheduler.missLoop t fuel i s).2.cpu_busy = s.cpu_busy ∧
      (RM_Scheduler.missLoop t fuel i s).2.currentJob = s.currentJob ∧
      (RM_Scheduler.missLoop t fuel i s).2.completed = s.completed ∧
      (RM_Scheduler.missLoop t fuel i s).2.preemptions = s.preemptions := by
  have hdone : ∀ (i : Nat) (s : Sim), s.readyJobs.length ≤ i →
      s.readyJobs.length ≤ i ∧
      s.readyJobs.Perm
        (s.readyJobs.take i ++ (s.readyJobs.drop i).filter (fun J => decide (¬ late t J))) ∧
      s.misses = s.misses + (s.readyJobs.drop i).countP (fun J => decide (late t J)) := by
    intro i s h
    rw [List.drop_eq_nil_of_le h, List.take_of_length_le h]
    simp [h]
  intro fuel
  induction fuel with
  | zero =>
    intro i s h
    obtain ⟨h1, h2, h3⟩ := hdone i s (by omega)
    exact ⟨h1, h2, h3, rfl, rfl, rfl, rfl, rfl⟩
  | succ fuel ih =>
    intro i s h
    by_cases hi : i < s.readyJobs.length
    · have hdrop : s.readyJobs.drop i = jobAt s.readyJobs i :: s.readyJobs.drop (i + 1) := by
        unfold jobAt
        rw [List.getD_eq_getElem _ _ hi, List.getElem_cons_drop]
      by_cases hl : late t (jobAt s.readyJobs i)
      · have hstep : RM_Scheduler.missLoop t (fuel + 1) i s
            = RM_Scheduler.missLoop t fuel i
                { s with misses := s.misses + 1, readyJobs := rq_remove_idx s.readyJobs i } := by
          simp only [RM_Scheduler.missLoop, if_pos hi, if_pos hl]
        obtain ⟨L, hL, hperm⟩ := rq_remove_idx_split s.readyJobs i hi
        have hlen : (s.readyJobs.take i).length = i := by
          rw [List.length_take]; omega
        have hLlen : L.length = s.readyJobs.length - (i + 1) := by
          rw [hperm.length_eq, List.length_drop]
        have h' := ih i { s with misses := s.misses + 1, readyJobs := rq_remove_idx s.readyJobs i }
          (by simp only [hL, List.length_append, hlen, hLlen]; omega)
        rw [hstep]
        simp only [hL] at h' ⊢
        have htake : (s.readyJobs.take i ++ L).take i = s.readyJobs.take i := by
          rw [List.take_append_of_le_length (by omega), List.take_of_length_le (by omega)]
        have hdropL : (s.readyJobs.take i ++ L).drop i = L := by
          rw [List.drop_append_of_le_length (by omega), List.drop_of_length_le (by omega)]
          simp
        rw [htake, hdropL] at h'
        obtain ⟨h1, h2, h3, h4⟩ := h'
        refine ⟨h1, ?_, ?_, h4⟩
        · refine h2.trans (List.Perm.append_left _ ?_)
          rw [hdrop, List.filter_cons_of_neg (by simpa using hl)]
          exact hperm.filter _
        · rw [h3, hdrop, List.countP_cons_of_pos _ _ (by simpa using hl),
            hperm.countP_eq]
          omega
      · have hstep : RM_Scheduler.missLoop t (fuel + 1) i s = RM_Scheduler.missLoop t fuel (i + 1) s := by
          simp only [RM_Scheduler.missLoop, if_pos hi, if_neg hl]
        have h' := ih (i + 1) s (by omega)
        rw [hstep]
        obtain ⟨h1, h2, h3, h4⟩ := h'
        refine ⟨h1, ?_, ?_, h4⟩
        · rw [hdrop, List.filter_cons_of_pos (by simpa using hl)]
          have : s.readyJobs.take (i + 1) = s.readyJobs.take i ++ [jobAt s.readyJobs i] := by
            unfold jobAt
            rw [List.getD_eq_getElem _ _ hi, List.take_succ, List.getElem?_eq_getElem hi]
            rfl
          rw [this] at h2
          simpa using h2
        · rw [h3, hdrop, List.countP_cons_of_neg _ _ (by simpa using hl)]
    · have hstep : RM_Scheduler.missLoop t (fuel + 1) i s = (i, s) := by
        simp only [RM_Scheduler.missLoop, if_neg hi]
      rw [hstep]
      obtain ⟨h1, h2, h3⟩ := hdone i s (by omega)
      exact ⟨h1, h2, h3, rfl, rfl, rfl, rfl, rfl⟩

theorem getD_set_succ (l : List Nat) (i k : Nat) (v : Nat) (hi : i < l.length) :
    (l.set i v).getD k 0 = if k = i then v else l.getD k 0 := by
  rw [List.getD_eq_getElem?_getD, List.getD_eq_getElem?_getD, List.getElem?_set]
  by_cases hk : k = i
  · subst hk; simp [hi]
  · rw [if_neg (fun h => hk h.symm), if_neg hk]

/-- The release loop over any duplicate-free list of task indices. -/
theorem releaseLoop_spec (tasks : List Task) (t : Nat) :
    ∀ (is : List Nat) (s : Sim), is.Nodup → (∀ i ∈ is, i < s.next_seq.length) →
      (is.foldl (releaseBody tasks t) s).readyJobs
        = ((is.filter (fun i : Nat => decide (releaseDue (taskAt tasks (i : Int)) t))).map
            (fun i => mkJob tasks t i (s.next_seq.getD i 0))).foldl rq_push s.readyJobs ∧
      (is.foldl (releaseBody tasks t) s).next_seq.length = s.next_seq.length ∧
      (∀ k, (is.foldl (releaseBody tasks t) s).next_seq.getD k 0
        = s.next_seq.getD k 0
          + (if k ∈ is ∧ releaseDue (taskAt tasks k) t then 1 else 0)) ∧
      (is.foldl (releaseBody tasks t) s).cpu_busy = s.cpu_busy ∧
      (is.foldl (releaseBody tasks t) s).currentJob = s.currentJob ∧
      (is.foldl (releaseBody tasks t) s).completed = s.completed ∧
      (is.foldl (releaseBody tasks t) s).preemptions = s.preemptions ∧
      (is.foldl (releaseBody tasks t) s).misses = s.misses := by
  intro is
  induction is with
  | nil => intro s _ _; simp
  | cons i rest ih =>
    intro s hnd hlt
    have hi : i < s.next_seq.length := hlt i (List.mem_cons_self _ _)
    have hirest : i ∉ rest := (List.nodup_cons.mp hnd).1
    rw [List.foldl_cons]
    by_cases hdue : releaseDue (taskAt tasks i) t
    · have hbody : releaseBody tasks t s i =
          { s with
            next_seq := s.next_seq.set i (s.next_seq.getD i 0 + 1)
            readyJobs := rq_push s.readyJobs (mkJob tasks t i (s.next_seq.getD i 0)) } := by
        unfold releaseBody; rw [if_pos hdue]
      obtain ⟨h1, h2, h3, h4⟩ := ih (releaseBody tasks t s i) (List.nodup_cons.mp hnd).2
        (by intro j hj; rw [hbody]; simpa using hlt j (List.mem_cons_of_mem _ hj))
      rw [hbody] at h1 h2 h3 h4
      simp only [] at h1 h2 h3 h4
      rw [hbody]
      refine ⟨?_, ?_, ?_, h4⟩
      · rw [h1, List.filter_cons_of_pos (by simpa using hdue), List.map_cons, List.foldl_cons]
        congr 1
        apply List.map_congr_left
        intro j hj
        have hjr : j ∈ rest := (List.mem_filter.mp hj).1
        have hji : j ≠ i := fun h => hirest (h ▸ hjr)
        rw [getD_set_succ _ _ _ _ hi, if_neg hji]
      · rw [h2, List.length_set]
      · intro k
        rw [h3 k, getD_set_succ _ _ _ _ hi]
        by_cases hk : k = i
        · subst hk
          simp [hirest, hdue]
        · simp [hk]
    · have hbody : releaseBody tasks t s i = s := by
        unfold releaseBody; rw [if_neg hdue]
      obtain ⟨h1, h2, h3, h4⟩ := ih s (List.nodup_cons.mp hnd).2
        (fun j hj => hlt j (List.mem_cons_of_mem _ hj))
      rw [hbody]
      refine ⟨?_, h2, ?_, h4⟩
      · rw [h1, List.filter_cons_of_neg (by simpa using hdue)]
      · intro k
        rw [h3 k]
        by_cases hk : k = i
        · subst hk
          simp [hirest, hdue]
        · simp [hk]

theorem step1_spec (tasks : List Task) (t : Nat) (s : Sim)
    (hlen : s.next_seq.length = tasks.length) :
    (step1 tasks t s).readyJobs = (releasedAt tasks t s.next_seq).foldl rq_push s.readyJobs ∧
    (step1 tasks t s).next_seq.length = tasks.length ∧
    (∀ i, i < tasks.length →
      (step1 tasks t s).next_seq.getD i 0
        = s.next_seq.getD i 0 + (if releaseDue (taskAt tasks (i : Int)) t then 1 else 0)) ∧
    (step1 tasks t s).cpu_busy = s.cpu_busy ∧
    (step1 tasks t s).currentJob = s.currentJob ∧
    (step1 tasks t s).completed = s.completed ∧
    (step1 tasks t s).preemptions = s.preemptions ∧
    (step1 tasks t s).misses = s.misses := by
  obtain ⟨h1, h2, h3, h4⟩ := releaseLoop_spec tasks t (List.range tasks.length) s
    (List.nodup_range _) (by intro i hi; rw [hlen]; exact List.mem_range.mp hi)
  refine ⟨h1, by rw [← hlen]; exact h2, fun i hi => ?_, h4⟩
  have h := h3 i
  simp only [List.mem_range, hi, true_and] at h
  exact h

theorem mem_releasedAt {tasks : List Task} {t : Nat} {ns : List Nat} {J : Job}
    (h : J ∈ releasedAt tasks t ns) :
    ∃ i, i < tasks.length ∧ releaseDue (taskAt tasks (i : Int)) t ∧
      J = mkJob tasks t i (ns.getD i 0) := by
  unfold releasedAt at h
  obtain ⟨i, hi, rfl⟩ := List.mem_map.mp h
  obtain ⟨hr, hd⟩ := List.mem_filter.mp hi
  exact ⟨i, List.mem_range.mp hr, by simpa using hd, rfl⟩

theorem taskAt_mem {tasks : List Task} {i : Nat} (h : i < tasks.length) :
    taskAt tasks (i : Int) ∈ tasks := by
  unfold taskAt
  rw [if_pos (by omega), Int.toNat_ofNat, List.getD_eq_getElem _ _ h]
  exact List.getElem_mem h

/-! ## Release instants and sequence numbers -/

theorem releaseCount_succ (ti : Task) (t : Nat) :
    releaseCount ti (t + 1) = releaseCount ti t + (if releaseDue ti t then 1 else 0) := by
  unfold releaseCount
  rw [List.range_succ, List.countP_append]
  by_cases h : releaseDue ti t <;> simp [h]

/-- A due tick is a whole number of periods after the phase. -/
theorem releaseDue_eq (ti : Task) (t : Nat) (h : releaseDue ti t) :
    t = ti.phase + (t - ti.phase) / ti.period * ti.period := by
  obtain ⟨h1, h2⟩ := h
  have := Nat.div_add_mod (t - ti.phase) ti.period
  rw [h2, Nat.mul_comm] at this
  omega

/-- The release counter of a task points at its next release instant. -/
theorem releaseCount_bounds (ti : Task) (hp : 0 < ti.period) (t : Nat) :
    t ≤ ti.phase + releaseCount ti t * ti.period ∧
    (0 < releaseCount ti t → ti.phase + (releaseCount ti t - 1) * ti.period < t) ∧
    (releaseDue ti t → t = ti.phase + releaseCount ti t * ti.period) := by
  induction t with
  | zero =>
    refine ⟨by omega, ?_, ?_⟩
    · intro h; simp [releaseCount] at h
    · intro h
      have h0 : ti.phase = 0 := by have := h.1; omega
      simp [releaseCount, h0]
  | succ t ih =>
    obtain ⟨ih1, ih2, ih3⟩ := ih
    rw [releaseCount_succ]
    have hnext : ∀ c : Nat, t + 1 ≤ ti.phase + c * ti.period →
        (0 < c → ti.phase + (c - 1) * ti.period < t + 1) →
        releaseDue ti (t + 1) → t + 1 = ti.phase + c * ti.period := by
      intro c hc1 hc2 hdue
      have heq := releaseDue_eq ti (t + 1) hdue
      generalize (t + 1 - ti.phase) / ti.period = m at heq
      have hmc : m ≤ c := by
        by_contra hlt
        have : (c + 1) * ti.period ≤ m * ti.period := Nat.mul_le_mul_right _ (by omega)
        rw [Nat.add_mul] at this
        omega
      rcases Nat.eq_or_lt_of_le hmc with he | hlt
      · rw [← he]; exact heq
      · exfalso
        have h1 : (m + 1) * ti.period ≤ c * ti.period := Nat.mul_le_mul_right _ (by omega)
        have h2 := hc2 (by omega)
        have h3 : m * ti.period ≤ (c - 1) * ti.period := Nat.mul_le_mul_right _ (by omega)
        omega
    by_cases hd : releaseDue ti t
    · have heq := ih3 hd
      rw [if_pos hd]
      have hc1 : t + 1 ≤ ti.phase + (releaseCount ti t + 1) * ti.period := by
        rw [Nat.add_mul]; omega
      have hc2 : 0 < releaseCount ti t + 1 →
          ti.phase + (releaseCount ti t + 1 - 1) * ti.period < t + 1 := by
        intro _; rw [Nat.add_sub_cancel]; omega
      exact ⟨hc1, hc2, hnext _ hc1 hc2⟩
    · rw [if_neg hd, Nat.add_zero]
      have hne : t ≠ ti.phase + releaseCount ti t * ti.period := by
        intro he
        apply hd
        refine ⟨by omega, ?_⟩
        have : t - ti.phase = releaseCount ti t * ti.period := by omega
        rw [this]
        exact Nat.mul_mod_left _ _
      have hc1 : t + 1 ≤ ti.phase + releaseCount ti t * ti.period := by omega
      have hc2 : 0 < releaseCount ti t →
          ti.phase + (releaseCount ti t - 1) * ti.period < t + 1 := by
        intro h; have := ih2 h; omega
      exact ⟨hc1, hc2, hnext _ hc1 hc2⟩

/-! ## Live jobs through the steps of `RM_Scheduler.c` -/

theorem mem_rq_push {rq : List Job} {j J : Job} (h : J ∈ rq_push rq j) : J ∈ rq ∨ J = j := by
  unfold rq_push at h
  split_ifs at h
  · simpa using h
  · exact Or.inl h

theorem mem_foldl_rq_push {js rq : List Job} {J : Job} (h : J ∈ js.foldl rq_push rq) :
    J ∈ rq ∨ J ∈ js := by
  induction js generalizing rq with
  | nil => exact Or.inl (by simpa using h)
  | cons j js ih =>
    rw [List.foldl_cons] at h
    rcases ih h with h1 | h1
    · rcases mem_rq_push h1 with h2 | h2
      · exact Or.inl h2
      · exact Or.inr (h2 ▸ List.mem_cons_self _ _)
    · exact Or.inr (List.mem_cons_of_mem _ h1)

theorem mem_rq_remove_idx {rq : List Job} {idx : Int} {J : Job}
    (h : J ∈ rq_remove_idx rq idx) : J ∈ rq := by
  unfold rq_remove_idx at h
  split_ifs at h with hc
  · exact h
  · have h1 := List.dropLast_subset _ h
    rcases List.mem_or_eq_of_mem_set h1 with h2 | h2
    · exact h2
    · rw [h2]
      push_neg at hc
      exact jobAt_mem (by omega)

theorem mem_liveJobs {s : Sim} {J : Job} :
    J ∈ liveJobs s ↔ (s.cpu_busy = true ∧ J = s.currentJob) ∨ J ∈ s.readyJobs := by
  unfold liveJobs
  split_ifs with h <;> simp [h]

theorem idx_of_ne_neg_one_rm (tasks : List Task) (rq : List Job)
    (h : rq_highest_rm_idx tasks rq ≠ -1) :
    ∃ best : Nat, rq_highest_rm_idx tasks rq = (best : Int) ∧ best < rq.length := by
  by_cases hne : rq = []
  · subst hne; exact absurd rfl h
  · obtain ⟨b, h1, h2, _⟩ := rm_idx_of_ne_nil tasks rq hne
    exact ⟨b, h1, h2⟩

theorem liveJobs_step2 (t : Nat) (s : Sim) {J : Job}
    (h : J ∈ liveJobs (RM_Scheduler.step2 t s)) : J ∈ liveJobs s := by
  have hrq : (RM_Scheduler.missCurrent t s).readyJobs = s.readyJobs := by
    unfold RM_Scheduler.missCurrent; split_ifs <;> rfl
  have hcur : (RM_Scheduler.missCurrent t s).currentJob = s.currentJob := by
    unfold RM_Scheduler.missCurrent; split_ifs <;> rfl
  have hbusy : (RM_Scheduler.missCurrent t s).cpu_busy = true → s.cpu_busy = true := by
    unfold RM_Scheduler.missCurrent; split_ifs with hc
    · intro h; simp at h
    · exact id
  obtain ⟨_, hperm, _, _, hb, hc, _⟩ := missLoop_inv t (RM_Scheduler.missCurrent t s).readyJobs.length 0
    (RM_Scheduler.missCurrent t s) (by omega)
  rw [mem_liveJobs] at h ⊢
  unfold RM_Scheduler.step2 at h
  rw [hb, hc, hcur] at h
  rcases h with ⟨h1, h2⟩ | h
  · exact Or.inl ⟨hbusy h1, h2⟩
  · right
    have := hperm.subset h
    rw [hrq] at this
    simp only [List.take_zero, List.nil_append, List.drop_zero] at this
    exact (List.mem_filter.mp this).1

theorem liveJobs_step3 (tasks : List Task) (s : Sim) {J : Job}
    (h : J ∈ liveJobs (RM_Scheduler.step3 tasks s)) : J ∈ liveJobs s := by
  rw [mem_liveJobs] at h ⊢
  unfold RM_Scheduler.step3 at h
  by_cases hb : s.cpu_busy = false
  · rw [if_pos hb] at h
    simp only [] at h
    by_cases hidx : rq_highest_rm_idx tasks s.readyJobs ≠ -1
    · rw [if_pos hidx] at h
      obtain ⟨b, hbest, hlt⟩ := idx_of_ne_neg_one_rm tasks _ hidx
      rw [hbest] at h
      simp only [Int.toNat_ofNat] at h
      rcases h with ⟨_, h2⟩ | h
      · right; rw [h2]; exact jobAt_mem hlt
      · right; exact mem_rq_remove_idx h
    · rw [if_neg hidx] at h; exact h
  · rw [if_neg hb] at h
    simp only [] at h
    have hbt : s.cpu_busy = true := by simpa using hb
    split_ifs at h with hg
    · obtain ⟨b, hbest, hlt⟩ := idx_of_ne_neg_one_rm tasks _ hg.1
      rw [hbest] at h
      simp only [Int.toNat_ofNat] at h
      rcases h with ⟨_, h2⟩ | h
      · right; rw [h2, jobAt_rq_push _ hlt]; exact jobAt_mem hlt
      · rcases mem_rq_push (mem_rq_remove_idx h) with h3 | h3
        · exact Or.inr h3
        · exact Or.inl ⟨hbt, h3⟩
    · exact h

/-- On the range of a `uint32_t`, `decr32` is subtraction of one modulo `2^32`. -/
theorem decr32_eq_mod (r : Nat) (h : r ≤ UINT32_MAX) :
    decr32 r = (r + 4294967296 - 1) % 4294967296 := by
  unfold decr32 UINT32_MAX at *
  split_ifs <;> omega

theorem liveJobs_step4 (s : Sim) {J : Job} (h : J ∈ liveJobs (RM_Scheduler.step4 s)) :
    ∃ K ∈ liveJobs s, J.task_id = K.task_id ∧ J.release_time = K.release_time ∧
      J.abs_deadline = K.abs_deadline ∧ J.job_seq = K.job_seq := by
  simp only [mem_liveJobs] at h ⊢
  unfold RM_Scheduler.step4 at h
  by_cases hb : s.cpu_busy = true
  · rw [if_pos hb] at h
    by_cases hz : decr32 s.currentJob.remaining = 0
    · rw [if_pos hz] at h
      rcases h with ⟨h1, _⟩ | h
      · exact absurd h1 Bool.false_ne_true
      · exact ⟨J, Or.inr h, rfl, rfl, rfl, rfl⟩
    · rw [if_neg hz] at h
      rcases h with ⟨_, h2⟩ | h
      · exact ⟨s.currentJob, Or.inl ⟨hb, rfl⟩, by rw [h2], by rw [h2], by rw [h2], by rw [h2]⟩
      · exact ⟨J, Or.inr h, rfl, rfl, rfl, rfl⟩
  · rw [if_neg hb] at h
    rcases h with ⟨h1, _⟩ | h
    · exact absurd h1 hb
    · exact ⟨J, Or.inr h, rfl, rfl, rfl, rfl⟩

theorem next_seq_step2 (t : Nat) (s : Sim) : (RM_Scheduler.step2 t s).next_seq = s.next_seq := by
  obtain ⟨_, _, _, h, _⟩ := missLoop_inv t (RM_Scheduler.missCurrent t s).readyJobs.length 0
    (RM_Scheduler.missCurrent t s) (by omega)
  unfold RM_Scheduler.step2
  rw [h]
  unfold RM_Scheduler.missCurrent; split_ifs <;> rfl

theorem next_seq_step3 (tasks : List Task) (s : Sim) :
    (RM_Scheduler.step3 tasks s).next_seq = s.next_seq := by
  unfold RM_Scheduler.step3
  simp only []
  split_ifs <;> rfl

theorem next_seq_step4 (s : Sim) : (RM_Scheduler.step4 s).next_seq = s.next_seq := by
  unfold RM_Scheduler.step4
  by_cases hb : s.cpu_busy = true
  · rw [if_pos hb]
    by_cases hz : decr32 s.currentJob.remaining = 0
    · rw [if_pos hz]
    · rw [if_neg hz]
  · rw [if_neg hb]

theorem seqOK_of_same {tasks : List Task} {J K : Job} (h : seqOK tasks K)
    (h1 : J.task_id = K.task_id) (h2 : J.release_time = K.release_time)
    (h3 : J.job_seq = K.job_seq) : seqOK tasks J := by
  unfold seqOK at *
  rw [h1, h2, h3]
  exact h

/-- Step 1 keeps the sequence-number discipline. -/
theorem seq_step1 (tasks : List Task) (hpos : ∀ ti ∈ tasks, 0 < ti.period) (t : Nat) (s : Sim)
    (hlen : s.next_seq.length = tasks.length)
    (hcnt : ∀ i, i < tasks.length →
      s.next_seq.getD i 0 = releaseCount (taskAt tasks (i : Int)) t)
    (hlive : ∀ J ∈ liveJobs s, seqOK tasks J) :
    (step1 tasks t s).next_seq.length = tasks.length ∧
    (∀ i, i < tasks.length →
      (step1 tasks t s).next_seq.getD i 0 = releaseCount (taskAt tasks (i : Int)) (t + 1)) ∧
    (∀ J ∈ liveJobs (step1 tasks t s), seqOK tasks J) := by
  obtain ⟨h1, h2, h3, h4, h5, _⟩ := step1_spec tasks t s hlen
  refine ⟨h2, fun i hi => ?_, fun J hJ => ?_⟩
  · rw [h3 i hi, hcnt i hi, releaseCount_succ]
  · rw [mem_liveJobs, h4, h5, h1] at hJ
    rcases hJ with hJ | hJ
    · exact hlive J (mem_liveJobs.mpr (Or.inl hJ))
    · rcases mem_foldl_rq_push hJ with hJ | hJ
      · exact hlive J (mem_liveJobs.mpr (Or.inr hJ))
      · obtain ⟨i, hi, hdue, rfl⟩ := mem_releasedAt hJ
        have hb := (releaseCount_bounds (taskAt tasks (i : Int)) (hpos _ (taskAt_mem hi)) t).2.2 hdue
        refine ⟨by simp [mkJob], by simpa [mkJob] using hi, ?_⟩
        simp only [mkJob]
        rw [hcnt i hi]
        exact hb

/-- The sequence-number discipline holds at every tick boundary of `RM_Scheduler.c`. -/
theorem run_seq_inv (tasks : List Task) (hpos : ∀ ti ∈ tasks, 0 < ti.period) :
    ∀ n : Nat,
      (RM_Scheduler.run tasks n).next_seq.length = tasks.length ∧
      (∀ i, i < tasks.length →
        (RM_Scheduler.run tasks n).next_seq.getD i 0
          = releaseCount (taskAt tasks (i : Int)) n) ∧
      (∀ J ∈ liveJobs (RM_Scheduler.run tasks n), seqOK tasks J) := by
  intro n
  induction n with
  | zero =>
    refine ⟨by simp [RM_Scheduler.run, Sim.init], fun i hi => ?_, fun J hJ => ?_⟩
    · simp [RM_Scheduler.run, Sim.init, releaseCount, List.getD_eq_getElem?_getD, hi]
    · simp [RM_Scheduler.run, Sim.init, liveJobs] at hJ
  | succ n ih =>
    obtain ⟨h1, h2, h3⟩ := ih
    obtain ⟨k1, k2, k3⟩ := seq_step1 tasks hpos n _ h1 h2 h3
    have hns : (RM_Scheduler.run tasks (n + 1)).next_seq
        = (step1 tasks n (RM_Scheduler.run tasks n)).next_seq := by
      simp only [RM_Scheduler.run, RM_Scheduler.tick]
      rw [next_seq_step4, next_seq_step3, next_seq_step2]
    refine ⟨by rw [hns]; exact k1, fun i hi => by rw [hns]; exact k2 i hi, fun J hJ => ?_⟩
    simp only [RM_Scheduler.run, RM_Scheduler.tick] at hJ
    obtain ⟨K, hK, e1, e2, _, e4⟩ := liveJobs_step4 _ hJ
    exact seqOK_of_same (k3 K (liveJobs_step2 _ _ (liveJobs_step3 _ _ hK))) e1 e2 e4

/-! ## C9, C10: releases and sequence numbers -/

/-- C9. Step 1 at tick `t`, for a table with positive periods: the ready set
after the step is the result of pushing, in task order, the jobs `releasedAt`;
a job of task `i` is among them exactly when `t >= phase_i` and
`(t - phase_i) mod period_i = 0`, and at most one per task; each of them has
`task_id = i`, `release_time = t`, `abs_deadline = t + deadline_i`,
`remaining = wcet_i` and `job_seq` equal to `next_seq[i]` before the step;
`next_seq[i]` grows by one for a releasing task and is unchanged for every
other task; nothing else in the state changes. -/
theorem step1_releases_exactly_due (tasks : List Task) (t : Nat) (s : Sim)
    (hpos : ∀ ti ∈ tasks, 0 < ti.period) (hlen : s.next_seq.length = tasks.length) :
    (step1 tasks t s).readyJobs = (releasedAt tasks t s.next_seq).foldl rq_push s.readyJobs ∧
    ((releasedAt tasks t s.next_seq).map Job.task_id).Nodup ∧
    (∀ i, i < tasks.length →
      ((∃ J ∈ releasedAt tasks t s.next_seq, J.task_id = (i : Int)) ↔
        (t ≥ (taskAt tasks (i : Int)).phase ∧
          (t - (taskAt tasks (i : Int)).phase) % (taskAt tasks (i : Int)).period = 0))) ∧
    (∀ J ∈ releasedAt tasks t s.next_seq, ∃ i, i < tasks.length ∧
      J.task_id = (i : Int) ∧ J.release_time = t ∧
      J.abs_deadline = t + (taskAt tasks (i : Int)).deadline ∧
      J.remaining = (taskAt tasks (i : Int)).wcet ∧
      J.job_seq = s.next_seq.getD i 0) ∧
    (∀ i, i < tasks.length →
      (step1 tasks t s).next_seq.getD i 0
        = s.next_seq.getD i 0
          + (if t ≥ (taskAt tasks (i : Int)).phase ∧
                (t - (taskAt tasks (i : Int)).phase) % (taskAt tasks (i : Int)).period = 0
             then 1 else 0)) ∧
    (step1 tasks t s).next_seq.length = tasks.length ∧
    (step1 tasks t s).cpu_busy = s.cpu_busy ∧
    (step1 tasks t s).currentJob = s.currentJob ∧
    (step1 tasks t s).completed = s.completed ∧
    (step1 tasks t s).preemptions = s.preemptions ∧
    (step1 tasks t s).misses = s.misses := by
  have _ := hpos
  obtain ⟨h1, h2, h3, h4⟩ := step1_spec tasks t s hlen
  refine ⟨h1, ?_, fun i hi => ⟨?_, fun hd => ?_⟩, fun J hJ => ?_, h3, h2, h4⟩
  · unfold releasedAt
    rw [List.map_map]
    have hfun : (Job.task_id ∘ fun i : Nat => mkJob tasks t i (s.next_seq.getD i 0))
        = fun i : Nat => (i : Int) := rfl
    rw [hfun]
    exact ((List.nodup_range _).filter _).map Nat.cast_injective
  · rintro ⟨J, hJ, hid⟩
    obtain ⟨k, _, hdue, rfl⟩ := mem_releasedAt hJ
    have hk : k = i := by simpa [mkJob] using hid
    subst hk
    exact hdue
  · refine ⟨mkJob tasks t i (s.next_seq.getD i 0), ?_, rfl⟩
    unfold releasedAt
    refine List.mem_map.mpr ⟨i, List.mem_filter.mpr ⟨List.mem_range.mpr hi, ?_⟩, rfl⟩
    simpa using hd
  · obtain ⟨i, hi, _, rfl⟩ := mem_releasedAt hJ
    exact ⟨i, hi, rfl, rfl, rfl, rfl, rfl⟩

/-- Witness for C9: tick 0 from the initial state over `exTasks`. -/
theorem step1_releases_exactly_due_witness :
    (∀ ti ∈ exTasks, 0 < ti.period) ∧
    (Sim.init 2).next_seq.length = exTasks.length ∧
    (step1 exTasks 0 (Sim.init 2)).readyJobs
      = (releasedAt exTasks 0 (Sim.init 2).next_seq).foldl rq_push (Sim.init 2).readyJobs ∧
    ((releasedAt exTasks 0 (Sim.init 2).next_seq).map Job.task_id).Nodup :=
  have h := step1_releases_exactly_due exTasks 0 (Sim.init 2) (by decide) (by decide)
  ⟨by decide, by decide, h.1, h.2.1⟩

/-- C10. Table with positive periods, `RM_Scheduler.c`: at every tick boundary
`n` the counter `next_seq[i]` is the number of earlier ticks at which task `i`
was due (so numbering starts at 0 and advances by one per release, whether or
not the job was admitted), and in the state at the boundary and after each of
steps 1, 2 and 3 of tick `n` every live job has a task index of the table and
`release_time = phase + job_seq * period` of its task. -/
theorem run_job_seq_invariant (tasks : List Task) (hpos : ∀ ti ∈ tasks, 0 < ti.period)
    (n : Nat) :
    (∀ i, i < tasks.length →
      (RM_Scheduler.run tasks n).next_seq.getD i 0
        = releaseCount (taskAt tasks (i : Int)) n) ∧
    (∀ s ∈ [RM_Scheduler.run tasks n,
            step1 tasks n (RM_Scheduler.run tasks n),
            RM_Scheduler.step2 n (step1 tasks n (RM_Scheduler.run tasks n)),
            RM_Scheduler.step3 tasks
              (RM_Scheduler.step2 n (step1 tasks n (RM_Scheduler.run tasks n)))],
      ∀ J ∈ liveJobs s,
        0 ≤ J.task_id ∧ J.task_id < (tasks.length : Int) ∧
        J.release_time
          = (taskAt tasks J.task_id).phase + J.job_seq * (taskAt tasks J.task_id).period) := by
  obtain ⟨h1, h2, h3⟩ := run_seq_inv tasks hpos n
  obtain ⟨_, _, k3⟩ := seq_step1 tasks hpos n _ h1 h2 h3
  refine ⟨h2, fun s hs J hJ => ?_⟩
  simp only [List.mem_cons, List.mem_singleton, List.not_mem_nil, or_false] at hs
  rcases hs with rfl | rfl | rfl | rfl
  · exact h3 J hJ
  · exact k3 J hJ
  · exact k3 J (liveJobs_step2 _ _ hJ)
  · exact k3 J (liveJobs_step2 _ _ (liveJobs_step3 _ _ hJ))

/-- Witness for C10: the table `exTasks` after seven ticks. -/
theorem run_job_seq_invariant_witness :
    (∀ ti ∈ exTasks, 0 < ti.period) ∧
    (∀ i, i < exTasks.length →
      (RM_Scheduler.run exTasks 7).next_seq.getD i 0
        = releaseCount (taskAt exTasks (i : Int)) 7) :=
  ⟨by decide, (run_job_seq_invariant exTasks (by decide) 7).1⟩

/-! ## C11: the effect of a preemption -/

theorem erase_jobAt_perm (rq : List Job) (i : Nat) (hi : i < rq.length) :
    (rq.erase (jobAt rq i)).Perm (rq.take i ++ rq.drop (i + 1)) := by
  have hsplit : rq = rq.take i ++ jobAt rq i :: rq.drop (i + 1) := by
    unfold jobAt
    rw [List.getD_eq_getElem _ _ hi, List.getElem_cons_drop, List.take_append_drop]
  have h2 : rq.Perm (jobAt rq i :: (rq.take i ++ rq.drop (i + 1))) := by
    conv_lhs => rw [hsplit]
    exact List.perm_middle
  have h3 := h2.erase (jobAt rq i)
  rwa [List.erase_cons_head] at h3

theorem set_perm_cons_erase (rq : List Job) (i : Nat) (hi : i < rq.length) (c : Job) :
    (rq.set i c).Perm (c :: rq.erase (jobAt rq i)) := by
  have hset : rq.set i c = rq.take i ++ c :: rq.drop (i + 1) := by
    rw [List.set_eq_take_append_cons_drop, if_pos hi]
  rw [hset]
  exact List.perm_middle.trans (List.Perm.cons _ (erase_jobAt_perm rq i hi).symm)

/-- Push the running job, then swap-remove the challenger: with room in the
ready set the challenger's slot receives the preempted job. -/
theorem preempt_swap (rq : List Job) (cur : Job) (i : Nat)
    (hroom : rq.length < 128) (hi : i < rq.length) :
    rq_remove_idx (rq_push rq cur) (i : Int) = rq.set i cur ∧
    jobAt (rq_push rq cur) i = jobAt rq i := by
  have hp : rq_push rq cur = rq ++ [cur] := by
    unfold rq_push READY_QUEUE_SIZE; rw [if_pos hroom]
  refine ⟨?_, jobAt_rq_push cur hi⟩
  rw [hp]
  unfold rq_remove_idx
  have hlast : jobAt (rq ++ [cur]) ((rq ++ [cur]).length - 1) = cur := by
    unfold jobAt
    rw [List.getD_eq_getElem?_getD, List.length_append, List.length_singleton,
      Nat.add_sub_cancel, List.getElem?_append_right (le_refl _)]
    simp
  rw [hlast, if_neg (by simp; omega), Int.toNat_ofNat, List.set_append, if_pos hi,
    List.dropLast_concat]

theorem preemptEffect_of (s s' : Sim) (i : Nat) (hroom : s.readyJobs.length < 128)
    (hi : i < s.readyJobs.length)
    (hcur : s'.currentJob = jobAt (rq_push s.readyJobs s.currentJob) i)
    (hrq : s'.readyJobs = rq_remove_idx (rq_push s.readyJobs s.currentJob) (i : Int))
    (hpre : s'.preemptions = s.preemptions + 1) (hb : s'.cpu_busy = true)
    (hns : s'.next_seq = s.next_seq) (hc : s'.completed = s.completed)
    (hm : s'.misses = s.misses) : preemptEffect s s' (i : Int) := by
  obtain ⟨h1, h2⟩ := preempt_swap s.readyJobs s.currentJob i hroom hi
  rw [h1] at hrq
  rw [h2] at hcur
  refine ⟨i, rfl, hi, hcur, hrq, ?_, ?_, ?_, hpre, hb, hns, hc, hm⟩
  · rw [hrq]; exact List.mem_set _ _ hi _
  · rw [hrq, List.length_set]
  · rw [hrq, Multiset.coe_erase, Multiset.cons_coe, Multiset.coe_eq_coe]
    exact set_perm_cons_erase _ _ hi _

theorem idx_of_ne_neg_one_edf (rq : List Job) (h : rq_earliest_deadline_idx rq ≠ -1) :
    ∃ best : Nat, rq_earliest_deadline_idx rq = (best : Int) ∧ best < rq.length := by
  by_cases hne : rq = []
  · subst hne; exact absurd rfl h
  · obtain ⟨b, h1, h2, _⟩ := edf_idx_of_ne_nil rq hne
    exact ⟨b, h1, h2⟩

theorem pick_ready_idx_valid (pol : Policy) (tasks : List Task) (rq : List Job) (h : rq ≠ []) :
    ∃ best : Nat, pick_ready_idx pol tasks rq = (best : Int) ∧ best < rq.length := by
  unfold pick_ready_idx
  split_ifs
  · obtain ⟨b, h1, h2, _⟩ := edf_idx_of_ne_nil rq h
    exact ⟨b, h1, h2⟩
  · obtain ⟨b, h1, h2, _⟩ := rm_idx_of_ne_nil tasks rq h
    exact ⟨b, h1, h2⟩

theorem preempt_needed_ne_nil {pol : Policy} {tasks : List Task} {rq : List Job} {cur : Job}
    (h : preempt_needed pol tasks rq cur = true) : rq ≠ [] := by
  intro hnil
  subst hnil
  simp [preempt_needed] at h

set_option maxRecDepth 100000 in
/-- Counterexample to C11 as stated: `main.c` under EDF with the table
`fullTasks` reaches step 3 of tick 21 with a job of task 4 running and a full
ready set of 128 jobs whose last entry has an earlier deadline.  The
preemption is performed: `rq_push(cur)` finds no room and drops the running
job, the challenger becomes the running job and is swap-removed.  Afterwards
the previously running job is not in the ready set and the ready set holds 127
jobs, not 128. -/
theorem preempt_full_queue_loses_job :
    fullState.cpu_busy = true ∧
    fullState.readyJobs.length = 128 ∧
    fullState.currentJob = ⟨4, 1, 1001, 1, 1⟩ ∧
    preempt_needed Policy.POLICY_EDF fullTasks fullState.readyJobs fullState.currentJob = true ∧
    (main_c.step3 Policy.POLICY_EDF fullTasks fullState).preemptions
      = fullState.preemptions + 1 ∧
    (main_c.step3 Policy.POLICY_EDF fullTasks fullState).currentJob = ⟨0, 21, 22, 1, 0⟩ ∧
    fullState.currentJob ∉ (main_c.step3 Policy.POLICY_EDF fullTasks fullState).readyJobs ∧
    (main_c.step3 Policy.POLICY_EDF fullTasks fullState).readyJobs.length = 127 := by
  decide

/-- C11 (as amended). A preemption in step 3 that finds room in the ready set
(fewer than 128 ready jobs), in `RM_Scheduler.c`, `selfattempt.c` and `main.c`:
the challenger, the job at the selected index, becomes the running job; its
slot in the ready set receives the previously running job, unchanged in every
field; all other slots and the size of the ready set are unchanged; the
multiset of ready jobs loses one copy of the challenger and gains the preempted
job; `preemptions` grows by exactly one and the processor stays busy. -/
theorem step3_preempt_effect (pol : Policy) (tasks : List Task) (s : Sim)
    (hbusy : s.cpu_busy = true) (hroom : s.readyJobs.length < 128) :
    ((rq_highest_rm_idx tasks s.readyJobs ≠ -1 ∧
        (taskAt tasks (jobAt s.readyJobs (rq_highest_rm_idx tasks s.readyJobs).toNat).task_id).period
          < (taskAt tasks s.currentJob.task_id).period) →
      preemptEffect s (RM_Scheduler.step3 tasks s) (rq_highest_rm_idx tasks s.readyJobs)) ∧
    ((rq_earliest_deadline_idx s.readyJobs ≠ -1 ∧
        (jobAt s.readyJobs (rq_earliest_deadline_idx s.readyJobs).toNat).abs_deadline
          < s.currentJob.abs_deadline) →
      preemptEffect s (selfattempt.step3 s) (rq_earliest_deadline_idx s.readyJobs)) ∧
    (preempt_needed pol tasks s.readyJobs s.currentJob = true →
      preemptEffect s (main_c.step3 pol tasks s) (pick_ready_idx pol tasks s.readyJobs)) := by
  have hb : ¬ s.cpu_busy = false := by simp [hbusy]
  refine ⟨fun hg => ?_, fun hg => ?_, fun hg => ?_⟩
  · obtain ⟨i, hidx, hi⟩ := idx_of_ne_neg_one_rm tasks _ hg.1
    have hstep : RM_Scheduler.step3 tasks s =
        { s with
          currentJob := jobAt (rq_push s.readyJobs s.currentJob)
            (rq_highest_rm_idx tasks s.readyJobs).toNat
          readyJobs := rq_remove_idx (rq_push s.readyJobs s.currentJob)
            (rq_highest_rm_idx tasks s.readyJobs)
          preemptions := s.preemptions + 1 } := by
      unfold RM_Scheduler.step3
      rw [if_neg hb]
      simp only [if_pos hg]
    rw [hstep, hidx]
    exact preemptEffect_of s _ i hroom hi (by simp) rfl rfl hbusy rfl rfl rfl
  · obtain ⟨i, hidx, hi⟩ := idx_of_ne_neg_one_edf _ hg.1
    have hstep : selfattempt.step3 s =
        { s with
          currentJob := jobAt (rq_push s.readyJobs s.currentJob)
            (rq_earliest_deadline_idx s.readyJobs).toNat
          readyJobs := rq_remove_idx (rq_push s.readyJobs s.currentJob)
            (rq_earliest_deadline_idx s.readyJobs)
          preemptions := s.preemptions + 1 } := by
      unfold selfattempt.step3
      rw [if_neg hb]
      simp only [if_pos hg]
    rw [hstep, hidx]
    exact preemptEffect_of s _ i hroom hi (by simp) rfl rfl hbusy rfl rfl rfl
  · obtain ⟨i, hidx, hi⟩ := pick_ready_idx_valid pol tasks _ (preempt_needed_ne_nil hg)
    have hstep : main_c.step3 pol tasks s =
        { s with
          currentJob := jobAt (rq_push s.readyJobs s.currentJob)
            (pick_ready_idx pol tasks s.readyJobs).toNat
          readyJobs := rq_remove_idx (rq_push s.readyJobs s.currentJob)
            (pick_ready_idx pol tasks s.readyJobs)
          preemptions := s.preemptions + 1 } := by
      unfold main_c.step3
      rw [if_neg hb]
      simp only [if_pos hg]
    rw [hstep, hidx]
    exact preemptEffect_of s _ i hroom hi (by simp) rfl rfl hbusy rfl rfl rfl

/-- Witness for C11: the busy state `exBusy`, one ready job with the earlier deadline. -/
theorem step3_preempt_effect_witness :
    exBusy.cpu_busy = true ∧ exBusy.readyJobs.length < 128 ∧
    preemptEffect exBusy (selfattempt.step3 exBusy)
      (rq_earliest_deadline_idx exBusy.readyJobs) :=
  ⟨by decide, by decide,
    (step3_preempt_effect Policy.POLICY_EDF exTasks exBusy (by decide) (by decide)).2.1
      (by decide)⟩

/-! ## C12: the execute step -/

theorem decr32_pos {r : Nat} (h : 1 ≤ r) : decr32 r = r - 1 := by
  unfold decr32
  rw [if_neg (by omega)]

theorem decrGuarded_pos {r : Nat} (h : 1 ≤ r) : decrGuarded r = r - 1 := by
  unfold decrGuarded
  rw [if_pos (by omega)]

theorem rm_step4_idle (s : Sim) (h : s.cpu_busy = false) : RM_Scheduler.step4 s = s := by
  unfold RM_Scheduler.step4
  rw [if_neg (by simp [h])]

theorem main_step4_idle (s : Sim) (h : s.cpu_busy = false) : main_c.step4 s = s := by
  unfold main_c.step4
  rw [if_neg (by simp [h])]

theorem rm_step4_busy (s : Sim) (h : s.cpu_busy = true) :
    RM_Scheduler.step4 s =
      if decr32 s.currentJob.remaining = 0 then
        { s with
          currentJob := { s.currentJob with remaining := decr32 s.currentJob.remaining }
          completed := s.completed + 1
          cpu_busy := false }
      else
        { s with
          currentJob := { s.currentJob with remaining := decr32 s.currentJob.remaining } } := by
  unfold RM_Scheduler.step4
  rw [if_pos h]

theorem main_step4_busy (s : Sim) (h : s.cpu_busy = true) :
    main_c.step4 s =
      if decrGuarded s.currentJob.remaining = 0 then
        { s with
          currentJob := { s.currentJob with remaining := decrGuarded s.currentJob.remaining }
          completed := s.completed + 1
          cpu_busy := false }
      else
        { s with
          currentJob :=
            { s.currentJob with remaining := decrGuarded s.currentJob.remaining } } := by
  unfold main_c.step4
  rw [if_pos h]

/-- The execute step on a busy state, given the new value `r` of `remaining`. -/
theorem executeEffect_of (s : Sim) (hbusy : s.cpu_busy = true) (r : Nat)
    (hr : r = s.currentJob.remaining - 1) (h1 : 1 ≤ s.currentJob.remaining) :
    executeEffect s
      (if r = 0 then
        { s with
          currentJob := { s.currentJob with remaining := r }
          completed := s.completed + 1
          cpu_busy := false }
      else { s with currentJob := { s.currentJob with remaining := r } }) := by
  subst hr
  by_cases hz : s.currentJob.remaining - 1 = 0
  · rw [if_pos hz]
    exact ⟨rfl, by show s.currentJob.remaining - 1 + 1 = _; omega, fun _ => ⟨rfl, rfl⟩,
      fun hne => absurd hz hne, rfl, rfl, rfl, rfl⟩
  · rw [if_neg hz]
    exact ⟨rfl, by show s.currentJob.remaining - 1 + 1 = _; omega, fun h0 => absurd h0 hz,
      fun _ => ⟨rfl, hbusy⟩, rfl, rfl, rfl, rfl⟩

/-- C12. The execute step of the fixed-speed engines (`RM_Scheduler.c` and
`selfattempt.c` share one text, `main.c` guards the decrement).  On a busy
processor whose running job has `remaining >= 1`, `remaining` decreases by
exactly one; if the new value is 0, `completed` grows by one and the processor
becomes idle; otherwise `completed` is unchanged and the same job stays
running; ready set and the other counters are untouched.  On an idle processor
the step changes nothing. -/
theorem step4_execute (s : Sim) :
    (s.cpu_busy = true → 1 ≤ s.currentJob.remaining →
      executeEffect s (RM_Scheduler.step4 s) ∧ executeEffect s (main_c.step4 s)) ∧
    (s.cpu_busy = false → RM_Scheduler.step4 s = s ∧ main_c.step4 s = s) := by
  refine ⟨fun hb h1 => ⟨?_, ?_⟩, fun hb => ⟨rm_step4_idle s hb, main_step4_idle s hb⟩⟩
  · rw [rm_step4_busy s hb]
    exact executeEffect_of s hb _ (decr32_pos h1) h1
  · rw [main_step4_busy s hb]
    exact executeEffect_of s hb _ (decrGuarded_pos h1) h1

/-- Witness for C12: the busy state `exBusy`, whose running job has two ticks left. -/
theorem step4_execute_witness :
    exBusy.cpu_busy = true ∧ 1 ≤ exBusy.currentJob.remaining ∧
    executeEffect exBusy (RM_Scheduler.step4 exBusy) ∧
    executeEffect exBusy (main_c.step4 exBusy) :=
  ⟨by decide, by decide, (step4_execute exBusy).1 (by decide) (by decide)⟩

/-! ## C15: the two-task RM scenario -/

/-- C15. The fixed-speed RM engine on the table A(4, 1, 4, 0), B(6, 3, 6, 0),
in `RM_Scheduler.c` and in `main.c` under RM alike.  Tick 0 starts A#0 (state
on entry to the execute step) and completes it in that tick; tick 1 starts B#0,
which then runs ticks 1, 2 and 3 without interruption; once ticks 0..3 are
processed the counters are Completed = 2, Preemptions = 0, Misses = 0. -/
theorem rm_scenario_two_tasks :
    (∀ run : Nat → Sim,
      (run = RM_Scheduler.run scenarioTasks ∨
        run = main_c.run Policy.POLICY_RM scenarioTasks) →
      (run 1).cpu_busy = false ∧ (run 1).completed = 1 ∧
        (run 1).currentJob = ⟨0, 0, 4, 0, 0⟩ ∧ (run 1).readyJobs = [⟨1, 0, 6, 3, 0⟩] ∧
      (run 2).cpu_busy = true ∧ (run 2).currentJob = ⟨1, 0, 6, 2, 0⟩ ∧
        (run 2).readyJobs = [] ∧ (run 2).completed = 1 ∧
      (run 3).cpu_busy = true ∧ (run 3).currentJob = ⟨1, 0, 6, 1, 0⟩ ∧
        (run 3).readyJobs = [] ∧ (run 3).completed = 1 ∧
      (run 4).cpu_busy = false ∧ (run 4).currentJob = ⟨1, 0, 6, 0, 0⟩ ∧
        (run 4).readyJobs = [] ∧
      (run 4).completed = 2 ∧ (run 4).preemptions = 0 ∧ (run 4).misses = 0) ∧
    (RM_Scheduler.step3 scenarioTasks
        (RM_Scheduler.step2 0 (step1 scenarioTasks 0 (Sim.init 2)))).currentJob
      = ⟨0, 0, 4, 1, 0⟩ ∧
    (main_c.step3 Policy.POLICY_RM scenarioTasks
        (main_c.step2 0 (step1 scenarioTasks 0 (Sim.init 2)))).currentJob
      = ⟨0, 0, 4, 1, 0⟩ := by
  refine ⟨fun run h => ?_, by decide, by decide⟩
  rcases h with rfl | rfl <;> decide

/-! ## C13: remaining work over one tick of `RM_Scheduler.c` -/

theorem rm_step4_readyJobs (s : Sim) : (RM_Scheduler.step4 s).readyJobs = s.readyJobs := by
  by_cases hb : s.cpu_busy = true
  · rw [rm_step4_busy s hb]
    by_cases hz : decr32 s.currentJob.remaining = 0
    · rw [if_pos hz]
    · rw [if_neg hz]
  · rw [rm_step4_idle s (by simpa using hb)]

theorem liveJobs_step1 (tasks : List Task) (t : Nat) (s : Sim)
    (hlen : s.next_seq.length = tasks.length) {J : Job}
    (h : J ∈ liveJobs (step1 tasks t s)) :
    J ∈ liveJobs s ∨ J ∈ releasedAt tasks t s.next_seq := by
  obtain ⟨h1, _, _, h4, h5, _⟩ := step1_spec tasks t s hlen
  rw [mem_liveJobs, h4, h5, h1] at h
  rcases h with h | h
  · exact Or.inl (mem_liveJobs.mpr (Or.inl h))
  · rcases mem_foldl_rq_push h with h | h
    · exact Or.inl (mem_liveJobs.mpr (Or.inr h))
    · exact Or.inr h

/-- Every job live on entry to the execute step was live at the start of the
tick or was released in it. -/
theorem liveJobs_before_execute (tasks : List Task) (t : Nat) (s : Sim)
    (hlen : s.next_seq.length = tasks.length) {J : Job}
    (h : J ∈ liveJobs (RM_Scheduler.step3 tasks (RM_Scheduler.step2 t (step1 tasks t s)))) :
    J ∈ liveJobs s ∨ J ∈ releasedAt tasks t s.next_seq :=
  liveJobs_step1 tasks t s hlen (liveJobs_step2 _ _ (liveJobs_step3 _ _ h))

/-- C13 fails on `RM_Scheduler.c`: with the table `zeroTasks` the job released
at tick 0 has `remaining = 0`; it is started in that tick and the unguarded
`remaining--` wraps to `2^32 - 1`, so the remaining work of the running job
goes up, not down by one, and the job is not counted as completed.  The
sibling `main.c` (policy RM) guards the same decrement: there the job keeps
`remaining = 0` and is completed in tick 0. -/
theorem rm_tick_zero_wcet_wraps :
    (RM_Scheduler.step3 zeroTasks
        (RM_Scheduler.step2 0 (step1 zeroTasks 0 (RM_Scheduler.run zeroTasks 0)))).cpu_busy
      = true ∧
    (RM_Scheduler.step3 zeroTasks
        (RM_Scheduler.step2 0 (step1 zeroTasks 0 (RM_Scheduler.run zeroTasks 0)))).currentJob
      = ⟨0, 0, 5, 0, 0⟩ ∧
    (RM_Scheduler.tick zeroTasks 0 (RM_Scheduler.run zeroTasks 0)).currentJob
      = ⟨0, 0, 5, 4294967295, 0⟩ ∧
    ¬ ((RM_Scheduler.tick zeroTasks 0 (RM_Scheduler.run zeroTasks 0)).currentJob.remaining + 1
        = (RM_Scheduler.step3 zeroTasks
            (RM_Scheduler.step2 0
              (step1 zeroTasks 0 (RM_Scheduler.run zeroTasks 0)))).currentJob.remaining) ∧
    (RM_Scheduler.step3 zeroTasks
        (RM_Scheduler.step2 0 (step1 zeroTasks 0 (RM_Scheduler.run zeroTasks 0)))).currentJob.remaining
      < (RM_Scheduler.tick zeroTasks 0 (RM_Scheduler.run zeroTasks 0)).currentJob.remaining ∧
    (RM_Scheduler.tick zeroTasks 0 (RM_Scheduler.run zeroTasks 0)).cpu_busy = true ∧
    (RM_Scheduler.tick zeroTasks 0 (RM_Scheduler.run zeroTasks 0)).completed = 0 ∧
    (main_c.step3 Policy.POLICY_RM zeroTasks
        (main_c.step2 0 (step1 zeroTasks 0 (main_c.run Policy.POLICY_RM zeroTasks 0)))).currentJob
      = ⟨0, 0, 5, 0, 0⟩ ∧
    (main_c.tick Policy.POLICY_RM zeroTasks 0
        (main_c.run Policy.POLICY_RM zeroTasks 0)).currentJob = ⟨0, 0, 5, 0, 0⟩ ∧
    (main_c.tick Policy.POLICY_RM zeroTasks 0
        (main_c.run Policy.POLICY_RM zeroTasks 0)).cpu_busy = false ∧
    (main_c.tick Policy.POLICY_RM zeroTasks 0
        (main_c.run Policy.POLICY_RM zeroTasks 0)).completed = 1 := by
  decide

/-- The part of C13 that holds.  One full tick of `RM_Scheduler.c` from any
state whose `next_seq` array matches the table.  Every job in the ready set at the end of
the tick is, field for field, a job that was live at the start of the tick
(ready, or running) or a job released in this tick, which carries its task's
wcet.  If the processor is busy on entry to the execute step, the running job
is one of those jobs, the execute step leaves the ready set alone and,
provided that job has `remaining >= 1`, lowers its `remaining` by exactly one
and changes no other field.  If the processor is idle there, the execute step
changes nothing. -/
theorem rm_tick_remaining_frame (tasks : List Task) (t : Nat) (s : Sim)
    (hlen : s.next_seq.length = tasks.length) :
    (∀ J ∈ (RM_Scheduler.tick tasks t s).readyJobs,
      J ∈ liveJobs s ∨ J ∈ releasedAt tasks t s.next_seq) ∧
    (∀ J ∈ releasedAt tasks t s.next_seq,
      ∃ i, i < tasks.length ∧ J.task_id = (i : Int) ∧
        J.remaining = (taskAt tasks (i : Int)).wcet) ∧
    ((RM_Scheduler.step3 tasks (RM_Scheduler.step2 t (step1 tasks t s))).cpu_busy = true →
      ((RM_Scheduler.step3 tasks (RM_Scheduler.step2 t (step1 tasks t s))).currentJob
          ∈ liveJobs s ∨
        (RM_Scheduler.step3 tasks (RM_Scheduler.step2 t (step1 tasks t s))).currentJob
          ∈ releasedAt tasks t s.next_seq) ∧
      (RM_Scheduler.tick tasks t s).readyJobs
        = (RM_Scheduler.step3 tasks (RM_Scheduler.step2 t (step1 tasks t s))).readyJobs ∧
      (1 ≤ (RM_Scheduler.step3 tasks
              (RM_Scheduler.step2 t (step1 tasks t s))).currentJob.remaining →
        (RM_Scheduler.tick tasks t s).currentJob
          = { (RM_Scheduler.step3 tasks (RM_Scheduler.step2 t (step1 tasks t s))).currentJob with
              remaining :=
                (RM_Scheduler.step3 tasks
                  (RM_Scheduler.step2 t (step1 tasks t s))).currentJob.remaining - 1 })) ∧
    ((RM_Scheduler.step3 tasks (RM_Scheduler.step2 t (step1 tasks t s))).cpu_busy = false →
      RM_Scheduler.tick tasks t s
        = RM_Scheduler.step3 tasks (RM_Scheduler.step2 t (step1 tasks t s))) := by
  refine ⟨fun J hJ => ?_, fun J hJ => ?_, fun hb => ⟨?_, ?_, fun h1 => ?_⟩, fun hb => ?_⟩
  · unfold RM_Scheduler.tick at hJ
    rw [rm_step4_readyJobs] at hJ
    exact liveJobs_before_execute tasks t s hlen (mem_liveJobs.mpr (Or.inr hJ))
  · obtain ⟨i, hi, _, rfl⟩ := mem_releasedAt hJ
    exact ⟨i, hi, rfl, rfl⟩
  · exact liveJobs_before_execute tasks t s hlen (mem_liveJobs.mpr (Or.inl ⟨hb, rfl⟩))
  · unfold RM_Scheduler.tick
    rw [rm_step4_readyJobs]
  · unfold RM_Scheduler.tick
    rw [rm_step4_busy _ hb]
    exact (executeEffect_of _ hb _ (decr32_pos h1) h1).1
  · unfold RM_Scheduler.tick
    exact rm_step4_idle _ hb

/-- An instance of the frame property of a tick: tick 1 of the table `exTasks` from the
state after tick 0. -/
theorem rm_tick_remaining_frame_witness :
    (RM_Scheduler.run exTasks 1).next_seq.length = exTasks.length ∧
    (∀ J ∈ (RM_Scheduler.tick exTasks 1 (RM_Scheduler.run exTasks 1)).readyJobs,
      J ∈ liveJobs (RM_Scheduler.run exTasks 1) ∨
        J ∈ releasedAt exTasks 1 (RM_Scheduler.run exTasks 1).next_seq) :=
  ⟨by decide, (rm_tick_remaining_frame exTasks 1 (RM_Scheduler.run exTasks 1) (by decide)).1⟩

/-! ## C14: job identities in `RM_Scheduler.c` -/

theorem nodup_map_of_subperm {α β : Type} (f : α → β) {l₁ l₂ : List α}
    (h : l₁.Subperm l₂) (hn : (l₂.map f).Nodup) : (l₁.map f).Nodup := by
  obtain ⟨l, hp, hs⟩ := h
  exact (hn.sublist (hs.map f)).perm (hp.map f)

/-- The selected job together with what swap-remove leaves is the old ready set. -/
theorem perm_cons_remove (rq : List Job) (i : Nat) (hi : i < rq.length) :
    (jobAt rq i :: rq_remove_idx rq (i : Int)).Perm rq := by
  obtain ⟨L, hL, hperm⟩ := rq_remove_idx_split rq i hi
  have hsplit : rq = rq.take i ++ jobAt rq i :: rq.drop (i + 1) := by
    unfold jobAt
    rw [List.getD_eq_getElem _ _ hi, List.getElem_cons_drop, List.take_append_drop]
  rw [hL]
  have h1 : (jobAt rq i :: (rq.take i ++ L)).Perm
      (jobAt rq i :: (rq.take i ++ rq.drop (i + 1))) :=
    List.Perm.cons _ (List.Perm.append_left _ hperm)
  have h2 : (rq.take i ++ jobAt rq i :: rq.drop (i + 1)).Perm
      (jobAt rq i :: (rq.take i ++ rq.drop (i + 1))) := List.perm_middle
  rw [← hsplit] at h2
  exact h1.trans h2.symm

theorem rq_push_subperm (rq : List Job) (cur : Job) :
    (rq_push rq cur).Subperm (cur :: rq) := by
  unfold rq_push
  split_ifs
  · exact (List.perm_append_singleton cur rq).subperm
  · exact (List.sublist_cons_self cur rq).subperm

theorem rq_push_length_le (rq : List Job) (cur : Job) :
    rq.length ≤ (rq_push rq cur).length := by
  unfold rq_push
  split_ifs
  · simp
  · exact le_refl _

theorem liveJobs_busy {s : Sim} (h : s.cpu_busy = true) :
    liveJobs s = s.currentJob :: s.readyJobs := by
  unfold liveJobs; rw [if_pos h]

theorem liveJobs_idle {s : Sim} (h : s.cpu_busy = false) : liveJobs s = s.readyJobs := by
  unfold liveJobs; rw [if_neg (by simp [h])]

theorem liveJobs_mk_busy (rq : List Job) (ns : List Nat) (b : Bool) (cur : Job)
    (c p m : Nat) (h : b = true) :
    liveJobs { readyJobs := rq, next_seq := ns, cpu_busy := b, currentJob := cur,
               completed := c, preemptions := p, misses := m } = cur :: rq := by
  unfold liveJobs; rw [if_pos h]

theorem liveJobs_mk_idle (rq : List Job) (ns : List Nat) (cur : Job) (c p m : Nat) :
    liveJobs { readyJobs := rq, next_seq := ns, cpu_busy := false, currentJob := cur,
               completed := c, preemptions := p, misses := m } = rq := by
  unfold liveJobs; rw [if_neg (by simp)]

theorem subperm_step3 (tasks : List Task) (s : Sim) :
    (liveJobs (RM_Scheduler.step3 tasks s)).Subperm (liveJobs s) := by
  unfold RM_Scheduler.step3
  by_cases hb : s.cpu_busy = false
  · rw [if_pos hb]
    simp only []
    by_cases hidx : rq_highest_rm_idx tasks s.readyJobs ≠ -1
    · rw [if_pos hidx]
      obtain ⟨i, hbest, hlt⟩ := idx_of_ne_neg_one_rm tasks _ hidx
      rw [liveJobs_mk_busy _ _ _ _ _ _ _ rfl, liveJobs_idle hb, hbest]
      simp only [Int.toNat_ofNat]
      exact (perm_cons_remove _ i hlt).subperm
    · rw [if_neg hidx]
  · rw [if_neg hb]
    simp only []
    have hbt : s.cpu_busy = true := by simpa using hb
    split_ifs with hg
    · obtain ⟨i, hbest, hlt⟩ := idx_of_ne_neg_one_rm tasks _ hg.1
      rw [liveJobs_mk_busy _ _ _ _ _ _ _ hbt, liveJobs_busy hbt, hbest]
      simp only [Int.toNat_ofNat]
      exact (perm_cons_remove _ i
        (lt_of_lt_of_le hlt (rq_push_length_le _ _))).subperm.trans (rq_push_subperm _ _)
    · exact List.Subperm.refl _

theorem subperm_step2 (t : Nat) (s : Sim) :
    (liveJobs (RM_Scheduler.step2 t s)).Subperm (liveJobs s) := by
  have hrq : (RM_Scheduler.missCurrent t s).readyJobs = s.readyJobs := by
    unfold RM_Scheduler.missCurrent; split_ifs <;> rfl
  have hcur : (RM_Scheduler.missCurrent t s).currentJob = s.currentJob := by
    unfold RM_Scheduler.missCurrent; split_ifs <;> rfl
  have hbusy : (RM_Scheduler.missCurrent t s).cpu_busy = true → s.cpu_busy = true := by
    unfold RM_Scheduler.missCurrent; split_ifs with hc
    · intro h; simp at h
    · exact id
  obtain ⟨_, hperm, _, _, hb, hc, _⟩ := missLoop_inv t
    (RM_Scheduler.missCurrent t s).readyJobs.length 0 (RM_Scheduler.missCurrent t s) (by omega)
  simp only [List.take_zero, List.nil_append, List.drop_zero] at hperm
  have hsub : (RM_Scheduler.step2 t s).readyJobs.Subperm s.readyJobs := by
    unfold RM_Scheduler.step2
    refine hperm.subperm.trans ?_
    rw [hrq]
    exact (List.filter_sublist _).subperm
  have hcur2 : (RM_Scheduler.step2 t s).currentJob = s.currentJob := by
    unfold RM_Scheduler.step2; rw [hc, hcur]
  have hb2 : (RM_Scheduler.step2 t s).cpu_busy = (RM_Scheduler.missCurrent t s).cpu_busy := by
    unfold RM_Scheduler.step2; rw [hb]
  by_cases hbs : (RM_Scheduler.step2 t s).cpu_busy = true
  · rw [liveJobs_busy hbs, liveJobs_busy (hbusy (hb2 ▸ hbs)), hcur2]
    exact (List.subperm_cons _).mpr hsub
  · rw [liveJobs_idle (by simpa using hbs)]
    unfold liveJobs
    split_ifs
    · exact hsub.cons_right _
    · exact hsub

theorem sublist_ids_step4 (s : Sim) :
    ((liveJobs (RM_Scheduler.step4 s)).map jobId).Sublist ((liveJobs s).map jobId) := by
  by_cases hb : s.cpu_busy = true
  · rw [rm_step4_busy s hb]
    by_cases hz : decr32 s.currentJob.remaining = 0
    · rw [if_pos hz, liveJobs_mk_idle, liveJobs_busy hb]
      exact (List.sublist_cons_self _ _).map _
    · rw [if_neg hz, liveJobs_mk_busy _ _ _ _ _ _ _ hb, liveJobs_busy hb]
      exact List.Sublist.refl _
  · rw [rm_step4_idle s (by simpa using hb)]

theorem foldl_rq_push_sublist (js rq : List Job) :
    ∃ l, l.Sublist js ∧ js.foldl rq_push rq = rq ++ l := by
  induction js generalizing rq with
  | nil => exact ⟨[], List.Sublist.refl _, by simp⟩
  | cons j js ih =>
    rw [List.foldl_cons]
    obtain ⟨l, hl, he⟩ := ih (rq_push rq j)
    unfold rq_push at he ⊢
    split_ifs at he ⊢
    · exact ⟨j :: l, hl.cons₂ j, by rw [he]; simp⟩
    · exact ⟨l, hl.cons j, he⟩

theorem releasedAt_task_ids_nodup (tasks : List Task) (t : Nat) (ns : List Nat) :
    ((releasedAt tasks t ns).map Job.task_id).Nodup := by
  unfold releasedAt
  rw [List.map_map]
  have hfun : (Job.task_id ∘ fun i : Nat => mkJob tasks t i (ns.getD i 0))
      = fun i : Nat => (i : Int) := rfl
  rw [hfun]
  exact ((List.nodup_range _).filter _).map Nat.cast_injective

theorem releasedAt_ids_nodup (tasks : List Task) (t : Nat) (ns : List Nat) :
    ((releasedAt tasks t ns).map jobId).Nodup := by
  have h := releasedAt_task_ids_nodup tasks t ns
  have he : (releasedAt tasks t ns).map Job.task_id
      = ((releasedAt tasks t ns).map jobId).map Prod.fst := by
    rw [List.map_map]; rfl
  rw [he] at h
  exact List.Nodup.of_map _ h

theorem idInv_step1 (tasks : List Task) (t : Nat) (s : Sim) (h : idInv tasks s) :
    idInv tasks (step1 tasks t s) := by
  obtain ⟨h1, h2, h3⟩ := h
  obtain ⟨k1, k2, k3, k4, k5, _⟩ := step1_spec tasks t s h3
  obtain ⟨l, hl, he⟩ := foldl_rq_push_sublist (releasedAt tasks t s.next_seq) s.readyJobs
  have hlive : liveJobs (step1 tasks t s) = liveJobs s ++ l := by
    unfold liveJobs
    rw [k4, k5, k1, he]
    split_ifs <;> simp
  have hfresh : ∀ K ∈ l, ∃ i : Nat, i < tasks.length ∧
      releaseDue (taskAt tasks (i : Int)) t ∧ K.task_id = (i : Int) ∧
      K.job_seq = s.next_seq.getD i 0 := by
    intro K hK
    obtain ⟨i, hi, hdue, rfl⟩ := mem_releasedAt (hl.subset hK)
    exact ⟨i, hi, hdue, rfl, rfl⟩
  refine ⟨?_, ?_, k2⟩
  · rw [hlive, List.map_append, List.nodup_append]
    refine ⟨h1, (releasedAt_ids_nodup tasks t s.next_seq).sublist (hl.map _), ?_⟩
    intro x hx1 hx2
    obtain ⟨J, hJ, rfl⟩ := List.mem_map.mp hx1
    obtain ⟨K, hK, hKJ⟩ := List.mem_map.mp hx2
    obtain ⟨i, hJi, _, hlt⟩ := h2 J hJ
    obtain ⟨i', _, _, hKi, hKs⟩ := hfresh K hK
    have e1 : K.task_id = J.task_id := congrArg Prod.fst hKJ
    have e2 : K.job_seq = J.job_seq := congrArg Prod.snd hKJ
    have hii : i' = i := by
      have : (i' : Int) = (i : Int) := by rw [← hKi, ← hJi, e1]
      exact_mod_cast this
    subst hii
    omega
  · intro J hJ
    rw [hlive, List.mem_append] at hJ
    rcases hJ with hJ | hJ
    · obtain ⟨i, hJi, hi, hlt⟩ := h2 J hJ
      refine ⟨i, hJi, hi, ?_⟩
      rw [k3 i hi]
      omega
    · obtain ⟨i, hi, hdue, hKi, hKs⟩ := hfresh J hJ
      refine ⟨i, hKi, hi, ?_⟩
      rw [k3 i hi, if_pos hdue, hKs]
      omega

theorem idInv_step2 (tasks : List Task) (t : Nat) (s : Sim) (h : idInv tasks s) :
    idInv tasks (RM_Scheduler.step2 t s) := by
  obtain ⟨h1, h2, h3⟩ := h
  refine ⟨nodup_map_of_subperm _ (subperm_step2 t s) h1, fun J hJ => ?_, ?_⟩
  · rw [next_seq_step2]
    exact h2 J (liveJobs_step2 _ _ hJ)
  · rw [next_seq_step2]; exact h3

theorem idInv_step3 (tasks : List Task) (s : Sim) (h : idInv tasks s) :
    idInv tasks (RM_Scheduler.step3 tasks s) := by
  obtain ⟨h1, h2, h3⟩ := h
  refine ⟨nodup_map_of_subperm _ (subperm_step3 tasks s) h1, fun J hJ => ?_, ?_⟩
  · rw [next_seq_step3]
    exact h2 J (liveJobs_step3 _ _ hJ)
  · rw [next_seq_step3]; exact h3

theorem idInv_step4 (tasks : List Task) (s : Sim) (h : idInv tasks s) :
    idInv tasks (RM_Scheduler.step4 s) := by
  obtain ⟨h1, h2, h3⟩ := h
  refine ⟨h1.sublist (sublist_ids_step4 s), fun J hJ => ?_, ?_⟩
  · rw [next_seq_step4]
    obtain ⟨K, hK, e1, _, _, e4⟩ := liveJobs_step4 s hJ
    obtain ⟨i, hKi, hi, hlt⟩ := h2 K hK
    exact ⟨i, by rw [e1, hKi], hi, by rw [e4]; exact hlt⟩
  · rw [next_seq_step4]; exact h3

theorem idInv_run (tasks : List Task) : ∀ n : Nat, idInv tasks (RM_Scheduler.run tasks n) := by
  intro n
  induction n with
  | zero =>
    refine ⟨by simp [RM_Scheduler.run, Sim.init, liveJobs], fun J hJ => ?_,
      by simp [RM_Scheduler.run, Sim.init]⟩
    simp [RM_Scheduler.run, Sim.init, liveJobs] at hJ
  | succ n ih =>
    simp only [RM_Scheduler.run, RM_Scheduler.tick]
    exact idInv_step4 _ _ (idInv_step3 _ _ (idInv_step2 _ _ _ (idInv_step1 _ _ _ ih)))

theorem ids_of_idInv {tasks : List Task} {s : Sim} (h : idInv tasks s) :
    (s.readyJobs.map jobId).Nodup ∧
    (s.cpu_busy = true → jobId s.currentJob ∉ s.readyJobs.map jobId) := by
  obtain ⟨h1, _, _⟩ := h
  by_cases hb : s.cpu_busy = true
  · rw [liveJobs_busy hb, List.map_cons, List.nodup_cons] at h1
    exact ⟨h1.2, fun _ => h1.1⟩
  · rw [liveJobs_idle (by simpa using hb)] at h1
    exact ⟨h1, fun h => absurd h hb⟩

/-- C14. For a table with positive periods, in the state of `RM_Scheduler.c`
at every tick boundary `n` and after each of steps 1, 2 and 3 of tick `n`: the
identities (task_id, job_seq) of the ready jobs are pairwise distinct, and
while `cpu_busy` holds the identity of the running job does not occur in the
ready set.  A job is never ready and running at once and is never duplicated. -/
theorem run_job_ids_distinct (tasks : List Task) (hpos : ∀ ti ∈ tasks, 0 < ti.period)
    (n : Nat) :
    ∀ s ∈ [RM_Scheduler.run tasks n,
           step1 tasks n (RM_Scheduler.run tasks n),
           RM_Scheduler.step2 n (step1 tasks n (RM_Scheduler.run tasks n)),
           RM_Scheduler.step3 tasks
             (RM_Scheduler.step2 n (step1 tasks n (RM_Scheduler.run tasks n)))],
      (s.readyJobs.map jobId).Nodup ∧
      (s.cpu_busy = true → jobId s.currentJob ∉ s.readyJobs.map jobId) := by
  have _ := hpos
  have h0 := idInv_run tasks n
  have h1 := idInv_step1 tasks n _ h0
  have h2 := idInv_step2 tasks n _ h1
  have h3 := idInv_step3 tasks _ h2
  intro s hs
  simp only [List.mem_cons, List.mem_singleton, List.not_mem_nil, or_false] at hs
  rcases hs with rfl | rfl | rfl | rfl
  · exact ids_of_idInv h0
  · exact ids_of_idInv h1
  · exact ids_of_idInv h2
  · exact ids_of_idInv h3

/-- Witness for C14: the table `exTasks` after seven ticks. -/
theorem run_job_ids_distinct_witness :
    (∀ ti ∈ exTasks, 0 < ti.period) ∧
    ((RM_Scheduler.run exTasks 7).readyJobs.map jobId).Nodup ∧
    ((RM_Scheduler.run exTasks 7).cpu_busy = true →
      jobId (RM_Scheduler.run exTasks 7).currentJob
        ∉ (RM_Scheduler.run exTasks 7).readyJobs.map jobId) :=
  ⟨by decide, run_job_ids_distinct exTasks (by decide) 7 _ (List.mem_cons_self _ _)⟩

/-! ## C16, C17: `select_frequency` -/

/-- The selection loop of `select_frequency`, unrolled. -/
theorem select_frequency_eq (tasks : List RM_EE_Scheduler.Task)
    (rq : List RM_EE_Scheduler.Job) (busy : Bool) (cur : RM_EE_Scheduler.Job) (window : ℚ) :
    RM_EE_Scheduler.select_frequency tasks rq busy cur window
      = if RM_EE_Scheduler.levelOk tasks
            (fdiv (RM_EE_Scheduler.work_max tasks rq busy cur) window) 0 = true then 0
        else if RM_EE_Scheduler.levelOk tasks
            (fdiv (RM_EE_Scheduler.work_max tasks rq busy cur) window) 1 = true then 1
        else 2 := by
  unfold RM_EE_Scheduler.select_frequency
  by_cases h0 : RM_EE_Scheduler.levelOk tasks
      (fdiv (RM_EE_Scheduler.work_max tasks rq busy cur) window) 0 = true
  · simp [List.find?, h0]
  · by_cases h1 : RM_EE_Scheduler.levelOk tasks
        (fdiv (RM_EE_Scheduler.work_max tasks rq busy cur) window) 1 = true
    · simp [List.find?, h0, h1]
    · by_cases h2 : RM_EE_Scheduler.levelOk tasks
          (fdiv (RM_EE_Scheduler.work_max tasks rq busy cur) window) 2 = true
      · simp [List.find?, h0, h1, h2]
      · simp [List.find?, h0, h1, h2]

theorem select_frequency_range (tasks : List RM_EE_Scheduler.Task)
    (rq : List RM_EE_Scheduler.Job) (busy : Bool) (cur : RM_EE_Scheduler.Job) (window : ℚ) :
    RM_EE_Scheduler.select_frequency tasks rq busy cur window = 0 ∨
    RM_EE_Scheduler.select_frequency tasks rq busy cur window = 1 ∨
    RM_EE_Scheduler.select_frequency tasks rq busy cur window = 2 := by
  rw [select_frequency_eq]
  split_ifs
  · exact Or.inl rfl
  · exact Or.inr (Or.inl rfl)
  · exact Or.inr (Or.inr rfl)

theorem foldl_add_eq_sum {α : Type} (g : α → ℚ) (l : List α) (a : ℚ) :
    l.foldl (fun acc x => acc + g x) a = a + (l.map g).sum := by
  induction l generalizing a with
  | nil => simp
  | cons x xs ih => rw [List.foldl_cons, ih, List.map_cons, List.sum_cons, add_assoc]

/-- With a non-zero window the speed fraction is the rational quotient. -/
theorem fdiv_of_ne_zero (a b : ℚ) (h : b ≠ 0) : fdiv a b = FVal.fin (a / b) := by
  unfold fdiv; rw [if_pos h]

/-- The level test against a finite speed fraction, in rational arithmetic. -/
theorem levelOk_fin_iff (tasks : List RM_EE_Scheduler.Task) (x : ℚ) (f : Int)
    (hw : 0 < (RM_EE_Scheduler.taskAt tasks 0).wcet f) :
    RM_EE_Scheduler.levelOk tasks (FVal.fin x) f = true ↔
      x ≤ 1 / ((RM_EE_Scheduler.taskAt tasks 0).wcet f : ℚ) := by
  unfold RM_EE_Scheduler.levelOk
  have hne : ((RM_EE_Scheduler.taskAt tasks 0).wcet f : ℚ) ≠ 0 := by
    exact_mod_cast (Nat.pos_iff_ne_zero.mp hw)
  rw [fdiv_of_ne_zero _ _ hne]
  simp [fge]

/-- A zero reference WCET gives `1.0 / 0 = +inf`, which passes every finite test. -/
theorem levelOk_fin_of_zero (tasks : List RM_EE_Scheduler.Task) (x : ℚ) (f : Int)
    (hw : (RM_EE_Scheduler.taskAt tasks 0).wcet f = 0) :
    RM_EE_Scheduler.levelOk tasks (FVal.fin x) f = true := by
  unfold RM_EE_Scheduler.levelOk
  rw [hw]
  simp [fdiv, fge]

/-- C16. For a window `> 0`, in exact arithmetic, `select_frequency` returns a
level in {0, 1, 2}: the lowest level `f` that passes the test
`1 / tasks[0].wcet[f] >= work_max / window`, and the highest level 2 when no
level passes.  For a non-zero reference WCET the test is that inequality of
rationals (a zero reference WCET passes, as `1.0 / 0` is `+inf`).  `work_max`
is the sum over the ready jobs, plus the running job when the processor is
busy, of `remaining_work` times the WCET of the job's task at level 2. -/
theorem select_frequency_lowest_level (tasks : List RM_EE_Scheduler.Task)
    (rq : List RM_EE_Scheduler.Job) (busy : Bool) (cur : RM_EE_Scheduler.Job) (window : ℚ)
    (hwin : 0 < window) :
    (RM_EE_Scheduler.select_frequency tasks rq busy cur window = 0 ∨
      RM_EE_Scheduler.select_frequency tasks rq busy cur window = 1 ∨
      RM_EE_Scheduler.select_frequency tasks rq busy cur window = 2) ∧
    (∀ f : Int, (f = 0 ∨ f = 1 ∨ f = 2) →
      RM_EE_Scheduler.levelOk tasks
        (FVal.fin (RM_EE_Scheduler.work_max tasks rq busy cur / window)) f = true →
      RM_EE_Scheduler.select_frequency tasks rq busy cur window ≤ f ∧
      RM_EE_Scheduler.levelOk tasks
        (FVal.fin (RM_EE_Scheduler.work_max tasks rq busy cur / window))
        (RM_EE_Scheduler.select_frequency tasks rq busy cur window) = true) ∧
    ((∀ f : Int, (f = 0 ∨ f = 1 ∨ f = 2) →
        RM_EE_Scheduler.levelOk tasks
          (FVal.fin (RM_EE_Scheduler.work_max tasks rq busy cur / window)) f = false) →
      RM_EE_Scheduler.select_frequency tasks rq busy cur window = 2) ∧
    (∀ f : Int, 0 < (RM_EE_Scheduler.taskAt tasks 0).wcet f →
      (RM_EE_Scheduler.levelOk tasks
          (FVal.fin (RM_EE_Scheduler.work_max tasks rq busy cur / window)) f = true ↔
        RM_EE_Scheduler.work_max tasks rq busy cur / window
          ≤ 1 / ((RM_EE_Scheduler.taskAt tasks 0).wcet f : ℚ))) ∧
    (∀ f : Int, (RM_EE_Scheduler.taskAt tasks 0).wcet f = 0 →
      RM_EE_Scheduler.levelOk tasks
        (FVal.fin (RM_EE_Scheduler.work_max tasks rq busy cur / window)) f = true) ∧
    RM_EE_Scheduler.work_max tasks rq busy cur
      = (rq.map (fun J => J.remaining_work
            * ((RM_EE_Scheduler.taskAt tasks J.task_id).wcet 2 : ℚ))).sum
        + (if busy = true then
            cur.remaining_work * ((RM_EE_Scheduler.taskAt tasks cur.task_id).wcet 2 : ℚ)
           else 0) := by
  have hsel := select_frequency_eq tasks rq busy cur window
  rw [fdiv_of_ne_zero _ _ (ne_of_gt hwin)] at hsel
  refine ⟨select_frequency_range tasks rq busy cur window, ?_, ?_,
    fun f hw => levelOk_fin_iff tasks _ f hw, fun f hw => levelOk_fin_of_zero tasks _ f hw, ?_⟩
  · intro f hf hok
    rw [hsel]
    by_cases h0 : RM_EE_Scheduler.levelOk tasks
        (FVal.fin (RM_EE_Scheduler.work_max tasks rq busy cur / window)) 0 = true
    · rw [if_pos h0]
      exact ⟨by rcases hf with rfl | rfl | rfl <;> decide, h0⟩
    · rw [if_neg h0]
      by_cases h1 : RM_EE_Scheduler.levelOk tasks
          (FVal.fin (RM_EE_Scheduler.work_max tasks rq busy cur / window)) 1 = true
      · rw [if_pos h1]
        refine ⟨?_, h1⟩
        rcases hf with rfl | rfl | rfl
        · exact absurd hok h0
        · decide
        · decide
      · rw [if_neg h1]
        rcases hf with rfl | rfl | rfl
        · exact absurd hok h0
        · exact absurd hok h1
        · exact ⟨le_refl _, hok⟩
  · intro hnone
    rw [hsel, if_neg (by rw [hnone 0 (Or.inl rfl)]; simp),
      if_neg (by rw [hnone 1 (Or.inr (Or.inl rfl))]; simp)]
  · unfold RM_EE_Scheduler.work_max
    rw [foldl_add_eq_sum (fun J : RM_EE_Scheduler.Job => J.remaining_work
      * ((RM_EE_Scheduler.taskAt tasks J.task_id).wcet 2 : ℚ)), zero_add]

/-- Witness for C16: the built-in table at tick 0, Task1 running with window 10. -/
theorem select_frequency_lowest_level_witness :
    (0 : ℚ) < 10 ∧
    (RM_EE_Scheduler.select_frequency RM_EE_Scheduler.tasks
        [⟨1, 0, 15, 1, 0⟩, ⟨2, 0, 20, 1, 0⟩] true ⟨0, 0, 10, 1, 0⟩ 10 = 0 ∨
      RM_EE_Scheduler.select_frequency RM_EE_Scheduler.tasks
        [⟨1, 0, 15, 1, 0⟩, ⟨2, 0, 20, 1, 0⟩] true ⟨0, 0, 10, 1, 0⟩ 10 = 1 ∨
      RM_EE_Scheduler.select_frequency RM_EE_Scheduler.tasks
        [⟨1, 0, 15, 1, 0⟩, ⟨2, 0, 20, 1, 0⟩] true ⟨0, 0, 10, 1, 0⟩ 10 = 2) :=
  ⟨by norm_num,
    (select_frequency_lowest_level RM_EE_Scheduler.tasks
      [⟨1, 0, 15, 1, 0⟩, ⟨2, 0, 20, 1, 0⟩] true ⟨0, 0, 10, 1, 0⟩ 10 (by norm_num)).1⟩

/-- A running-minimum loop ends at the least of its start value and the
candidates it scanned, and that value is one of them. -/
theorem foldl_min_spec {α : Type} (g : α → ℚ) (l : List α) (b : ℚ) :
    l.foldl (fun w x => if g x < w then g x else w) b ≤ b ∧
    (∀ x ∈ l, l.foldl (fun w x => if g x < w then g x else w) b ≤ g x) ∧
    (l.foldl (fun w x => if g x < w then g x else w) b = b ∨
      ∃ x ∈ l, l.foldl (fun w x => if g x < w then g x else w) b = g x) := by
  induction l generalizing b with
  | nil => simp
  | cons a l ih =>
    rw [List.foldl_cons]
    obtain ⟨h1, h2, h3⟩ := ih (if g a < b then g a else b)
    have hle : (if g a < b then g a else b) ≤ b := by
      split_ifs with h
      · exact le_of_lt h
      · exact le_refl _
    have hle2 : (if g a < b then g a else b) ≤ g a := by
      split_ifs with h
      · exact le_refl _
      · exact not_lt.mp h
    refine ⟨le_trans h1 hle, fun x hx => ?_, ?_⟩
    · rcases List.mem_cons.mp hx with rfl | hx
      · exact le_trans h1 hle2
      · exact h2 x hx
    · rcases h3 with h3 | ⟨x, hx, h3⟩
      · by_cases h : g a < b
        · rw [if_pos h] at h3
          exact Or.inr ⟨a, List.mem_cons_self _ _, by rw [if_pos h]; exact h3⟩
        · rw [if_neg h] at h3
          exact Or.inl (by rw [if_neg h]; exact h3)
      · exact Or.inr ⟨x, List.mem_cons_of_mem _ hx, h3⟩

theorem sub64_of_le {a b : Nat} (h : b ≤ a) : sub64 a b = a - b := by
  unfold sub64; rw [if_pos h]

/-- Counterexample to C18 as stated: the built-in table at tick 100.  Task1#10
(deadline 110) and Task3#5 are released and Task1#10 is started; the window
handed to `select_frequency` is `110 - 100 = 10`, although the remaining
horizon `SIMULATION_END - t` is 0. -/
theorem window_exceeds_horizon :
    (RM_EE_Scheduler.step3 RM_EE_Scheduler.tasks
        (RM_EE_Scheduler.step2 100
          (RM_EE_Scheduler.step1 RM_EE_Scheduler.tasks 100
            (RM_EE_Scheduler.run RM_EE_Scheduler.tasks 100)))).cpu_busy = true ∧
    (RM_EE_Scheduler.step3 RM_EE_Scheduler.tasks
        (RM_EE_Scheduler.step2 100
          (RM_EE_Scheduler.step1 RM_EE_Scheduler.tasks 100
            (RM_EE_Scheduler.run RM_EE_Scheduler.tasks 100)))).currentJob
      = ⟨0, 100, 110, 1, 10⟩ ∧
    (RM_EE_Scheduler.step3 RM_EE_Scheduler.tasks
        (RM_EE_Scheduler.step2 100
          (RM_EE_Scheduler.step1 RM_EE_Scheduler.tasks 100
            (RM_EE_Scheduler.run RM_EE_Scheduler.tasks 100)))).readyJobs
      = [⟨2, 100, 120, 1, 5⟩] ∧
    RM_EE_Scheduler.window RM_EE_Scheduler.tasks 100
        (RM_EE_Scheduler.step3 RM_EE_Scheduler.tasks
          (RM_EE_Scheduler.step2 100
            (RM_EE_Scheduler.step1 RM_EE_Scheduler.tasks 100
              (RM_EE_Scheduler.run RM_EE_Scheduler.tasks 100)))) = 10 ∧
    ¬ (RM_EE_Scheduler.window RM_EE_Scheduler.tasks 100
        (RM_EE_Scheduler.step3 RM_EE_Scheduler.tasks
          (RM_EE_Scheduler.step2 100
            (RM_EE_Scheduler.step1 RM_EE_Scheduler.tasks 100
              (RM_EE_Scheduler.run RM_EE_Scheduler.tasks 100))))
        ≤ ((SIMULATION_END - 100 : Nat) : ℚ)) := by
  decide!

/-- C18 (as amended). The window handed to `select_frequency` at tick `t` is
the least of a start value and, for every ready job, the time from `t` to the
variable `next_release` of that job's task, and it is one of these values.
The start value is the running job's `abs_deadline - t` when the processor is
busy (the horizon is then not considered) and `SIMULATION_END - t` when it is
idle.  For a ready job whose task has `phase <= t`, `next_release` is
`phase + ((t - phase) / period + 1) * period`, the first release of that task
after `t`.  Deadlines of ready jobs and tasks without a ready job play no part. -/
theorem window_is_min_of_base_and_next_releases (tasks : List RM_EE_Scheduler.Task)
    (t : Nat) (s : RM_EE_Scheduler.Sim) :
    RM_EE_Scheduler.window tasks t s ≤ (RM_EE_Scheduler.windowBase t s : ℚ) ∧
    (∀ J ∈ s.readyJobs,
      RM_EE_Scheduler.window tasks t s
        ≤ (RM_EE_Scheduler.next_release tasks t J : ℚ) - (t : ℚ)) ∧
    (RM_EE_Scheduler.window tasks t s = (RM_EE_Scheduler.windowBase t s : ℚ) ∨
      ∃ J ∈ s.readyJobs,
        RM_EE_Scheduler.window tasks t s
          = (RM_EE_Scheduler.next_release tasks t J : ℚ) - (t : ℚ)) ∧
    (s.cpu_busy = true → t ≤ s.currentJob.abs_deadline →
      RM_EE_Scheduler.windowBase t s = s.currentJob.abs_deadline - t) ∧
    (s.cpu_busy = false → t ≤ SIMULATION_END →
      RM_EE_Scheduler.windowBase t s = SIMULATION_END - t) ∧
    (∀ J : RM_EE_Scheduler.Job, (RM_EE_Scheduler.taskAt tasks J.task_id).phase ≤ t →
      RM_EE_Scheduler.next_release tasks t J
        = (RM_EE_Scheduler.taskAt tasks J.task_id).phase
          + ((t - (RM_EE_Scheduler.taskAt tasks J.task_id).phase)
              / (RM_EE_Scheduler.taskAt tasks J.task_id).period + 1)
            * (RM_EE_Scheduler.taskAt tasks J.task_id).period) := by
  obtain ⟨h1, h2, h3⟩ := foldl_min_spec
    (fun J => (RM_EE_Scheduler.next_release tasks t J : ℚ) - (t : ℚ)) s.readyJobs
    (RM_EE_Scheduler.windowBase t s : ℚ)
  refine ⟨h1, h2, h3, fun hb hle => ?_, fun hb hle => ?_, fun J hJ => ?_⟩
  · unfold RM_EE_Scheduler.windowBase
    rw [if_pos hb, sub64_of_le hle]
  · unfold RM_EE_Scheduler.windowBase
    rw [if_neg (by simp [hb]), sub64_of_le hle]
  · unfold RM_EE_Scheduler.next_release
    rw [sub64_of_le hJ]

/-! ## C19: energy accounting -/

theorem ee_releaseBody_energy (tasks : List RM_EE_Scheduler.Task) (t : Nat)
    (s : RM_EE_Scheduler.Sim) (i : Nat) :
    (RM_EE_Scheduler.releaseBody tasks t s i).energy_busy = s.energy_busy ∧
    (RM_EE_Scheduler.releaseBody tasks t s i).energy_idle = s.energy_idle := by
  unfold RM_EE_Scheduler.releaseBody
  split_ifs <;> exact ⟨rfl, rfl⟩

theorem ee_step1_energy (tasks : List RM_EE_Scheduler.Task) (t : Nat)
    (s : RM_EE_Scheduler.Sim) :
    (RM_EE_Scheduler.step1 tasks t s).energy_busy = s.energy_busy ∧
    (RM_EE_Scheduler.step1 tasks t s).energy_idle = s.energy_idle := by
  unfold RM_EE_Scheduler.step1
  generalize List.range tasks.length = is
  induction is generalizing s with
  | nil => exact ⟨rfl, rfl⟩
  | cons i rest ih =>
    rw [List.foldl_cons]
    obtain ⟨h1, h2⟩ := ih (RM_EE_Scheduler.releaseBody tasks t s i)
    obtain ⟨k1, k2⟩ := ee_releaseBody_energy tasks t s i
    exact ⟨h1.trans k1, h2.trans k2⟩

theorem ee_missLoop_energy (t : Nat) :
    ∀ (fuel i : Nat) (s : RM_EE_Scheduler.Sim),
      (RM_EE_Scheduler.missLoop t fuel i s).2.energy_busy = s.energy_busy ∧
      (RM_EE_Scheduler.missLoop t fuel i s).2.energy_idle = s.energy_idle := by
  intro fuel
  induction fuel with
  | zero => intro i s; exact ⟨rfl, rfl⟩
  | succ fuel ih =>
    intro i s
    simp only [RM_EE_Scheduler.missLoop]
    split_ifs
    · exact ih i _
    · exact ih (i + 1) s
    · exact ⟨rfl, rfl⟩

theorem ee_step2_energy (t : Nat) (s : RM_EE_Scheduler.Sim) :
    (RM_EE_Scheduler.step2 t s).energy_busy = s.energy_busy ∧
    (RM_EE_Scheduler.step2 t s).energy_idle = s.energy_idle := by
  unfold RM_EE_Scheduler.step2
  obtain ⟨h1, h2⟩ := ee_missLoop_energy t (RM_EE_Scheduler.missCurrent t s).readyJobs.length 0
    (RM_EE_Scheduler.missCurrent t s)
  have hc : (RM_EE_Scheduler.missCurrent t s).energy_busy = s.energy_busy ∧
      (RM_EE_Scheduler.missCurrent t s).energy_idle = s.energy_idle := by
    unfold RM_EE_Scheduler.missCurrent
    split_ifs <;> exact ⟨rfl, rfl⟩
  exact ⟨h1.trans hc.1, h2.trans hc.2⟩

theorem ee_step3_energy (tasks : List RM_EE_Scheduler.Task) (s : RM_EE_Scheduler.Sim) :
    (RM_EE_Scheduler.step3 tasks s).energy_busy = s.energy_busy ∧
    (RM_EE_Scheduler.step3 tasks s).energy_idle = s.energy_idle := by
  unfold RM_EE_Scheduler.step3
  split_ifs <;> exact ⟨rfl, rfl⟩

theorem ee_beforeExecute_energy (tasks : List RM_EE_Scheduler.Task) (t : Nat)
    (s : RM_EE_Scheduler.Sim) :
    (RM_EE_Scheduler.beforeExecute tasks t s).energy_busy = s.energy_busy ∧
    (RM_EE_Scheduler.beforeExecute tasks t s).energy_idle = s.energy_idle := by
  obtain ⟨a1, a2⟩ := ee_step1_energy tasks t s
  obtain ⟨b1, b2⟩ := ee_step2_energy t (RM_EE_Scheduler.step1 tasks t s)
  obtain ⟨c1, c2⟩ := ee_step3_energy tasks (RM_EE_Scheduler.step2 t (RM_EE_Scheduler.step1 tasks t s))
  exact ⟨c1.trans (b1.trans a1), c2.trans (b2.trans a2)⟩

theorem ee_step5_energy (tasks : List RM_EE_Scheduler.Task) (s : RM_EE_Scheduler.Sim) :
    (s.cpu_busy = true →
      (RM_EE_Scheduler.step5 tasks s).energy_busy
        = s.energy_busy + RM_EE_Scheduler.power_levels.getD s.currentFrequency.toNat 0 ∧
      (RM_EE_Scheduler.step5 tasks s).energy_idle = s.energy_idle) ∧
    (s.cpu_busy = false →
      (RM_EE_Scheduler.step5 tasks s).energy_idle
        = s.energy_idle + RM_EE_Scheduler.power_idle ∧
      (RM_EE_Scheduler.step5 tasks s).energy_busy = s.energy_busy) := by
  unfold RM_EE_Scheduler.step5
  constructor
  · intro hb
    rw [if_pos hb]
    split_ifs <;> exact ⟨rfl, rfl⟩
  · intro hb
    rw [if_neg (by simp [hb])]
    exact ⟨rfl, rfl⟩

theorem power_level_pos {f : Int} (h : f = 0 ∨ f = 1 ∨ f = 2) :
    0 < RM_EE_Scheduler.power_levels.getD f.toNat 0 := by
  rcases h with rfl | rfl | rfl
  · show (0 : ℚ) < 1
    norm_num
  · show (0 : ℚ) < 2
    norm_num
  · show (0 : ℚ) < 3
    norm_num

theorem ee_beforeExecute_level (tasks : List RM_EE_Scheduler.Task) (t : Nat)
    (s : RM_EE_Scheduler.Sim) :
    (RM_EE_Scheduler.beforeExecute tasks t s).currentFrequency
      = RM_EE_Scheduler.select_frequency tasks
          (RM_EE_Scheduler.step3 tasks
            (RM_EE_Scheduler.step2 t (RM_EE_Scheduler.step1 tasks t s))).readyJobs
          (RM_EE_Scheduler.step3 tasks
            (RM_EE_Scheduler.step2 t (RM_EE_Scheduler.step1 tasks t s))).cpu_busy
          (RM_EE_Scheduler.step3 tasks
            (RM_EE_Scheduler.step2 t (RM_EE_Scheduler.step1 tasks t s))).currentJob
          (RM_EE_Scheduler.window tasks t
            (RM_EE_Scheduler.step3 tasks
              (RM_EE_Scheduler.step2 t (RM_EE_Scheduler.step1 tasks t s)))) := rfl

/-- One tick changes exactly one energy accumulator. -/
theorem ee_tick_energy (tasks : List RM_EE_Scheduler.Task) (t : Nat)
    (s : RM_EE_Scheduler.Sim) :
    ((RM_EE_Scheduler.beforeExecute tasks t s).cpu_busy = true →
      (RM_EE_Scheduler.tick tasks t s).energy_busy
        = s.energy_busy + RM_EE_Scheduler.power_levels.getD
            (RM_EE_Scheduler.beforeExecute tasks t s).currentFrequency.toNat 0 ∧
      (RM_EE_Scheduler.tick tasks t s).energy_idle = s.energy_idle ∧
      (RM_EE_Scheduler.tick tasks t s).energy_busy ≠ s.energy_busy) ∧
    ((RM_EE_Scheduler.beforeExecute tasks t s).cpu_busy = false →
      (RM_EE_Scheduler.tick tasks t s).energy_idle
        = s.energy_idle + RM_EE_Scheduler.power_idle ∧
      (RM_EE_Scheduler.tick tasks t s).energy_busy = s.energy_busy ∧
      (RM_EE_Scheduler.tick tasks t s).energy_idle ≠ s.energy_idle) := by
  obtain ⟨e1, e2⟩ := ee_beforeExecute_energy tasks t s
  obtain ⟨hbusy, hidle⟩ := ee_step5_energy tasks (RM_EE_Scheduler.beforeExecute tasks t s)
  unfold RM_EE_Scheduler.tick
  constructor
  · intro hb
    obtain ⟨k1, k2⟩ := hbusy hb
    rw [k1, k2, e1, e2]
    refine ⟨rfl, rfl, ?_⟩
    have hpos := power_level_pos
      (f := (RM_EE_Scheduler.beforeExecute tasks t s).currentFrequency)
      (by rw [ee_beforeExecute_level]; exact select_frequency_range _ _ _ _ _)
    intro h
    linarith
  · intro hb
    obtain ⟨k1, k2⟩ := hidle hb
    rw [k1, k2, e1, e2]
    refine ⟨rfl, rfl, ?_⟩
    intro h
    have : RM_EE_Scheduler.power_idle = 0 := by linarith
    norm_num [RM_EE_Scheduler.power_idle] at this

/-- C19. The DVFS engine, in exact arithmetic.  In every tick exactly one
energy accumulator changes: when a job is running on entry to the execute step,
`energy_busy` grows by `power_levels[currentFrequency]` for the level that
`select_frequency` chose in that tick and `energy_idle` is unchanged; otherwise
`energy_idle` grows by `power_idle` and `energy_busy` is unchanged.  Hence
after `n` ticks `energy_busy` is the sum over the busy ticks of the power at
the level of that tick, `energy_idle` is `power_idle` times the number of idle
ticks, and busy ticks plus idle ticks make `n`. -/
theorem energy_accounting (tasks : List RM_EE_Scheduler.Task) :
    (∀ (t : Nat) (s : RM_EE_Scheduler.Sim),
      (RM_EE_Scheduler.beforeExecute tasks t s).currentFrequency
        = RM_EE_Scheduler.select_frequency tasks
            (RM_EE_Scheduler.step3 tasks
              (RM_EE_Scheduler.step2 t (RM_EE_Scheduler.step1 tasks t s))).readyJobs
            (RM_EE_Scheduler.step3 tasks
              (RM_EE_Scheduler.step2 t (RM_EE_Scheduler.step1 tasks t s))).cpu_busy
            (RM_EE_Scheduler.step3 tasks
              (RM_EE_Scheduler.step2 t (RM_EE_Scheduler.step1 tasks t s))).currentJob
            (RM_EE_Scheduler.window tasks t
              (RM_EE_Scheduler.step3 tasks
                (RM_EE_Scheduler.step2 t (RM_EE_Scheduler.step1 tasks t s)))) ∧
      ((RM_EE_Scheduler.beforeExecute tasks t s).cpu_busy = true →
        (RM_EE_Scheduler.tick tasks t s).energy_busy
          = s.energy_busy + RM_EE_Scheduler.power_levels.getD
              (RM_EE_Scheduler.beforeExecute tasks t s).currentFrequency.toNat 0 ∧
        (RM_EE_Scheduler.tick tasks t s).energy_idle = s.energy_idle ∧
        (RM_EE_Scheduler.tick tasks t s).energy_busy ≠ s.energy_busy) ∧
      ((RM_EE_Scheduler.beforeExecute tasks t s).cpu_busy = false →
        (RM_EE_Scheduler.tick tasks t s).energy_idle
          = s.energy_idle + RM_EE_Scheduler.power_idle ∧
        (RM_EE_Scheduler.tick tasks t s).energy_busy = s.energy_busy ∧
        (RM_EE_Scheduler.tick tasks t s).energy_idle ≠ s.energy_idle)) ∧
    (∀ n : Nat,
      (RM_EE_Scheduler.run tasks n).energy_busy
        = ((List.range n).map (fun k =>
            if busyAt tasks k = true then
              RM_EE_Scheduler.power_levels.getD (levelAt tasks k).toNat 0
            else 0)).sum ∧
      (RM_EE_Scheduler.run tasks n).energy_idle
        = RM_EE_Scheduler.power_idle
          * (((List.range n).countP (fun k => !busyAt tasks k) : Nat) : ℚ) ∧
      (List.range n).countP (fun k => busyAt tasks k)
        + (List.range n).countP (fun k => !busyAt tasks k) = n) := by
  refine ⟨fun t s => ⟨ee_beforeExecute_level tasks t s, ee_tick_energy tasks t s⟩, fun n => ?_⟩
  induction n with
  | zero => simp [RM_EE_Scheduler.run, RM_EE_Scheduler.Sim.init]
  | succ n ih =>
    obtain ⟨ih1, ih2, ih3⟩ := ih
    obtain ⟨hb, hi⟩ := ee_tick_energy tasks n (RM_EE_Scheduler.run tasks n)
    rw [List.range_succ, List.map_append, List.sum_append, List.countP_append,
      List.countP_append]
    simp only [List.map_cons, List.map_nil, List.sum_cons, List.sum_nil, add_zero,
      List.countP_cons, List.countP_nil, zero_add, RM_EE_Scheduler.run]
    by_cases hbusy : busyAt tasks n = true
    · obtain ⟨k1, k2, _⟩ := hb hbusy
      rw [k1, k2, ih1, ih2]
      simp only [hbusy, if_true, Bool.not_true, levelAt]
      refine ⟨?_, ?_, ?_⟩
      · trivial
      · simp
      · simp; omega
    · have hf : busyAt tasks n = false := by simpa using hbusy
      obtain ⟨k1, k2, _⟩ := hi hf
      rw [k1, k2, ih1, ih2]
      simp only [hf, Bool.not_false, if_true]
      refine ⟨?_, ?_, ?_⟩
      · simp
      · simp; ring1
      · simp; omega

/-! ## C20: step 3 of `RM_EE_Scheduler.c` -/

theorem ee_step3_busy (tasks : List RM_EE_Scheduler.Task) (s : RM_EE_Scheduler.Sim)
    (h : s.cpu_busy = true) : RM_EE_Scheduler.step3 tasks s = s := by
  unfold RM_EE_Scheduler.step3
  rw [if_neg (by simp [h])]

theorem ee_step1_preemptions (tasks : List RM_EE_Scheduler.Task) (t : Nat)
    (s : RM_EE_Scheduler.Sim) :
    (RM_EE_Scheduler.step1 tasks t s).preemptions = s.preemptions := by
  unfold RM_EE_Scheduler.step1
  generalize List.range tasks.length = is
  induction is generalizing s with
  | nil => rfl
  | cons i rest ih =>
    rw [List.foldl_cons, ih]
    unfold RM_EE_Scheduler.releaseBody
    split_ifs <;> rfl

theorem ee_missLoop_preemptions (t : Nat) :
    ∀ (fuel i : Nat) (s : RM_EE_Scheduler.Sim),
      (RM_EE_Scheduler.missLoop t fuel i s).2.preemptions = s.preemptions := by
  intro fuel
  induction fuel with
  | zero => intro i s; rfl
  | succ fuel ih =>
    intro i s
    simp only [RM_EE_Scheduler.missLoop]
    split_ifs
    · exact ih i _
    · exact ih (i + 1) s
    · rfl

theorem ee_tick_preemptions (tasks : List RM_EE_Scheduler.Task) (t : Nat)
    (s : RM_EE_Scheduler.Sim) :
    (RM_EE_Scheduler.tick tasks t s).preemptions = s.preemptions := by
  have h2 : ∀ s0 : RM_EE_Scheduler.Sim,
      (RM_EE_Scheduler.step2 t s0).preemptions = s0.preemptions := by
    intro s0
    unfold RM_EE_Scheduler.step2
    rw [ee_missLoop_preemptions]
    unfold RM_EE_Scheduler.missCurrent
    split_ifs <;> rfl
  have h3 : ∀ s0 : RM_EE_Scheduler.Sim,
      (RM_EE_Scheduler.step3 tasks s0).preemptions = s0.preemptions := by
    intro s0
    unfold RM_EE_Scheduler.step3
    split_ifs <;> rfl
  have h5 : ∀ s0 : RM_EE_Scheduler.Sim,
      (RM_EE_Scheduler.step5 tasks s0).preemptions = s0.preemptions := by
    intro s0
    unfold RM_EE_Scheduler.step5
    split_ifs <;> rfl
  unfold RM_EE_Scheduler.tick RM_EE_Scheduler.beforeExecute
  rw [h5]
  show (RM_EE_Scheduler.step3 tasks
    (RM_EE_Scheduler.step2 t (RM_EE_Scheduler.step1 tasks t s))).preemptions = _
  rw [h3, h2, ee_step1_preemptions]

/-- C20 fails on `RM_EE_Scheduler.c`: step 3 has no branch for a busy
processor.  It leaves every busy state unchanged, and `preemptions` is 0 after
any number of ticks on any table.  On `lateArrivalTasksEE`, tick 1 reaches step
3 with a job of task 0 (period 20) running and a job of task 1 (period 10)
ready, the best ready job under RM; nothing is preempted.  The sibling
`RM_Scheduler.c` on the same periods and phases preempts at that tick. -/
theorem ee_step3_never_preempts :
    (∀ (tasks : List RM_EE_Scheduler.Task) (s : RM_EE_Scheduler.Sim),
      s.cpu_busy = true → RM_EE_Scheduler.step3 tasks s = s) ∧
    (∀ (tasks : List RM_EE_Scheduler.Task) (n : Nat),
      (RM_EE_Scheduler.run tasks n).preemptions = 0) ∧
    (lateArrivalState.cpu_busy = true ∧
      lateArrivalState.currentJob = ⟨0, 0, 20, 4 / 5, 0⟩ ∧
      lateArrivalState.readyJobs = [⟨1, 1, 11, 1, 0⟩] ∧
      RM_EE_Scheduler.rq_highest_rm_idx lateArrivalTasksEE lateArrivalState.readyJobs = 0 ∧
      (RM_EE_Scheduler.taskAt lateArrivalTasksEE
          (RM_EE_Scheduler.jobAt lateArrivalState.readyJobs 0).task_id).period
        < (RM_EE_Scheduler.taskAt lateArrivalTasksEE
            lateArrivalState.currentJob.task_id).period ∧
      RM_EE_Scheduler.step3 lateArrivalTasksEE lateArrivalState = lateArrivalState ∧
      (RM_EE_Scheduler.step3 lateArrivalTasksEE lateArrivalState).preemptions = 0) ∧
    ((RM_Scheduler.step3 lateArrivalTasks
        (RM_Scheduler.step2 1 (step1 lateArrivalTasks 1
          (RM_Scheduler.run lateArrivalTasks 1)))).preemptions = 1 ∧
      (RM_Scheduler.step3 lateArrivalTasks
        (RM_Scheduler.step2 1 (step1 lateArrivalTasks 1
          (RM_Scheduler.run lateArrivalTasks 1)))).currentJob = ⟨1, 1, 11, 1, 0⟩) := by
  refine ⟨ee_step3_busy, fun tasks n => ?_, by decide!, by decide⟩
  induction n with
  | zero => rfl
  | succ n ih =>
    simp only [RM_EE_Scheduler.run]
    rw [ee_tick_preemptions, ih]

/-! ## C21: the built-in table of `RM_EE_Scheduler.c` -/

/-- C21 fails on `RM_EE_Scheduler.c`: every task of the built-in table has a
positive period and a positive deadline, but its WCET array, documented as
indexed low, medium, high frequency, is strictly increasing
(`wcet[0] < wcet[1] < wcet[2]`): {1, 2, 3}, {2, 3, 4} and {3, 4, 5}.  No task has
a non-increasing array. -/
theorem ee_builtin_wcet_increasing :
    RM_EE_Scheduler.tasks
      = [⟨10, 1, 2, 3, 10, 0⟩, ⟨15, 2, 3, 4, 15, 0⟩, ⟨20, 3, 4, 5, 20, 0⟩] ∧
    (∀ τ ∈ RM_EE_Scheduler.tasks,
      0 < τ.period ∧ 0 < τ.deadline ∧ τ.wcet 0 < τ.wcet 1 ∧ τ.wcet 1 < τ.wcet 2) ∧
    (∀ τ ∈ RM_EE_Scheduler.tasks, ¬ (τ.wcet 0 ≥ τ.wcet 1 ∧ τ.wcet 1 ≥ τ.wcet 2)) := by
  decide

/-! ## C22: preemption in `RM_Scheduler.c` needs a strictly smaller period -/

theorem rm_step3_busy_eq (tasks : List Task) (s : Sim) (hbusy : s.cpu_busy = true) :
    RM_Scheduler.step3 tasks s =
      if rq_highest_rm_idx tasks s.readyJobs ≠ -1 ∧
          (taskAt tasks (jobAt s.readyJobs (rq_highest_rm_idx tasks s.readyJobs).toNat).task_id).period
            < (taskAt tasks s.currentJob.task_id).period then
        { s with
          currentJob := jobAt (rq_push s.readyJobs s.currentJob)
            (rq_highest_rm_idx tasks s.readyJobs).toNat
          readyJobs := rq_remove_idx (rq_push s.readyJobs s.currentJob)
            (rq_highest_rm_idx tasks s.readyJobs)
          preemptions := s.preemptions + 1 }
      else s := by
  unfold RM_Scheduler.step3
  rw [if_neg (by simp [hbusy])]

/-- C22. Step 3 of `RM_Scheduler.c` on a busy processor.  If no ready job
belongs to a task of strictly smaller period than the running job's task
(equal periods included), step 3 leaves the whole state unchanged: running
job, ready set and preemption counter.  Conversely, whenever step 3 changes
the state, or the preemption counter, the job selected by `rq_highest_rm_idx`
has a strictly smaller task period than the running job. -/
theorem rm_preempt_only_smaller_period (tasks : List Task) (s : Sim)
    (hbusy : s.cpu_busy = true) :
    ((∀ J ∈ s.readyJobs,
        ¬ (taskAt tasks J.task_id).period < (taskAt tasks s.currentJob.task_id).period) →
      RM_Scheduler.step3 tasks s = s) ∧
    (RM_Scheduler.step3 tasks s ≠ s →
      rq_highest_rm_idx tasks s.readyJobs ≠ -1 ∧
      (taskAt tasks (jobAt s.readyJobs (rq_highest_rm_idx tasks s.readyJobs).toNat).task_id).period
        < (taskAt tasks s.currentJob.task_id).period) ∧
    ((RM_Scheduler.step3 tasks s).preemptions ≠ s.preemptions →
      rq_highest_rm_idx tasks s.readyJobs ≠ -1 ∧
      (taskAt tasks (jobAt s.readyJobs (rq_highest_rm_idx tasks s.readyJobs).toNat).task_id).period
        < (taskAt tasks s.currentJob.task_id).period) := by
  have heq := rm_step3_busy_eq tasks s hbusy
  refine ⟨fun hall => ?_, fun hne => ?_, fun hne => ?_⟩
  · rw [heq, if_neg]
    rintro ⟨hidx, hlt⟩
    obtain ⟨i, hbest, hi⟩ := idx_of_ne_neg_one_rm tasks _ hidx
    rw [hbest, Int.toNat_ofNat] at hlt
    exact hall _ (jobAt_mem hi) hlt
  · by_contra hg
    rw [heq, if_neg hg] at hne
    exact hne rfl
  · by_contra hg
    rw [heq, if_neg hg] at hne
    exact hne rfl

/-- Witness for C22: the busy state `exBusy`, whose ready job has the period of the running job. -/
theorem rm_preempt_only_smaller_period_witness :
    exBusy.cpu_busy = true ∧ RM_Scheduler.step3 exTasks exBusy = exBusy :=
  ⟨by decide, (rm_preempt_only_smaller_period exTasks exBusy (by decide)).1 (by decide)⟩

/-! ## C23: `selfattempt.c` after step 3 -/

/-- C23. Step 3 of `selfattempt.c`, from any state and so at every tick of any
run: afterwards, if the ready set is non-empty the processor is busy, and
whenever the processor is busy the running job's `abs_deadline` is at most the
`abs_deadline` of every job in the ready set. -/
theorem edf_step3_runs_earliest (s : Sim) :
    ((selfattempt.step3 s).readyJobs ≠ [] → (selfattempt.step3 s).cpu_busy = true) ∧
    ((selfattempt.step3 s).cpu_busy = true →
      ∀ J ∈ (selfattempt.step3 s).readyJobs,
        (selfattempt.step3 s).currentJob.abs_deadline ≤ J.abs_deadline) ∧
    (∀ (tasks : List Task) (n : Nat),
      ((selfattempt.step3 (RM_Scheduler.step2 n
          (step1 tasks n (selfattempt.run tasks n)))).readyJobs ≠ [] →
        (selfattempt.step3 (RM_Scheduler.step2 n
          (step1 tasks n (selfattempt.run tasks n)))).cpu_busy = true) ∧
      ((selfattempt.step3 (RM_Scheduler.step2 n
          (step1 tasks n (selfattempt.run tasks n)))).cpu_busy = true →
        ∀ J ∈ (selfattempt.step3 (RM_Scheduler.step2 n
            (step1 tasks n (selfattempt.run tasks n)))).readyJobs,
          (selfattempt.step3 (RM_Scheduler.step2 n
            (step1 tasks n (selfattempt.run tasks n)))).currentJob.abs_deadline
            ≤ J.abs_deadline)) := by
  have key : ∀ s0 : Sim,
      ((selfattempt.step3 s0).readyJobs ≠ [] → (selfattempt.step3 s0).cpu_busy = true) ∧
      ((selfattempt.step3 s0).cpu_busy = true →
        ∀ J ∈ (selfattempt.step3 s0).readyJobs,
          (selfattempt.step3 s0).currentJob.abs_deadline ≤ J.abs_deadline) := by
    intro s0
    unfold selfattempt.step3
    by_cases hb : s0.cpu_busy = false
    · rw [if_pos hb]
      simp only []
      by_cases hidx : rq_earliest_deadline_idx s0.readyJobs ≠ -1
      · rw [if_pos hidx]
        have hne : s0.readyJobs ≠ [] := by
          intro h; rw [h] at hidx; exact hidx rfl
        obtain ⟨i, hbest, hi, hmin, _⟩ := edf_idx_of_ne_nil s0.readyJobs hne
        refine ⟨fun _ => rfl, fun _ J hJ => ?_⟩
        simp only [hbest, Int.toNat_ofNat] at hJ ⊢
        exact hmin J (mem_rq_remove_idx hJ)
      · rw [if_neg hidx]
        have hnil : s0.readyJobs = [] := by
          by_contra hne
          obtain ⟨i, hbest, _⟩ := edf_idx_of_ne_nil s0.readyJobs hne
          rw [hbest] at hidx
          exact hidx (by omega)
        exact ⟨fun h => absurd hnil h, fun h => by rw [hb] at h; exact absurd h (by simp)⟩
    · rw [if_neg hb]
      simp only []
      have hbt : s0.cpu_busy = true := by simpa using hb
      by_cases hg : rq_earliest_deadline_idx s0.readyJobs ≠ -1 ∧
          (jobAt s0.readyJobs (rq_earliest_deadline_idx s0.readyJobs).toNat).abs_deadline
            < s0.currentJob.abs_deadline
      · rw [if_pos hg]
        obtain ⟨hidx, hlt⟩ := hg
        have hne : s0.readyJobs ≠ [] := by
          intro h; rw [h] at hidx; exact hidx rfl
        obtain ⟨i, hbest, hi, hmin, _⟩ := edf_idx_of_ne_nil s0.readyJobs hne
        refine ⟨fun _ => hbt, fun _ J hJ => ?_⟩
        simp only [hbest, Int.toNat_ofNat] at hJ hlt ⊢
        rw [jobAt_rq_push _ hi]
        rcases mem_rq_push (mem_rq_remove_idx hJ) with h | h
        · exact hmin J h
        · rw [h]; exact le_of_lt hlt
      · rw [if_neg hg]
        refine ⟨fun _ => hbt, fun _ J hJ => ?_⟩
        have hne : s0.readyJobs ≠ [] := List.ne_nil_of_mem hJ
        obtain ⟨i, hbest, hi, hmin, _⟩ := edf_idx_of_ne_nil s0.readyJobs hne
        have hge : ¬ (jobAt s0.readyJobs i).abs_deadline < s0.currentJob.abs_deadline := by
          intro hlt
          apply hg
          rw [hbest]
          exact ⟨by omega, by simpa using hlt⟩
        have := hmin J hJ
        omega
  exact ⟨(key s).1, (key s).2, fun tasks n => key _⟩

/-! ## C24: remaining work of live jobs in `RM_Scheduler.c` -/

theorem remInv_step1 (tasks : List Task) (hwcet : ∀ ti ∈ tasks, 1 ≤ ti.wcet) (t : Nat) (s : Sim)
    (hlen : s.next_seq.length = tasks.length) (h : remInv tasks s) :
    remInv tasks (step1 tasks t s) := by
  intro J hJ
  rcases liveJobs_step1 tasks t s hlen hJ with hJ | hJ
  · exact h J hJ
  · obtain ⟨i, hi, _, rfl⟩ := mem_releasedAt hJ
    exact ⟨i, rfl, hi, hwcet _ (taskAt_mem hi), le_refl _⟩

theorem remInv_step2 (tasks : List Task) (t : Nat) (s : Sim) (h : remInv tasks s) :
    remInv tasks (RM_Scheduler.step2 t s) :=
  fun J hJ => h J (liveJobs_step2 t s hJ)

theorem remInv_step3 (tasks : List Task) (s : Sim) (h : remInv tasks s) :
    remInv tasks (RM_Scheduler.step3 tasks s) :=
  fun J hJ => h J (liveJobs_step3 tasks s hJ)

theorem remInv_step4 (tasks : List Task) (s : Sim) (h : remInv tasks s) :
    remInv tasks (RM_Scheduler.step4 s) := by
  intro J hJ
  rw [mem_liveJobs] at hJ
  by_cases hb : s.cpu_busy = true
  · obtain ⟨i, hid, hi, h1, h2⟩ := h s.currentJob (mem_liveJobs.mpr (Or.inl ⟨hb, rfl⟩))
    have hd : decr32 s.currentJob.remaining = s.currentJob.remaining - 1 := decr32_pos h1
    rw [rm_step4_busy s hb] at hJ
    by_cases hz : decr32 s.currentJob.remaining = 0
    · rw [if_pos hz] at hJ
      rcases hJ with ⟨hc, _⟩ | hJ
      · exact absurd hc Bool.false_ne_true
      · exact h J (mem_liveJobs.mpr (Or.inr hJ))
    · rw [if_neg hz] at hJ
      rcases hJ with ⟨_, hc⟩ | hJ
      · rw [hc]
        refine ⟨i, hid, hi, ?_, ?_⟩
        · show 1 ≤ decr32 s.currentJob.remaining
          omega
        · show decr32 s.currentJob.remaining ≤ _
          omega
      · exact h J (mem_liveJobs.mpr (Or.inr hJ))
  · have hbf : s.cpu_busy = false := by simpa using hb
    rw [rm_step4_idle s hbf] at hJ
    exact h J (mem_liveJobs.mpr hJ)

theorem remInv_run (tasks : List Task) (hwcet : ∀ ti ∈ tasks, 1 ≤ ti.wcet) :
    ∀ n : Nat, remInv tasks (RM_Scheduler.run tasks n) := by
  intro n
  induction n with
  | zero =>
    intro J hJ
    simp [RM_Scheduler.run, Sim.init, liveJobs] at hJ
  | succ n ih =>
    simp only [RM_Scheduler.run, RM_Scheduler.tick]
    exact remInv_step4 _ _ (remInv_step3 _ _ (remInv_step2 _ _ _
      (remInv_step1 _ hwcet _ _ (idInv_run tasks n).2.2 ih)))

theorem remInv_beforeExecute (tasks : List Task) (hwcet : ∀ ti ∈ tasks, 1 ≤ ti.wcet) (n : Nat) :
    remInv tasks (RM_Scheduler.beforeExecute tasks n) :=
  remInv_step3 _ _ (remInv_step2 _ _ _
    (remInv_step1 _ hwcet _ _ (idInv_run tasks n).2.2 (remInv_run tasks hwcet n)))

theorem remInv_bounds {tasks : List Task} {s : Sim} (h : remInv tasks s) :
    ∀ J ∈ liveJobs s, 0 ≤ J.task_id ∧ J.task_id < (tasks.length : Int) ∧
      1 ≤ J.remaining ∧ J.remaining ≤ (taskAt tasks J.task_id).wcet := by
  intro J hJ
  obtain ⟨i, hid, hi, h1, h2⟩ := h J hJ
  rw [hid]
  exact ⟨by omega, by omega, h1, h2⟩

/-- C24. Let every task of the table have `wcet >= 1` and `period > 0`.  At
every tick `n` of the loop of `RM_Scheduler.c`, in the state at the start of
the tick, after step 1, after step 2, after step 3 and after the execute step,
every live job (ready, or running while `cpu_busy`) has a task index of the
table and `1 <= remaining <= wcet` of its task.  Hence, when the processor is
busy at the execute step, `remaining--` is applied to a value of at least 1:
the new value is the old one minus one, and the old one is the new one plus
one (no wrap); for a table whose `wcet` fits a `uint32_t` the new value is
below `2^32 - 1`. -/
theorem rm_remaining_bounds (tasks : List Task)
    (hwcet : ∀ ti ∈ tasks, 1 ≤ ti.wcet) (hpos : ∀ ti ∈ tasks, 0 < ti.period) (n : Nat) :
    (∀ s ∈ [RM_Scheduler.run tasks n,
            step1 tasks n (RM_Scheduler.run tasks n),
            RM_Scheduler.step2 n (step1 tasks n (RM_Scheduler.run tasks n)),
            RM_Scheduler.beforeExecute tasks n,
            RM_Scheduler.run tasks (n + 1)],
      ∀ J ∈ liveJobs s, 0 ≤ J.task_id ∧ J.task_id < (tasks.length : Int) ∧
        1 ≤ J.remaining ∧ J.remaining ≤ (taskAt tasks J.task_id).wcet) ∧
    RM_Scheduler.run tasks (n + 1) = RM_Scheduler.step4 (RM_Scheduler.beforeExecute tasks n) ∧
    ((RM_Scheduler.beforeExecute tasks n).cpu_busy = true →
      1 ≤ (RM_Scheduler.beforeExecute tasks n).currentJob.remaining ∧
      decr32 (RM_Scheduler.beforeExecute tasks n).currentJob.remaining
        = (RM_Scheduler.beforeExecute tasks n).currentJob.remaining - 1 ∧
      (RM_Scheduler.run tasks (n + 1)).currentJob.remaining + 1
        = (RM_Scheduler.beforeExecute tasks n).currentJob.remaining ∧
      ((∀ ti ∈ tasks, ti.wcet ≤ UINT32_MAX) →
        (RM_Scheduler.run tasks (n + 1)).currentJob.remaining < UINT32_MAX)) := by
  have hlen := (run_seq_inv tasks hpos n).1
  have h0 := remInv_run tasks hwcet n
  have h1 := remInv_step1 tasks hwcet n _ hlen h0
  have h2 := remInv_step2 tasks n _ h1
  have h3 := remInv_beforeExecute tasks hwcet n
  have h4 := remInv_run tasks hwcet (n + 1)
  refine ⟨?_, rfl, fun hb => ?_⟩
  · intro s hs
    simp only [List.mem_cons, List.mem_singleton, List.not_mem_nil, or_false] at hs
    rcases hs with rfl | rfl | rfl | rfl | rfl
    · exact remInv_bounds h0
    · exact remInv_bounds h1
    · exact remInv_bounds h2
    · exact remInv_bounds h3
    · exact remInv_bounds h4
  · obtain ⟨i, hid, hi, hr1, hr2⟩ := h3 _ (mem_liveJobs.mpr (Or.inl ⟨hb, rfl⟩))
    have hd := decr32_pos hr1
    have hrun : (RM_Scheduler.run tasks (n + 1)).currentJob.remaining
        = decr32 (RM_Scheduler.beforeExecute tasks n).currentJob.remaining := by
      show (RM_Scheduler.step4 (RM_Scheduler.beforeExecute tasks n)).currentJob.remaining = _
      rw [rm_step4_busy _ hb]
      by_cases hz : decr32 (RM_Scheduler.beforeExecute tasks n).currentJob.remaining = 0
      · rw [if_pos hz]
      · rw [if_neg hz]
    refine ⟨hr1, hd, by omega, fun hmax => ?_⟩
    have hw : (taskAt tasks (i : Int)).wcet ≤ UINT32_MAX := hmax _ (taskAt_mem hi)
    omega

/-- Witness for C24: the built-in table of `RM_Scheduler.c` at tick 3. -/
theorem rm_remaining_bounds_witness :
    (∀ ti ∈ RM_Scheduler.tasks, 1 ≤ ti.wcet) ∧ (∀ ti ∈ RM_Scheduler.tasks, 0 < ti.period) ∧
    (RM_Scheduler.beforeExecute RM_Scheduler.tasks 3).cpu_busy = true ∧
    (RM_Scheduler.run RM_Scheduler.tasks 4).currentJob.remaining + 1
      = (RM_Scheduler.beforeExecute RM_Scheduler.tasks 3).currentJob.remaining :=
  ⟨by decide, by decide, by decide,
    ((rm_remaining_bounds RM_Scheduler.tasks (by decide) (by decide) 3).2.2 (by decide)).2.2.1⟩
/-! ## C25: the job at the execute step of `RM_Scheduler.c` is within its deadline -/

/-- After step 2 of `RM_Scheduler.c` at tick `t` no live job passes the lateness test. -/
theorem notLate_step2 (t : Nat) (s : Sim) :
    ∀ J ∈ liveJobs (RM_Scheduler.step2 t s), ¬ late t J := by
  intro J hJ
  have hrq : (RM_Scheduler.missCurrent t s).readyJobs = s.readyJobs := by
    unfold RM_Scheduler.missCurrent; split_ifs <;> rfl
  have hcur : (RM_Scheduler.missCurrent t s).cpu_busy = true →
      ¬ late t (RM_Scheduler.missCurrent t s).currentJob := by
    unfold RM_Scheduler.missCurrent
    split_ifs with hc
    · intro h; simp at h
    · intro hb hl; exact hc ⟨hb, hl⟩
  obtain ⟨_, hperm, _, _, hb, hc, _⟩ :=
    missLoop_inv t (RM_Scheduler.missCurrent t s).readyJobs.length 0
      (RM_Scheduler.missCurrent t s) (by omega)
  rw [mem_liveJobs] at hJ
  unfold RM_Scheduler.step2 at hJ
  rw [hb, hc] at hJ
  rcases hJ with ⟨h1, h2⟩ | hJ
  · rw [h2]; exact hcur h1
  · have := hperm.subset hJ
    simp only [List.take_zero, List.nil_append, List.drop_zero] at this
    simpa using (List.mem_filter.mp this).2

theorem completed_step2 (t : Nat) (s : Sim) :
    (RM_Scheduler.step2 t s).completed = s.completed := by
  obtain ⟨_, _, _, _, _, _, hcomp, _⟩ :=
    missLoop_inv t (RM_Scheduler.missCurrent t s).readyJobs.length 0
      (RM_Scheduler.missCurrent t s) (by omega)
  unfold RM_Scheduler.step2
  rw [hcomp]
  unfold RM_Scheduler.missCurrent; split_ifs <;> rfl

theorem completed_step3 (tasks : List Task) (s : Sim) :
    (RM_Scheduler.step3 tasks s).completed = s.completed := by
  unfold RM_Scheduler.step3
  simp only []
  split_ifs <;> rfl

theorem completed_beforeExecute (tasks : List Task) (n : Nat) :
    (RM_Scheduler.beforeExecute tasks n).completed = (RM_Scheduler.run tasks n).completed := by
  unfold RM_Scheduler.beforeExecute
  rw [completed_step3, completed_step2]
  exact (step1_spec tasks n _ (idInv_run tasks n).2.2).2.2.2.2.2.1

theorem completed_step4 (s : Sim) :
    (RM_Scheduler.step4 s).completed
      = if s.cpu_busy = true ∧ decr32 s.currentJob.remaining = 0 then s.completed + 1
        else s.completed := by
  by_cases hb : s.cpu_busy = true
  · rw [rm_step4_busy s hb]
    by_cases hz : decr32 s.currentJob.remaining = 0
    · rw [if_pos hz, if_pos ⟨hb, hz⟩]
    · rw [if_neg hz, if_neg (fun h => hz h.2)]
  · rw [rm_step4_idle s (by simpa using hb), if_neg (fun h => hb h.1)]

/-- Counterexample to C25 as stated: with the table `stalledZeroTasks` (positive
periods and deadlines) the job of B released at tick 0 has `remaining = 0` and
deadline 1; it never passes the lateness test of step 2, waits behind A, is
selected at tick 3 and is the running job of the execute step of tick 3, two
ticks after its deadline. -/
theorem rm_zero_wcet_runs_after_deadline :
    (∀ ti ∈ stalledZeroTasks, 0 < ti.period ∧ 0 < ti.deadline) ∧
    (RM_Scheduler.beforeExecute stalledZeroTasks 3).cpu_busy = true ∧
    (RM_Scheduler.beforeExecute stalledZeroTasks 3).currentJob
      = { task_id := 1, release_time := 0, abs_deadline := 1, remaining := 0, job_seq := 0 } ∧
    ¬ (3 ≤ (RM_Scheduler.beforeExecute stalledZeroTasks 3).currentJob.abs_deadline) := by
  decide

/-- C25, amended: let every task of the table have `wcet >= 1` and
`period > 0`.  At every tick `n` of `RM_Scheduler.c`, if the processor is busy
on entry to the execute step then the running job has `n <= abs_deadline`, has
work left and does not pass the lateness test.  The counter `completed` changes
in a tick only by the execute step counting that running job, so every counted
job received its last tick of execution at a tick `n <= abs_deadline`. -/
theorem rm_executes_within_deadline (tasks : List Task)
    (hwcet : ∀ ti ∈ tasks, 1 ≤ ti.wcet) (hpos : ∀ ti ∈ tasks, 0 < ti.period) (n : Nat) :
    RM_Scheduler.run tasks (n + 1) = RM_Scheduler.step4 (RM_Scheduler.beforeExecute tasks n) ∧
    ((RM_Scheduler.beforeExecute tasks n).cpu_busy = true →
      n ≤ (RM_Scheduler.beforeExecute tasks n).currentJob.abs_deadline ∧
      1 ≤ (RM_Scheduler.beforeExecute tasks n).currentJob.remaining ∧
      ¬ late n (RM_Scheduler.beforeExecute tasks n).currentJob) ∧
    ((RM_Scheduler.run tasks (n + 1)).completed ≠ (RM_Scheduler.run tasks n).completed →
      (RM_Scheduler.run tasks (n + 1)).completed = (RM_Scheduler.run tasks n).completed + 1 ∧
      (RM_Scheduler.beforeExecute tasks n).cpu_busy = true ∧
      (RM_Scheduler.beforeExecute tasks n).currentJob.remaining = 1 ∧
      n ≤ (RM_Scheduler.beforeExecute tasks n).currentJob.abs_deadline) := by
  have hlen := (run_seq_inv tasks hpos n).1
  have hbusy : (RM_Scheduler.beforeExecute tasks n).cpu_busy = true →
      n ≤ (RM_Scheduler.beforeExecute tasks n).currentJob.abs_deadline ∧
      1 ≤ (RM_Scheduler.beforeExecute tasks n).currentJob.remaining ∧
      ¬ late n (RM_Scheduler.beforeExecute tasks n).currentJob := by
    intro hb
    have hlive : (RM_Scheduler.beforeExecute tasks n).currentJob
        ∈ liveJobs (RM_Scheduler.beforeExecute tasks n) := mem_liveJobs.mpr (Or.inl ⟨hb, rfl⟩)
    obtain ⟨i, _, _, hr1, _⟩ := remInv_beforeExecute tasks hwcet n _ hlive
    have hnl : ¬ late n (RM_Scheduler.beforeExecute tasks n).currentJob :=
      notLate_step2 n _ _ (liveJobs_step3 tasks _ hlive)
    refine ⟨?_, hr1, hnl⟩
    by_contra hgt
    exact hnl ⟨by omega, by omega⟩
  refine ⟨rfl, hbusy, fun hne => ?_⟩
  have hrun : (RM_Scheduler.run tasks (n + 1)).completed
      = (RM_Scheduler.step4 (RM_Scheduler.beforeExecute tasks n)).completed := rfl
  rw [hrun, completed_step4, completed_beforeExecute] at hne ⊢
  by_cases hc : (RM_Scheduler.beforeExecute tasks n).cpu_busy = true ∧
      decr32 (RM_Scheduler.beforeExecute tasks n).currentJob.remaining = 0
  · rw [if_pos hc] at hne ⊢
    obtain ⟨h1, h2, _⟩ := hbusy hc.1
    have hd := decr32_pos h2
    exact ⟨rfl, hc.1, by omega, h1⟩
  · rw [if_neg hc] at hne
    exact absurd rfl hne

/-- Witness for C25: the built-in table of `RM_Scheduler.c` at tick 1, where
the job of Task1 released at tick 0 receives its last tick of execution. -/
theorem rm_executes_within_deadline_witness :
    (∀ ti ∈ RM_Scheduler.tasks, 1 ≤ ti.wcet) ∧ (∀ ti ∈ RM_Scheduler.tasks, 0 < ti.period) ∧
    (RM_Scheduler.beforeExecute RM_Scheduler.tasks 1).cpu_busy = true ∧
    1 ≤ (RM_Scheduler.beforeExecute RM_Scheduler.tasks 1).currentJob.abs_deadline :=
  ⟨by decide, by decide, by decide,
    ((rm_executes_within_deadline RM_Scheduler.tasks (by decide) (by decide) 1).2.1
      (by decide)).1⟩

end Sched
